import Mathlib

/-!
lazydocs: slugs, query sanitisation, docset parsing, indexing, the manifest cache,
Markdown cleaning, the queries of the searcher and the storage of raw bundles

A shallow embedding of the Go packages `internal/model`, `internal/db` and
`internal/data` of lazydocs, followed by theorems about them.

Conventions of the embedding:

* a Go `string` is the list of its Unicode code points (`Str`); every character the
  code compares against (`~`, `#`, the FTS5 special characters, the newline) is ASCII,
  so indexing by byte and indexing by code point select the same separators;
* Go `int`/`int64` values are `Int`; slice lengths are `Nat` and are cast where the
  source stores them in an `int`;
* a Go `error` result is an `Except String _` (or an `Option String` when the function
  returns only an error), the string being the message of the outermost wrapper;
* the SQLite database behind `database/sql` is a pair of row lists together with the
  working copy of the open transaction, if any;
* the network, the disk, the JSON decoder, the HTML converter and the database faults
  are collaborators outside the repository: they enter as fields of `Env`; the clock, the
  cache file and the manifest fetch of the manifest cache as fields of `CacheEnv`; the FTS5
  engine as `Fts`;
* a time is a number of nanoseconds, a `model.Manifest` is `none` for the nil slice;
* for `Storage`, paths follow `path/filepath` on Unix (`Clean`, `Join`), and the file system
  is a working directory with the list of its regular files, each under the elements of
  its absolute path; directories exist as prefixes of those paths, there are no symbolic
  links and no permission errors.
-/

namespace Lazydocs

/-! ## Strings (Go standard library) -/

/-- Go strings, as lists of code points. -/
abbrev Str := List Char

/-- Go byte slices. -/
abbrev Bytes := List (Fin 256)

/-- The code points of a string literal. -/
def str (s : String) : Str := s.toList

/-- The double quote character. -/
def dquote : Char := Char.ofNat 34

/-- The single quote character. -/
def squote : Char := Char.ofNat 39

/-- Go `unicode.IsSpace`: the Latin-1 cases `\t \n \v \f \r`, space, U+0085, U+00A0, and the
`White_Space` table beyond Latin-1. -/
def isSpace (r : Char) : Bool :=
  let n := r.toNat
  (9 ≤ n && n ≤ 13) || n == 0x20 || n == 0x85 || n == 0xA0 || n == 0x1680 ||
  (0x2000 ≤ n && n ≤ 0x200A) || n == 0x2028 || n == 0x2029 || n == 0x202F ||
  n == 0x205F || n == 0x3000

/-- Go `strings.TrimSpace`: drop the leading and the trailing white space. -/
def TrimSpace (s : Str) : Str :=
  ((s.dropWhile isSpace).reverse.dropWhile isSpace).reverse

/-- Go `strings.ReplaceAll(s, string(c), "")` for a one-character `old` and an empty `new`:
every occurrence of `c` is removed. -/
def removeAll (s : Str) (c : Char) : Str := s.filter (fun x => x != c)

/-- Scan of `strings.Fields`: `cur` is the field being read, if one has started. -/
def Fields.scan : Str → Option Str → List Str
  | [], none => []
  | [], some w => [w]
  | c :: cs, cur =>
    if isSpace c then
      match cur with
      | none => Fields.scan cs none
      | some w => w :: Fields.scan cs none
    else Fields.scan cs (some (cur.getD [] ++ [c]))

/-- Go `strings.Fields`: the maximal runs of non-space characters, in order. -/
def Fields (s : Str) : List Str := Fields.scan s none

/-- Go `strings.Join`. -/
def Join : List Str → Str → Str
  | [], _ => []
  | [w], _ => w
  | w :: w2 :: ws, sep => w ++ sep ++ Join (w2 :: ws) sep

/-- Go `strings.Split(s, string(sep))` for a one-character separator. -/
def Split : Str → Char → List Str
  | [], _ => [[]]
  | c :: cs, sep =>
    if c = sep then [] :: Split cs sep
    else
      match Split cs sep with
      | [] => [[c]]
      | w :: ws => (c :: w) :: ws

/-! ## internal/model -/

/-- An installed documentation set (`model.Docset`). -/
structure Docset where
  ID : Int := 0
  Slug : Str := []
  Name : Str := []
  Version : Str := []
  DisplayName : Str := []
  EntryCount : Int := 0
  Mtime : Int := 0
  InstalledAt : Int := 0
  deriving DecidableEq, Repr

/-- A documentation entry (`model.Entry`). -/
structure Entry where
  Docset : Str
  Version : Str
  Symbol : Str
  Title : Str
  Content : Str
  Path : Str
  deriving DecidableEq, Repr

/-- A docset of the DevDocs manifest (`model.ManifestEntry`). -/
structure ManifestEntry where
  Name : Str := []
  Slug : Str := []
  Type_ : Str := []
  Version : Str := []
  Release : Str := []
  Mtime : Int := 0
  DBSize : Int := 0
  deriving DecidableEq, Repr

/-- `Docset.FullSlug`: the slug with the version if applicable. -/
def Docset.FullSlug (d : Docset) : Str :=
  if d.Version ≠ [] then d.Name ++ str "~" ++ d.Version else d.Name

/-- Loop of `ParseSlug`. The counter is `i + 1` for the loop variable `i`, which runs from
`len(slug) - 1` down to `0`; at counter `0` the loop is over and `(slug, "")` is returned. -/
def ParseSlug.loop (slug : Str) : Nat → Str × Str
  | 0 => (slug, [])
  | i + 1 =>
    if slug[i]? = some '~' then (slug.take i, slug.drop (i + 1))
    else ParseSlug.loop slug i

/-- `ParseSlug`: name and version of a slug like `rails~7.1`. -/
def ParseSlug (slug : Str) : Str × Str := ParseSlug.loop slug slug.length

/-! ## internal/db: search -/

/-- The characters with a special meaning in the FTS5 query syntax: quotes, parentheses,
asterisk and colon. -/
def specialChars : List Char := [dquote, squote, '(', ')', '*', ':']

/-- The loop `for i := range words` of `escapeFTS5Query`, from index `i` over the words not
yet visited: the word at index `len(words) - 1` gets a `*`. -/
def escapeFTS5Query.loop (len : Nat) : Nat → List Str → List Str
  | _, [] => []
  | i, w :: ws =>
    (if (i : Int) = (len : Int) - 1 then w ++ str "*" else w) ::
      escapeFTS5Query.loop len (i + 1) ws

/-- `escapeFTS5Query`: strip the FTS5 special characters, split into words, mark the last
word for prefix matching and join with single spaces. -/
def escapeFTS5Query (query : Str) : Str :=
  let query := removeAll query dquote
  let query := removeAll query squote
  let query := removeAll query '('
  let query := removeAll query ')'
  let query := removeAll query '*'
  let query := removeAll query ':'
  let words := Fields query
  if words.length = 0 then []
  else Join (escapeFTS5Query.loop words.length 0 words) (str " ")

/-! ## internal/data: conversion -/

/-- Loop of `cleanMarkdown` over the lines, with the running `blankCount` and `result`. -/
def cleanMarkdown.loop : List Str → Nat → List Str → List Str
  | [], _, result => result
  | line :: rest, blankCount, result =>
    if TrimSpace line = [] then
      if blankCount + 1 ≤ 2 then cleanMarkdown.loop rest (blankCount + 1) (result ++ [line])
      else cleanMarkdown.loop rest (blankCount + 1) result
    else cleanMarkdown.loop rest 0 (result ++ [line])

/-- `cleanMarkdown`: at most two blank lines in a row, then trim. -/
def cleanMarkdown (md : Str) : Str :=
  TrimSpace (Join (cleanMarkdown.loop (Split md '\n') 0 []) (str "\n"))

/-- `Converter.Convert`, over the HTML-to-Markdown library call `htmltomd`. -/
def Convert (htmltomd : Str → Except String Str) (html : Str) : Except String Str :=
  if TrimSpace html = [] then .ok []
  else
    match htmltomd html with
    | .error e => .error e
    | .ok md => .ok (cleanMarkdown md)

/-- The property that a list of lines has no three consecutive blank lines, a blank line
being one that `strings.TrimSpace` reduces to the empty string. -/
def noTripleBlank (lines : List Str) : Prop :=
  ∀ pre a b c post, lines = pre ++ a :: b :: c :: post →
    ¬ (TrimSpace a = [] ∧ TrimSpace b = [] ∧ TrimSpace c = [])

/-! ## internal/db: the index and its transactions -/

/-- A row of the `docsets` metadata table. -/
structure DocsetRow where
  id : Int
  slug : Str
  name : Str
  version : Str
  display_name : Str
  entry_count : Int
  mtime : Int
  installed_at : Int
  deriving DecidableEq, Repr

/-- The persistent index: the rows of the FTS5 table `docs` (in rowid order) and the rows of
the table `docsets`. -/
structure Index where
  docs : List Entry
  docsets : List DocsetRow
  deriving DecidableEq, Repr

/-- The database connection `idx.db.conn`: the committed index and, while a transaction is
open, its working copy. -/
structure Conn where
  committed : Index
  pending : Option Index
  deriving DecidableEq, Repr

/-- SQL `BEGIN` (`conn.Begin`): the transaction starts from the committed index. -/
def Conn.Begin (c : Conn) : Conn := { c with pending := some c.committed }

/-- A statement executed inside the open transaction changes its working copy only. -/
def Conn.txExec (stmt : Index → Index) (c : Conn) : Conn :=
  { c with pending := c.pending.map stmt }

/-- SQL `COMMIT` (`tx.Commit`): the working copy becomes the committed index. -/
def Conn.Commit (c : Conn) : Conn :=
  match c.pending with
  | some w => { committed := w, pending := none }
  | none => c

/-- SQL `ROLLBACK` (`tx.Rollback`): the working copy is dropped; on a transaction that is
already over nothing happens. -/
def Conn.Rollback (c : Conn) : Conn := { c with pending := none }

/-- The statement `DELETE FROM docs WHERE docset = ? AND version = ?`. -/
def sqlDeleteDocs (name version : Str) (ix : Index) : Index :=
  { ix with docs := ix.docs.filter (fun e => !(e.Docset == name && e.Version == version)) }

/-- The statement `INSERT INTO docs (docset, version, symbol, title, content, path)`. -/
def sqlInsertDoc (e : Entry) (ix : Index) : Index :=
  { ix with docs := ix.docs ++ [e] }

/-- The rowid SQLite gives a new row of an `INTEGER PRIMARY KEY` table: one more than the
largest in use. -/
def nextRowId (rows : List DocsetRow) : Int :=
  rows.foldl (fun m r => max m r.id) 0 + 1

/-- The statement `INSERT INTO docsets ... ON CONFLICT(slug) DO UPDATE SET display_name,
entry_count, mtime, installed_at`, run at time `now`. -/
def sqlUpsertDocset (slug name version displayName : Str) (entryCount mtime now : Int)
    (ix : Index) : Index :=
  if ix.docsets.any (fun r => r.slug == slug) then
    { ix with docsets := ix.docsets.map (fun r =>
        if r.slug == slug then
          { r with display_name := displayName, entry_count := entryCount, mtime := mtime,
                   installed_at := now }
        else r) }
  else
    { ix with docsets := ix.docsets ++
        [{ id := nextRowId ix.docsets, slug := slug, name := name, version := version,
           display_name := displayName, entry_count := entryCount, mtime := mtime,
           installed_at := now }] }

/-- The statement `DELETE FROM docsets WHERE slug = ?`. -/
def sqlDeleteDocset (slug : Str) (ix : Index) : Index :=
  { ix with docsets := ix.docsets.filter (fun r => !(r.slug == slug)) }

/-- Which database calls of one indexer operation fail. `deleteFails` is the `DELETE FROM
docs`, `insertFails i` the insert of the entry at position `i`, `metadataFails` the statement
on the table `docsets`. -/
structure Faults where
  beginFails : Bool := false
  deleteFails : Bool := false
  prepareFails : Bool := false
  insertFails : Nat → Bool := fun _ => false
  metadataFails : Bool := false
  commitFails : Bool := false

/-- The loop `for _, entry := range entries` of `IndexDocset`, from position `i`. -/
def IndexDocset.insertAll (f : Faults) : Nat → List Entry → Conn → Option String × Conn
  | _, [], c => (none, c)
  | i, entry :: rest, c =>
    if f.insertFails i then (some "failed to insert entry", c)
    else IndexDocset.insertAll f (i + 1) rest (c.txExec (sqlInsertDoc entry))

/-- The body of `Indexer.IndexDocset` after `Begin`, up to its `return`. -/
def IndexDocset.body (f : Faults) (now : Int) (docset : Docset) (entries : List Entry)
    (c : Conn) : Option String × Conn :=
  if f.deleteFails then (some "failed to delete existing entries", c)
  else
    let c := c.txExec (sqlDeleteDocs docset.Name docset.Version)
    if f.prepareFails then (some "failed to prepare insert statement", c)
    else
      match IndexDocset.insertAll f 0 entries c with
      | (some err, c) => (some err, c)
      | (none, c) =>
        if f.metadataFails then (some "failed to update docset metadata", c)
        else
          let c := c.txExec (sqlUpsertDocset docset.Slug docset.Name docset.Version
            docset.DisplayName (entries.length : Int) docset.Mtime now)
          if f.commitFails then (some "commit failed", c)
          else (none, c.Commit)

/-- `Indexer.IndexDocset`: the error returned (`none` for `nil`) and the connection
afterwards. The deferred `tx.Rollback()` runs on every return of the body. -/
def IndexDocset (f : Faults) (now : Int) (c : Conn) (docset : Docset) (entries : List Entry) :
    Option String × Conn :=
  if f.beginFails then (some "failed to begin transaction", c)
  else
    let r := IndexDocset.body f now docset entries c.Begin
    (r.1, r.2.Rollback)

/-- The body of `Indexer.RemoveDocset` after `Begin`, up to its `return`. -/
def RemoveDocset.body (f : Faults) (name version slug : Str) (c : Conn) :
    Option String × Conn :=
  if f.deleteFails then (some "failed to delete entries", c)
  else
    let c := c.txExec (sqlDeleteDocs name version)
    if f.metadataFails then (some "failed to delete docset metadata", c)
    else
      let c := c.txExec (sqlDeleteDocset slug)
      if f.commitFails then (some "commit failed", c)
      else (none, c.Commit)

/-- `Indexer.RemoveDocset`, with its deferred `tx.Rollback()`. -/
def RemoveDocset (f : Faults) (c : Conn) (slug : Str) : Option String × Conn :=
  let nv := ParseSlug slug
  if f.beginFails then (some "failed to begin transaction", c)
  else
    let r := RemoveDocset.body f nv.1 nv.2 slug c.Begin
    (r.1, r.2.Rollback)

/-! ## internal/data: the downloader -/

/-- An entry of a docset's `index.json` (`data.DocsetEntry`). -/
structure DocsetEntry where
  Name : Str
  Path : Str
  Type_ : Str := []
  deriving DecidableEq, Repr

/-- The decoded `index.json` of a docset (`data.DocsetData`). -/
structure DocsetData where
  Entries : List DocsetEntry
  deriving DecidableEq, Repr

/-- The collaborators of the downloader that live outside the repository. `unmarshal` is
`json.Unmarshal` into a `map[string]string`, given as the key/value pairs in the order the
`range` loop visits them (each key once); `saveDocset` returns the error of
`Storage.SaveDocset`, `none` for success. -/
structure Env where
  fetchDocset : Str → Except String Bytes
  saveDocset : Str → Bytes → Option String
  fetchIndex : Str → Except String DocsetData
  unmarshal : Bytes → Except String (List (Str × Str))
  htmltomd : Str → Except String Str
  now : Int
  faults : Faults

/-- What a download acts on: the index connection and the raw bundles written to disk so
far, as `(slug, data)` in the order of the successful `SaveDocset` calls. -/
structure World where
  conn : Conn
  saved : List (Str × Bytes)

/-- Loop of `indexOf` from index `i` over the rest of the string. -/
def indexOf.loop (c : Char) : Str → Nat → Int
  | [], _ => -1
  | x :: xs, i => if x = c then (i : Int) else indexOf.loop c xs (i + 1)

/-- `indexOf`: the index of `c` in `s`, or `-1` if not found. -/
def indexOf (s : Str) (c : Char) : Int := indexOf.loop c s 0

/-- The normalisation in the first loop of `parseDocset` ("Path may contain fragment,
normalize it"): `if idx := indexOf(path, '#'); idx != -1 { path = path[:idx] }`. -/
def parseDocset.normalize (path : Str) : Str :=
  let idx := indexOf path '#'
  if idx ≠ -1 then path.take idx.toNat else path

/-- The first loop of `parseDocset`: the map `entryMeta`, as its lookup function. Each index
entry is stored under its normalised path, `entryMeta[path] = e`, replacing what was there. -/
def parseDocset.buildMeta :
    List DocsetEntry → (Str → Option DocsetEntry) → (Str → Option DocsetEntry)
  | [], entryMeta => entryMeta
  | e :: es, entryMeta =>
    let path := parseDocset.normalize e.Path
    parseDocset.buildMeta es (fun k => if k = path then some e else entryMeta k)

/-- The second loop of `parseDocset`, over the pairs of `contentMap`, appending to
`entries`. -/
def parseDocset.convertAll (htmltomd : Str → Except String Str) (name version : Str)
    (entryMeta : Str → Option DocsetEntry) : List (Str × Str) → List Entry → List Entry
  | [], entries => entries
  | (path, html) :: rest, entries =>
    match Convert htmltomd html with
    | .error _ => parseDocset.convertAll htmltomd name version entryMeta rest entries
    | .ok markdown =>
      let symbol := match entryMeta path with
        | some m => m.Name
        | none => path
      let title := match entryMeta path with
        | some m => m.Name
        | none => path
      parseDocset.convertAll htmltomd name version entryMeta rest
        (entries ++ [{ Docset := name, Version := version, Symbol := symbol, Title := title,
                       Content := markdown, Path := path }])

/-- `Downloader.parseDocset`. -/
def parseDocset (env : Env) (manifest : ManifestEntry) (data : Bytes)
    (indexData : DocsetData) : Except String (List Entry) :=
  match env.unmarshal data with
  | .error _ => .error "failed to parse docset JSON"
  | .ok contentMap =>
    let nv := ParseSlug manifest.Slug
    let entryMeta := parseDocset.buildMeta indexData.Entries (fun _ => none)
    .ok (parseDocset.convertAll env.htmltomd nv.1 nv.2 entryMeta contentMap [])

/-- The `model.Docset` that `Download` hands to `IndexDocset`. -/
def Download.docset (entry : ManifestEntry) (entries : List Entry) : Docset :=
  let nv := ParseSlug entry.Slug
  { Slug := entry.Slug, Name := nv.1, Version := nv.2, DisplayName := entry.Name,
    EntryCount := (entries.length : Int), Mtime := entry.Mtime }

/-- `Downloader.Download` with a `nil` progress callback: the error returned (`none` for
`nil`) and the world afterwards. -/
def Download (env : Env) (w : World) (entry : ManifestEntry) : Option String × World :=
  match env.fetchDocset entry.Slug with
  | .error _ => (some "failed to download docset", w)
  | .ok data =>
    match env.saveDocset entry.Slug data with
    | some _ => (some "failed to save docset", w)
    | none =>
      let w := { w with saved := w.saved ++ [(entry.Slug, data)] }
      match env.fetchIndex entry.Slug with
      | .error _ => (some "failed to fetch index", w)
      | .ok indexData =>
        match parseDocset env entry data indexData with
        | .error _ => (some "failed to parse docset", w)
        | .ok entries =>
          let r := IndexDocset env.faults env.now w.conn (Download.docset entry entries) entries
          match r.1 with
          | some _ => (some "failed to index docset", { w with conn := r.2 })
          | none => (none, { w with conn := r.2 })

/-! ## internal/data: the manifest cache -/

/-- A value of the slice type `model.Manifest`: `none` is the nil slice, `some l` a non-nil
slice with the elements `l`. -/
abbrev Manifest := Option (List ManifestEntry)

/-- The cache envelope `data.CachedManifest`; `FetchedAt` as nanoseconds of wall-clock
time. -/
structure CachedManifest where
  Manifest : Manifest
  FetchedAt : Int
  deriving DecidableEq, Repr

/-- The mutable fields of `data.ManifestCache`. -/
structure ManifestCache where
  maxAge : Int
  manifest : Manifest
  deriving DecidableEq, Repr

/-- Go `time.Second`, in nanoseconds. -/
def Second : Int := 1000000000

/-- Go `time.Hour`, in nanoseconds. -/
def Hour : Int := 3600 * Second

/-- `NewManifestCache`: a `maxAge` of 24 hours and no manifest in memory. -/
def NewManifestCache : ManifestCache := { maxAge := 24 * Hour, manifest := none }

/-- Go `Time.Sub`: the difference as a `Duration`, an `int64` of nanoseconds that saturates
at its largest and smallest value. -/
def timeSub (t u : Int) : Int :=
  if t - u > 9223372036854775807 then 9223372036854775807
  else if t - u < -9223372036854775808 then -9223372036854775808
  else t - u

/-- What one call of `ManifestCache.Get` meets outside the cache object. `disk` is what
`loadFromDisk` can read and decode from the cache file (`none` when `os.ReadFile` or
`json.Unmarshal` fails); `now` is the clock read by `time.Since`; `fetch` is the outcome of
`client.FetchManifest()`; `saveNow` is the clock read by `saveToDisk`; `saveFailure` is `none`
when `saveToDisk` succeeds and otherwise what the failed write leaves readable on disk. -/
structure CacheEnv where
  disk : Option CachedManifest
  now : Int
  fetch : Except String Manifest
  saveNow : Int
  saveFailure : Option (Option CachedManifest)

/-- The outcome of one call of `ManifestCache.Get`: the two return values, the cache object
and the cache file afterwards, and whether `client.FetchManifest()` was called. -/
structure GetResult where
  manifest : Manifest
  err : Option String
  mc : ManifestCache
  disk : Option CachedManifest
  fetched : Bool
  deriving DecidableEq, Repr

/-- `ManifestCache.loadFromDisk`. -/
def ManifestCache.loadFromDisk (env : CacheEnv) : Except String CachedManifest :=
  match env.disk with
  | none => .error "cannot load the cached manifest"
  | some cached => .ok cached

/-- `ManifestCache.saveToDisk`: the error and the cache file afterwards. -/
def ManifestCache.saveToDisk (env : CacheEnv) (manifest : Manifest) :
    Option String × Option CachedManifest :=
  match env.saveFailure with
  | some left => (some "cannot save the manifest", left)
  | none => (none, some { Manifest := manifest, FetchedAt := env.saveNow })

/-- The part of `ManifestCache.Get` from `// Fetch fresh manifest` on. -/
def ManifestCache.Get.refresh (mc : ManifestCache) (env : CacheEnv) : GetResult :=
  match env.fetch with
  | .error err =>
    if mc.manifest ≠ none then
      { manifest := mc.manifest, err := none, mc := mc, disk := env.disk, fetched := true }
    else
      { manifest := none, err := some err, mc := mc, disk := env.disk, fetched := true }
  | .ok manifest =>
    { manifest := manifest, err := none, mc := { mc with manifest := manifest },
      disk := (ManifestCache.saveToDisk env manifest).2, fetched := true }

/-- `ManifestCache.Get`. -/
def ManifestCache.Get (mc : ManifestCache) (env : CacheEnv) (forceRefresh : Bool) :
    GetResult :=
  if !forceRefresh then
    match ManifestCache.loadFromDisk env with
    | .ok cached =>
      if timeSub env.now cached.FetchedAt < mc.maxAge then
        { manifest := cached.Manifest, err := none,
          mc := { mc with manifest := cached.Manifest }, disk := env.disk, fetched := false }
      else ManifestCache.Get.refresh mc env
    | .error _ => ManifestCache.Get.refresh mc env
  else ManifestCache.Get.refresh mc env

/-! ## internal/db: the queries of the searcher -/

/-- A search hit (`model.SearchResult`). The score `Rank` is a `float64` in the source, used
only to order the hits; it is kept as an integer key. -/
structure SearchResult where
  Entry : Entry
  Rank : Int
  Snippet : Str
  deriving DecidableEq, Repr

/-- The FTS5 engine of SQLite, as far as `Search` uses it. `matchExpr q` is the row predicate
of `docs MATCH q`, or `none` when the engine rejects the expression; `bm25` scores a row of
the table for an expression; `snippet` is the highlighted excerpt of the content column. -/
structure Fts where
  matchExpr : Str → Option (Entry → Bool)
  bm25 : Str → List Entry → Entry → Int
  snippet : Str → Entry → Str

/-- The `WHERE` clause `Search` adds to the match: `AND docset = ? AND version = ?`,
`AND docset = ?`, or nothing. -/
def Search.scope (docset version : Str) : Entry → Bool :=
  if docset ≠ [] then
    if version ≠ [] then fun e => e.Docset == docset && e.Version == version
    else fun e => e.Docset == docset
  else fun _ => true

/-- `Searcher.Search` on the committed index: the rows that match and lie in scope, ordered
by rank (rows of equal rank in rowid order), cut at the limit. -/
def Search (fts : Fts) (ix : Index) (query docset version : Str) (limit : Int) :
    Except String (List SearchResult) :=
  if query = [] then .ok []
  else
    let limit := if limit ≤ 0 then 50 else limit
    let ftsQuery := escapeFTS5Query query
    match fts.matchExpr ftsQuery with
    | none => .error "search query failed"
    | some m =>
      let rows := ix.docs.filter (fun e => m e && Search.scope docset version e)
      let results := rows.map (fun e =>
        { Entry := e, Rank := fts.bm25 ftsQuery ix.docs e, Snippet := fts.snippet ftsQuery e })
      .ok ((results.insertionSort (fun a b => a.Rank ≤ b.Rank)).take limit.toNat)

/-- The order of SQLite's `BINARY` collation on `TEXT`, `a <= b`: the strings are compared
character by character (`memcmp` on UTF-8 orders by code point), and a proper prefix comes
first. -/
def strLe : Str → Str → Bool
  | [], _ => true
  | _ :: _, [] => false
  | a :: as, b :: bs => decide (a.toNat < b.toNat) || (a.toNat == b.toNat && strLe as bs)

/-- The clause `ORDER BY name, version DESC` of `ListDocsets`: row `a` may come before row
`b`. -/
def ListDocsets.order (a b : DocsetRow) : Bool :=
  strLe a.name b.name && (!strLe b.name a.name || strLe b.version a.version)

/-- The `rows.Scan` of `ListDocsets`: the columns of a row go into a `model.Docset`;
`installed_at` is scanned into a local variable and `InstalledAt` keeps its zero value. -/
def ListDocsets.scan (r : DocsetRow) : Docset :=
  { ID := r.id, Slug := r.slug, Name := r.name, Version := r.version,
    DisplayName := r.display_name, EntryCount := r.entry_count, Mtime := r.mtime }

/-- `Searcher.ListDocsets` on the committed index; `queryFails` is the failure of the
query. -/
def ListDocsets (queryFails : Bool) (ix : Index) : Except String (List Docset) :=
  if queryFails then .error "failed to list docsets"
  else .ok ((ix.docsets.insertionSort (fun a b => ListDocsets.order a b = true)).map
    ListDocsets.scan)

/-! ## path/filepath and os (Go standard library, Unix) -/

/-- Whether a path is rooted: its first character is the separator. -/
def filepath.rooted (path : Str) : Bool := path.head? == some '/'

/-- One path element in `filepath.Clean`, with the elements written so far in `out`: an
empty element and `.` are dropped; `..` removes the last element when that is a real one,
is dropped at the root of a rooted path, and is kept otherwise; any other element is
kept. -/
def filepath.Clean.step (rooted : Bool) (out : List Str) (elem : Str) : List Str :=
  if elem = [] ∨ elem = str "." then out
  else if elem = str ".." then
    match out.getLast? with
    | none => if rooted then out else out ++ [elem]
    | some top =>
      if top ≠ str ".." then out.dropLast
      else if rooted then out
      else out ++ [elem]
  else out ++ [elem]

/-- The elements of the cleaned path, in order. -/
def filepath.Clean.elems (path : Str) : List Str :=
  (Split path '/').foldl (filepath.Clean.step (filepath.rooted path)) []

/-- The cleaned path written out: the root if any, the elements separated by `/`, and `.`
when that is empty. -/
def filepath.Clean.render (rooted : Bool) (elems : List Str) : Str :=
  if (if rooted then str "/" else []) ++ Lazydocs.Join elems (str "/") = [] then str "."
  else (if rooted then str "/" else []) ++ Lazydocs.Join elems (str "/")

/-- Go `filepath.Clean` on Unix: the shortest path name equivalent to `path` by purely
lexical processing. -/
def filepath.Clean (path : Str) : Str :=
  if path = [] then str "."
  else filepath.Clean.render (filepath.rooted path) (filepath.Clean.elems path)

/-- Go `filepath.Join`: the elements from the first non-empty one on, joined with the
separator and cleaned; the empty string when all are empty. -/
def filepath.Join : List Str → Str
  | [] => []
  | e :: rest =>
    if e ≠ [] then filepath.Clean (Lazydocs.Join (e :: rest) (str "/"))
    else filepath.Join rest

/-- The property of being a plain path element: not empty, without a separator, and neither
`.` nor `..`. -/
def filepath.plainElem (elem : Str) : Prop :=
  elem ≠ [] ∧ '/' ∉ elem ∧ elem ≠ str "." ∧ elem ≠ str ".."

instance filepath.plainElem.decidable (elem : Str) : Decidable (filepath.plainElem elem) := by
  unfold filepath.plainElem
  infer_instance

/-- The property of a path of lying strictly below a base directory: its cleaned form is
that of the base followed by at least one plain element. -/
def filepath.strictlyBelow (base dir : Str) : Prop :=
  ∃ ext : List Str, ext ≠ [] ∧ (∀ e ∈ ext, filepath.plainElem e) ∧
    dir = filepath.Clean.render (filepath.rooted base) (filepath.Clean.elems base ++ ext)

/-- The regular files of the file system, each under the elements of its absolute path, and
the working directory (an absolute path). Directories are not recorded: a directory is
where a file lies below it. Symbolic links and permissions are outside the model. -/
structure Disk where
  cwd : Str
  files : List (List Str × Bytes)
  deriving DecidableEq, Repr

/-- The elements of the absolute path a path name stands for. -/
def Disk.resolve (d : Disk) (path : Str) : List Str :=
  filepath.Clean.elems (if filepath.rooted path then path else d.cwd ++ str "/" ++ path)

/-- Go `os.MkdirAll`: fails where a regular file is in the way. -/
def os.MkdirAll (d : Disk) (path : Str) : Option String × Disk :=
  if path = [] then (some "mkdir: no such file or directory", d)
  else if d.files.any (fun f => f.1.isPrefixOf (d.resolve path)) then
    (some "mkdir: not a directory", d)
  else (none, d)

/-- Go `os.WriteFile`: creates or truncates the file and writes the data; fails on the
empty name, on a directory and below a regular file. -/
def os.WriteFile (d : Disk) (path : Str) (data : Bytes) : Option String × Disk :=
  if path = [] then (some "open: no such file or directory", d)
  else if d.files.any (fun f => f.1 != d.resolve path &&
      (f.1.isPrefixOf (d.resolve path) || (d.resolve path).isPrefixOf f.1)) then
    (some "open: is a directory or not a directory", d)
  else
    (none, { d with files := (d.resolve path, data) ::
      d.files.filter (fun f => !(f.1 == d.resolve path)) })

/-- Go `os.ReadFile`. -/
def os.ReadFile (d : Disk) (path : Str) : Except String Bytes :=
  if path = [] then .error "open: no such file or directory"
  else
    match d.files.find? (fun f => f.1 == d.resolve path) with
    | some f => .ok f.2
    | none => .error "open: no such file or directory"

/-- Go `os.RemoveAll`: removes the path and everything below it; nothing to remove is not
an error. -/
def os.RemoveAll (d : Disk) (path : Str) : Option String × Disk :=
  if path = [] then (none, d)
  else (none, { d with files := d.files.filter (fun f => !((d.resolve path).isPrefixOf f.1)) })

/-- Whether Go `os.Stat` returns no error: a file or a directory is at the path. -/
def os.Stat (d : Disk) (path : Str) : Bool :=
  path != [] && d.files.any (fun f => (d.resolve path).isPrefixOf f.1)

/-! ## internal/data: storage -/

/-- `data.Storage`. -/
structure Storage where
  baseDir : Str
  deriving DecidableEq, Repr

/-- `Storage.docsetDir`: the directory for a docset. -/
def Storage.docsetDir (s : Storage) (name version : Str) : Str :=
  if version ≠ [] then filepath.Join [s.baseDir, name, version]
  else filepath.Join [s.baseDir, name]

/-- `Storage.SaveDocset`: the error and the disk afterwards. -/
def Storage.SaveDocset (s : Storage) (d : Disk) (slug : Str) (data : Bytes) :
    Option String × Disk :=
  let nv := ParseSlug slug
  let dir := s.docsetDir nv.1 nv.2
  match os.MkdirAll d dir with
  | (some err, d) => (some err, d)
  | (none, d) => os.WriteFile d (filepath.Join [dir, str "db.json"]) data

/-- `Storage.LoadDocset`. -/
def Storage.LoadDocset (s : Storage) (d : Disk) (slug : Str) : Except String Bytes :=
  let nv := ParseSlug slug
  os.ReadFile d (filepath.Join [s.docsetDir nv.1 nv.2, str "db.json"])

/-- `Storage.DeleteDocset`: the error and the disk afterwards. -/
def Storage.DeleteDocset (s : Storage) (d : Disk) (slug : Str) : Option String × Disk :=
  let nv := ParseSlug slug
  os.RemoveAll d (s.docsetDir nv.1 nv.2)

/-- `Storage.DocsetExists`. -/
def Storage.DocsetExists (s : Storage) (d : Disk) (slug : Str) : Bool :=
  let nv := ParseSlug slug
  os.Stat d (filepath.Join [s.docsetDir nv.1 nv.2, str "db.json"])

/-! ## Installation scenarios -/

/-- An installation in which every collaborator succeeds: the network serves a bundle that
decodes to the pairs `bundle` and the structural index `index`, the disk accepts the bundle,
`htmltomd` is the HTML converter and no database call fails. -/
def installEnv (bundle : List (Str × Str)) (index : List DocsetEntry)
    (htmltomd : Str → Except String Str) : Env where
  fetchDocset := fun _ => .ok []
  saveDocset := fun _ _ => none
  fetchIndex := fun _ => .ok { Entries := index }
  unmarshal := fun _ => .ok bundle
  htmltomd := htmltomd
  now := 0
  faults := {}

/-- The world before the first installation: an empty index, no open transaction, nothing
on disk. -/
def emptyWorld : World :=
  { conn := { committed := { docs := [], docsets := [] }, pending := none }, saved := [] }

/-- An engine for the examples: a row matches when its symbol followed by `*` is the match
expression, all scores are equal and the snippet is the content. -/
def exampleFts : Fts where
  matchExpr := fun q => some (fun e => e.Symbol ++ str "*" == q)
  bm25 := fun _ _ _ => 0
  snippet := fun _ e => e.Content

/-- An index for the examples: the symbol `map` under `go` and under `javascript`. -/
def exampleIndex : Index where
  docs := [{ Docset := str "go", Version := [], Symbol := str "map", Title := str "map",
             Content := str "Go maps", Path := str "ref/map" },
           { Docset := str "javascript", Version := [], Symbol := str "map",
             Title := str "map", Content := str "Array map", Path := str "array/map" }]
  docsets := [{ id := 1, slug := str "go", name := str "go", version := [],
                display_name := str "Go", entry_count := 1, mtime := 0, installed_at := 0 },
              { id := 2, slug := str "javascript", name := str "javascript", version := [],
                display_name := str "JavaScript", entry_count := 1, mtime := 0,
                installed_at := 0 }]

end Lazydocs

/-! ## Slugs -/

namespace Lazydocs

theorem ParseSlug.loop_of_not_mem (slug : Str) (h : '~' ∉ slug) (n : Nat) :
    ParseSlug.loop slug n = (slug, []) := by
  induction n with
  | zero => rfl
  | succ i ih =>
    have hne : slug[i]? ≠ some '~' := by
      intro hc
      obtain ⟨hlt, heq⟩ := List.getElem?_eq_some.mp hc
      exact h (heq ▸ List.getElem_mem hlt)
    simp [ParseSlug.loop, hne, ih]

theorem ParseSlug.loop_append (a b : Str) (hb : '~' ∉ b) (k : Nat) (hk : k ≤ b.length) :
    ParseSlug.loop (a ++ '~' :: b) (a.length + 1 + k) = (a, b) := by
  induction k with
  | zero =>
    have hget : (a ++ '~' :: b)[a.length]? = some '~' := by
      rw [List.getElem?_append_right (le_refl _)]
      simp
    show ParseSlug.loop (a ++ '~' :: b) (a.length + 1) = (a, b)
    rw [ParseSlug.loop, if_pos hget]
    simp
  | succ k ih =>
    have hlt : k < b.length := hk
    have hget : (a ++ '~' :: b)[a.length + 1 + k]? = some b[k] := by
      rw [List.getElem?_append_right (by omega)]
      have : a.length + 1 + k - a.length = k + 1 := by omega
      rw [this]
      simp [hlt]
    have hne : (a ++ '~' :: b)[a.length + 1 + k]? ≠ some '~' := by
      rw [hget]
      intro hc
      have : b[k] = '~' := by simpa using hc
      exact hb (this ▸ List.getElem_mem hlt)
    have : a.length + 1 + (k + 1) = (a.length + 1 + k) + 1 := by omega
    rw [this, ParseSlug.loop, if_neg hne]
    exact ih (by omega)

theorem ParseSlug_append (a b : Str) (hb : '~' ∉ b) :
    ParseSlug (a ++ '~' :: b) = (a, b) := by
  have h := ParseSlug.loop_append a b hb b.length (le_refl _)
  have hl : (a ++ '~' :: b).length = a.length + 1 + b.length := by
    simp
    omega
  rw [ParseSlug, hl]
  exact h

theorem ParseSlug_of_not_mem (slug : Str) (h : '~' ∉ slug) : ParseSlug slug = (slug, []) :=
  ParseSlug.loop_of_not_mem slug h slug.length

theorem exists_last_tilde (s : Str) (h : '~' ∈ s) :
    ∃ a b, s = a ++ '~' :: b ∧ '~' ∉ b := by
  induction s with
  | nil => simp at h
  | cons c cs ih =>
    by_cases hcs : '~' ∈ cs
    · obtain ⟨a, b, hab, hb⟩ := ih hcs
      exact ⟨c :: a, b, by simp [hab], hb⟩
    · have hc : c = '~' := by
        rcases List.mem_cons.mp h with h1 | h1
        · exact h1.symm
        · exact absurd h1 hcs
      exact ⟨[], cs, by simp [hc], hcs⟩

end Lazydocs

namespace Lazydocs

/-- C1, counterexample: the name `a` has no `~`, yet with the version `1~2` the formatted slug
`a~1~2` parses to `(a~1, 2)`, not back to `(a, 1~2)`. -/
theorem C1_counterexample :
    '~' ∉ str "a" ∧
    Docset.FullSlug { Name := str "a", Version := str "1~2" } = str "a~1~2" ∧
    ParseSlug (Docset.FullSlug { Name := str "a", Version := str "1~2" })
      = (str "a~1", str "2") ∧
    ParseSlug (Docset.FullSlug { Name := str "a", Version := str "1~2" })
      ≠ (str "a", str "1~2") := by
  decide

/-- C1, amended: for every docset whose name and version both contain no `~` (the version
possibly empty), `ParseSlug` applied to `FullSlug` returns exactly `(Name, Version)`. -/
theorem C1_slug_round_trip (d : Docset) (hn : '~' ∉ d.Name) (hv : '~' ∉ d.Version) :
    ParseSlug d.FullSlug = (d.Name, d.Version) := by
  unfold Docset.FullSlug
  by_cases hver : d.Version = []
  · rw [if_neg (by simpa using hver), hver]
    exact ParseSlug_of_not_mem d.Name hn
  · rw [if_pos hver]
    have : d.Name ++ str "~" ++ d.Version = d.Name ++ '~' :: d.Version := by
      simp [str]
    rw [this]
    exact ParseSlug_append d.Name d.Version hv

/-- C1, witness: `rails` and `7.1`. -/
theorem C1_slug_round_trip_witness :
    '~' ∉ str "rails" ∧ '~' ∉ str "7.1" ∧
    ParseSlug (Docset.FullSlug { Name := str "rails", Version := str "7.1" })
      = (str "rails", str "7.1") :=
  ⟨by decide, by decide,
    C1_slug_round_trip { Name := str "rails", Version := str "7.1" } (by decide) (by decide)⟩

/-- C2, counterexample: the slug `rails~` has one `~`; it parses to `(rails, "")`, and a
docset with that name and version, the one built by `Download` included, has the full slug
`rails`, which is not the slug. -/
theorem C2_counterexample :
    (str "rails~").count '~' ≤ 1 ∧
    ParseSlug (str "rails~") = (str "rails", []) ∧
    Docset.FullSlug { Name := (ParseSlug (str "rails~")).1,
                      Version := (ParseSlug (str "rails~")).2 } = str "rails" ∧
    (Download.docset { Slug := str "rails~" } []).FullSlug
      ≠ (Download.docset { Slug := str "rails~" } []).Slug := by
  decide

/-- C2, amended: for every slug containing at most one `~` and not ending in `~`, a docset
whose name and version are `ParseSlug slug` has `FullSlug` equal to the slug; so the docset
built by `Download` from a manifest entry with such a slug satisfies `Slug = FullSlug`. -/
theorem C2_full_slug_of_parse (slug : Str) (h1 : slug.count '~' ≤ 1)
    (hend : slug.getLast? ≠ some '~') :
    (∀ d : Docset, d.Name = (ParseSlug slug).1 → d.Version = (ParseSlug slug).2 →
      d.FullSlug = slug) ∧
    (∀ (entry : ManifestEntry) (entries : List Entry), entry.Slug = slug →
      (Download.docset entry entries).Slug = (Download.docset entry entries).FullSlug) := by
  have key : ∀ d : Docset, d.Name = (ParseSlug slug).1 → d.Version = (ParseSlug slug).2 →
      d.FullSlug = slug := by
    intro d hname hver
    by_cases hm : '~' ∈ slug
    · obtain ⟨a, b, hab, hb⟩ := exists_last_tilde slug hm
      have hb0 : b ≠ [] := by
        intro hb0
        apply hend
        rw [hab, hb0]
        simp
      rw [hab, ParseSlug_append a b hb] at hname hver
      simp only at hname hver
      unfold Docset.FullSlug
      rw [hver, hname, if_pos hb0, hab]
      simp [str]
    · rw [ParseSlug_of_not_mem slug hm] at hname hver
      simp only at hname hver
      unfold Docset.FullSlug
      rw [hver, hname]
      simp
  refine ⟨key, ?_⟩
  intro entry entries hs
  have := key (Download.docset entry entries) (by simp [Download.docset, hs])
    (by simp [Download.docset, hs])
  rw [this]
  simp [Download.docset, hs]

/-- C2, witness: the slug `rails~7.1`. -/
theorem C2_full_slug_of_parse_witness :
    (str "rails~7.1").count '~' ≤ 1 ∧ (str "rails~7.1").getLast? ≠ some '~' ∧
    (Download.docset { Slug := str "rails~7.1" } []).Slug
      = (Download.docset { Slug := str "rails~7.1" } []).FullSlug :=
  ⟨by decide, by decide,
    (C2_full_slug_of_parse (str "rails~7.1") (by decide) (by decide)).2
      { Slug := str "rails~7.1" } [] rfl⟩

/-- C3: `ParseSlug` splits at the last `~`. For a slug containing a `~` the result
`(name, version)` satisfies `name ++ "~" ++ version = slug` and the version contains no `~`;
for a slug containing none the result is `(slug, "")`. -/
theorem C3_parse_slug_splits_at_last (slug : Str) :
    ('~' ∈ slug →
      (ParseSlug slug).1 ++ str "~" ++ (ParseSlug slug).2 = slug ∧
      '~' ∉ (ParseSlug slug).2) ∧
    ('~' ∉ slug → ParseSlug slug = (slug, str "")) := by
  constructor
  · intro hm
    obtain ⟨a, b, hab, hb⟩ := exists_last_tilde slug hm
    rw [hab, ParseSlug_append a b hb]
    exact ⟨by simp [str], hb⟩
  · intro hm
    exact ParseSlug_of_not_mem slug hm

/-- C3, witness: `a~1~2` splits into `a~1` and `2`; `rails` has no version. -/
theorem C3_parse_slug_splits_at_last_witness :
    ParseSlug (str "a~1~2") = (str "a~1", str "2") ∧
    ((ParseSlug (str "a~1~2")).1 ++ str "~" ++ (ParseSlug (str "a~1~2")).2 = str "a~1~2" ∧
      '~' ∉ (ParseSlug (str "a~1~2")).2) ∧
    ParseSlug (str "rails") = (str "rails", str "") :=
  ⟨by decide, (C3_parse_slug_splits_at_last (str "a~1~2")).1 (by decide),
    (C3_parse_slug_splits_at_last (str "rails")).2 (by decide)⟩

end Lazydocs

/-! ## Query sanitisation -/

namespace Lazydocs

theorem Fields.scan_spec (P : Char → Prop) (s : Str) :
    ∀ cur : Option Str, (∀ c ∈ s, isSpace c = false → P c) →
      (∀ w, cur = some w → w ≠ [] ∧ ∀ c ∈ w, isSpace c = false ∧ P c) →
      ∀ w ∈ Fields.scan s cur, w ≠ [] ∧ ∀ c ∈ w, isSpace c = false ∧ P c := by
  induction s with
  | nil =>
    intro cur _ hcur w hw
    cases cur with
    | none => simp [Fields.scan] at hw
    | some v =>
      simp only [Fields.scan, List.mem_singleton] at hw
      exact hw ▸ hcur v rfl
  | cons c cs ih =>
    intro cur hs hcur w hw
    have hs' : ∀ x ∈ cs, isSpace x = false → P x :=
      fun x hx => hs x (List.mem_cons_of_mem c hx)
    by_cases hc : isSpace c = true
    · cases cur with
      | none =>
        simp only [Fields.scan, hc, if_true] at hw
        exact ih none hs' (by simp) w hw
      | some v =>
        simp only [Fields.scan, hc, if_true, List.mem_cons] at hw
        rcases hw with hw | hw
        · exact hw ▸ hcur v rfl
        · exact ih none hs' (by simp) w hw
    · have hc' : isSpace c = false := by simpa using hc
      simp only [Fields.scan, hc', Bool.false_eq_true, if_false] at hw
      refine ih _ hs' ?_ w hw
      intro v hv
      have hv' : v = cur.getD [] ++ [c] := (Option.some.inj hv).symm
      subst hv'
      refine ⟨by simp, ?_⟩
      intro x hx
      rcases List.mem_append.mp hx with hx | hx
      · cases cur with
        | none => simp at hx
        | some u => exact (hcur u rfl).2 x hx
      · have : x = c := by simpa using hx
        subst this
        exact ⟨hc', hs x (List.mem_cons_self _ _) hc'⟩

/-- Every field of `strings.Fields` is non-empty and made of non-space characters of the
input. -/
theorem Fields_spec (s : Str) :
    ∀ w ∈ Fields s, w ≠ [] ∧ ∀ c ∈ w, isSpace c = false ∧ c ∈ s :=
  Fields.scan_spec (fun c => c ∈ s) s none (fun _ hc _ => hc) (by simp)

theorem escapeFTS5Query.loop_concat (n : Nat) (init : List Str) (last : Str) :
    ∀ i : Nat, i + init.length + 1 = n →
      escapeFTS5Query.loop n i (init ++ [last]) = init ++ [last ++ str "*"] := by
  induction init with
  | nil =>
    intro i hi
    have : (i : Int) = (n : Int) - 1 := by
      simp at hi
      omega
    simp [escapeFTS5Query.loop, this]
  | cons w ws ih =>
    intro i hi
    have hne : ¬ ((i : Int) = (n : Int) - 1) := by
      simp at hi
      omega
    have := ih (i + 1) (by simp at hi ⊢; omega)
    simp [escapeFTS5Query.loop, hne, this]

theorem Join_concat (init : List Str) (last sep : Str) :
    Join (init ++ [last]) sep = (init.map (fun w => w ++ sep)).flatten ++ last := by
  induction init with
  | nil => simp [Join]
  | cons w ws ih =>
    cases ws with
    | nil => simp [Join]
    | cons w2 ws2 =>
      have : Join (w :: w2 :: ws2 ++ [last]) sep
          = w ++ sep ++ Join (w2 :: ws2 ++ [last]) sep := by
        simp [Join]
      rw [this, ih]
      simp

/-- The six `ReplaceAll` calls of `escapeFTS5Query` together drop exactly the special
characters. -/
theorem removeAll_special (query : Str) :
    removeAll (removeAll (removeAll (removeAll (removeAll (removeAll query dquote) squote)
      '(') ')') '*') ':'
    = query.filter (fun c => !(specialChars.contains c)) := by
  simp only [removeAll, List.filter_filter]
  congr 1
  funext c
  simp only [specialChars, List.contains, List.elem, bne, Bool.not_eq_true']
  cases c == dquote <;> cases c == squote <;> cases c == '(' <;> cases c == ')' <;>
    cases c == '*' <;> cases c == ':' <;> rfl

end Lazydocs

namespace Lazydocs

/-- The shape of a non-empty sanitised query: the earlier terms, each followed by one space,
then the last term, then `*`. -/
theorem escapeFTS5Query_of_fields (query : Str) (init : List Str) (last : Str)
    (h : Fields (query.filter (fun c => !(specialChars.contains c))) = init ++ [last]) :
    escapeFTS5Query query
      = (init.map (fun w => w ++ str " ")).flatten ++ last ++ str "*" := by
  unfold escapeFTS5Query
  simp only [removeAll_special, h]
  rw [if_neg (by simp)]
  rw [escapeFTS5Query.loop_concat _ init last 0 (by simp), Join_concat]
  simp

theorem escapeFTS5Query_of_no_fields (query : Str)
    (h : Fields (query.filter (fun c => !(specialChars.contains c))) = []) :
    escapeFTS5Query query = [] := by
  unfold escapeFTS5Query
  simp only [removeAll_special, h]
  simp

/-- The terms of a query are non-empty and hold neither white space nor a special
character. -/
theorem term_spec (query : Str) :
    ∀ w ∈ Fields (query.filter (fun c => !(specialChars.contains c))),
      w ≠ [] ∧ ∀ c ∈ w, isSpace c = false ∧ c ∉ specialChars := by
  intro w hw
  obtain ⟨hne, hc⟩ := Fields_spec _ w hw
  refine ⟨hne, fun c hcw => ⟨(hc c hcw).1, ?_⟩⟩
  have := (List.mem_filter.mp (hc c hcw).2).2
  simpa using this

/-- C4, counterexample: the query `foo` is sanitised to `foo*`, which contains the
character `*`. -/
theorem C4_counterexample :
    escapeFTS5Query (str "foo") = str "foo*" ∧ '*' ∈ escapeFTS5Query (str "foo") := by
  decide

/-- C4, amended: for every input query, none of the characters `"`, `'`, `(`, `)`, `:`
appears in the string built by `escapeFTS5Query`, and `*` appears in it only as its last
character (the prefix wildcard the function appends), never inside. -/
theorem C4_sanitized_query (query : Str) :
    (∀ c ∈ escapeFTS5Query query,
      c ≠ dquote ∧ c ≠ squote ∧ c ≠ '(' ∧ c ≠ ')' ∧ c ≠ ':') ∧
    (escapeFTS5Query query = [] ∨
      ∃ body, escapeFTS5Query query = body ++ ['*'] ∧ '*' ∉ body) := by
  rcases List.eq_nil_or_concat
    (Fields (query.filter (fun c => !(specialChars.contains c)))) with h | ⟨init, last, h⟩
  · rw [escapeFTS5Query_of_no_fields query h]
    simp
  · rw [List.concat_eq_append] at h
    have hq := escapeFTS5Query_of_fields query init last h
    have hterm := term_spec query
    rw [h] at hterm
    have hbody : ∀ c ∈ (init.map (fun w => w ++ str " ")).flatten ++ last,
        c ∉ specialChars := by
      intro c hc
      rcases List.mem_append.mp hc with hc | hc
      · obtain ⟨l, hl, hcl⟩ := List.mem_flatten.mp hc
        obtain ⟨w, hw, rfl⟩ := List.mem_map.mp hl
        rcases List.mem_append.mp hcl with hcw | hsp
        · exact ((hterm w (by simp [hw])).2 c hcw).2
        · have : c = ' ' := by simpa [str] using hsp
          subst this
          decide
      · exact ((hterm last (by simp)).2 c hc).2
    have hsplit : ∀ c, c ∉ specialChars →
        c ≠ dquote ∧ c ≠ squote ∧ c ≠ '(' ∧ c ≠ ')' ∧ c ≠ '*' ∧ c ≠ ':' := by
      intro c hc
      simpa [specialChars] using hc
    rw [hq]
    constructor
    · intro c hc
      rcases List.mem_append.mp hc with hc | hc
      · obtain ⟨h1, h2, h3, h4, _, h6⟩ := hsplit c (hbody c hc)
        exact ⟨h1, h2, h3, h4, h6⟩
      · have : c = '*' := by simpa [str] using hc
        subst this
        decide
    · right
      refine ⟨(init.map (fun w => w ++ str " ")).flatten ++ last, by simp [str], ?_⟩
      intro hmem
      exact (hsplit _ (hbody _ hmem)).2.2.2.2.1 rfl

/-- C5: when the white-space separated terms of the query, after stripping the special
characters, are `init ++ [last]`, `escapeFTS5Query` returns the terms of `init`, each followed
by a single space, then `last` followed by `*`; no term is empty or contains white space or a
`*`, so the only `*` of the result is the one after the last term. -/
theorem C5_prefix_on_last_term (query : Str) (init : List Str) (last : Str)
    (h : Fields (query.filter (fun c => !(specialChars.contains c))) = init ++ [last]) :
    escapeFTS5Query query
      = (init.map (fun w => w ++ str " ")).flatten ++ last ++ str "*" ∧
    (∀ w ∈ init ++ [last], w ≠ [] ∧ '*' ∉ w ∧ ∀ c ∈ w, isSpace c = false) := by
  refine ⟨escapeFTS5Query_of_fields query init last h, ?_⟩
  intro w hw
  have hterm := term_spec query w (h ▸ hw)
  refine ⟨hterm.1, ?_, fun c hc => (hterm.2 c hc).1⟩
  intro hstar
  exact (hterm.2 _ hstar).2 (by simp [specialChars])

/-- C5, witness: `foo bar` becomes `foo bar*`. -/
theorem C5_prefix_on_last_term_witness :
    Fields ((str "foo bar").filter (fun c => !(specialChars.contains c)))
      = [str "foo"] ++ [str "bar"] ∧
    escapeFTS5Query (str "foo bar") = str "foo bar*" :=
  ⟨by decide,
    (C5_prefix_on_last_term (str "foo bar") [str "foo"] (str "bar") (by decide)).1⟩

end Lazydocs

/-! ## Parsing a docset -/

namespace Lazydocs

theorem parseDocset.buildMeta_spec (es : List DocsetEntry) :
    ∀ (entryMeta : Str → Option DocsetEntry) (k : Str),
      (∃ e ∈ es, parseDocset.normalize e.Path = k ∧
        parseDocset.buildMeta es entryMeta k = some e) ∨
      ((∀ e ∈ es, parseDocset.normalize e.Path ≠ k) ∧
        parseDocset.buildMeta es entryMeta k = entryMeta k) := by
  induction es with
  | nil =>
    intro entryMeta k
    right
    simp [parseDocset.buildMeta]
  | cons e es ih =>
    intro entryMeta k
    simp only [parseDocset.buildMeta]
    rcases ih (fun k' => if k' = parseDocset.normalize e.Path then some e else entryMeta k') k
      with ⟨e', he', hk, hget⟩ | ⟨hno, hget⟩
    · exact Or.inl ⟨e', List.mem_cons_of_mem _ he', hk, hget⟩
    · by_cases hk : k = parseDocset.normalize e.Path
      · left
        refine ⟨e, List.mem_cons_self _ _, hk.symm, ?_⟩
        rw [hget]
        simp [hk]
      · right
        refine ⟨?_, ?_⟩
        · intro e' he'
          rcases List.mem_cons.mp he' with rfl | he'
          · exact fun h => hk h.symm
          · exact hno e' he'
        · rw [hget]
          simp [hk]

theorem parseDocset.convertAll_acc (htmltomd : Str → Except String Str) (name version : Str)
    (entryMeta : Str → Option DocsetEntry) (cm : List (Str × Str)) :
    ∀ entries : List Entry,
      parseDocset.convertAll htmltomd name version entryMeta cm entries
        = entries ++ parseDocset.convertAll htmltomd name version entryMeta cm [] := by
  induction cm with
  | nil => intro entries; simp [parseDocset.convertAll]
  | cons p rest ih =>
    intro entries
    obtain ⟨path, html⟩ := p
    simp only [parseDocset.convertAll]
    cases hconv : Convert htmltomd html with
    | error e => simpa using ih entries
    | ok md =>
      simp only []
      rw [ih (entries ++ _), ih ([] ++ _)]
      simp

theorem parseDocset.convertAll_cons (htmltomd : Str → Except String Str) (name version : Str)
    (entryMeta : Str → Option DocsetEntry) (path html : Str) (rest : List (Str × Str)) :
    parseDocset.convertAll htmltomd name version entryMeta ((path, html) :: rest) []
      = (match Convert htmltomd html with
          | .error _ => []
          | .ok md =>
            [{ Docset := name, Version := version,
               Symbol := (match entryMeta path with | some m => m.Name | none => path),
               Title := (match entryMeta path with | some m => m.Name | none => path),
               Content := md, Path := path }])
        ++ parseDocset.convertAll htmltomd name version entryMeta rest [] := by
  simp only [parseDocset.convertAll]
  cases hconv : Convert htmltomd html with
  | error e => simp
  | ok md =>
    simp only []
    rw [parseDocset.convertAll_acc]
    simp

end Lazydocs

namespace Lazydocs

theorem parseDocset.convertAll_mem (htmltomd : Str → Except String Str) (name version : Str)
    (entryMeta : Str → Option DocsetEntry) (cm : List (Str × Str)) (x : Entry) :
    x ∈ parseDocset.convertAll htmltomd name version entryMeta cm [] ↔
      ∃ path html md, (path, html) ∈ cm ∧ Convert htmltomd html = .ok md ∧
        x = { Docset := name, Version := version,
              Symbol := (match entryMeta path with | some m => m.Name | none => path),
              Title := (match entryMeta path with | some m => m.Name | none => path),
              Content := md, Path := path } := by
  induction cm with
  | nil => simp [parseDocset.convertAll]
  | cons p rest ih =>
    obtain ⟨path, html⟩ := p
    rw [parseDocset.convertAll_cons, List.mem_append, ih]
    constructor
    · rintro (h | ⟨p', h', md, hmem, hrest⟩)
      · cases hconv : Convert htmltomd html with
        | error e => simp [hconv] at h
        | ok md =>
          simp only [hconv, List.mem_singleton] at h
          exact ⟨path, html, md, List.mem_cons_self _ _, hconv, h⟩
      · exact ⟨p', h', md, List.mem_cons_of_mem _ hmem, hrest⟩
    · rintro ⟨p', h', md, hmem, hconv, hx⟩
      rcases List.mem_cons.mp hmem with heq | hmem
      · left
        obtain ⟨rfl, rfl⟩ := Prod.mk.inj heq
        simp [hconv, hx]
      · exact Or.inr ⟨p', h', md, hmem, hconv, hx⟩

theorem parseDocset.convertAll_paths (htmltomd : Str → Except String Str)
    (name version : Str) (entryMeta : Str → Option DocsetEntry) (cm : List (Str × Str)) :
    (parseDocset.convertAll htmltomd name version entryMeta cm []).map (fun x => x.Path)
      = (cm.filter (fun p => (Convert htmltomd p.2).isOk)).map Prod.fst := by
  induction cm with
  | nil => simp [parseDocset.convertAll]
  | cons p rest ih =>
    obtain ⟨path, html⟩ := p
    rw [parseDocset.convertAll_cons, List.map_append, ih]
    cases hconv : Convert htmltomd html with
    | error e => simp [hconv, Except.isOk, Except.toBool]
    | ok md => simp [hconv, Except.isOk, Except.toBool]

end Lazydocs

namespace Lazydocs

theorem indexOf.loop_spec (c : Char) (s : Str) :
    ∀ i : Nat, (c ∉ s → indexOf.loop c s i = -1) ∧
      (c ∈ s → indexOf.loop c s i = ((i + (s.takeWhile (fun x => x != c)).length : Nat) : Int)) := by
  induction s with
  | nil => intro i; simp [indexOf.loop]
  | cons x xs ih =>
    intro i
    by_cases hx : x = c
    · subst hx
      simp [indexOf.loop]
    · have hne : (x != c) = true := by simpa using hx
      have hcx : ¬ c = x := fun h => hx h.symm
      constructor
      · intro hmem
        have hxs : c ∉ xs := fun h => hmem (List.mem_cons_of_mem _ h)
        simp [indexOf.loop, hx, (ih (i + 1)).1 hxs]
      · intro hmem
        have hxs : c ∈ xs := by
          rcases List.mem_cons.mp hmem with h | h
          · exact absurd h hcx
          · exact h
        simp only [indexOf.loop, hx, if_false, (ih (i + 1)).2 hxs, List.takeWhile_cons, hne,
          if_true, List.length_cons]
        congr 1
        omega

/-- The normalised path is the text before the first `#`. -/
theorem parseDocset.normalize_eq_takeWhile (path : Str) :
    parseDocset.normalize path = path.takeWhile (fun x => x != '#') := by
  unfold parseDocset.normalize indexOf
  by_cases h : '#' ∈ path
  · rw [(indexOf.loop_spec '#' path 0).2 h]
    have hne : ¬ (((0 + (path.takeWhile (fun x => x != '#')).length : Nat) : Int) = -1) := by
      omega
    simp only [ne_eq, hne, not_false_eq_true, if_true, Int.toNat_ofNat, Nat.zero_add]
    have : ∀ l : Str, l.take (l.takeWhile (fun x => x != '#')).length
        = l.takeWhile (fun x => x != '#') := by
      intro l
      induction l with
      | nil => simp
      | cons y ys ihy =>
        by_cases hy : y = '#'
        · simp [hy]
        · simp [hy, ihy]
    exact this path
  · rw [(indexOf.loop_spec '#' path 0).1 h]
    simp only [ne_eq, not_true_eq_false, if_false]
    symm
    rw [List.takeWhile_eq_self_iff]
    intro x hx
    have : x ≠ '#' := fun hx' => h (hx' ▸ hx)
    simpa using this

end Lazydocs

namespace Lazydocs

theorem count_eq_one_of_nodup {α : Type} [BEq α] [LawfulBEq α] (l : List α) (a : α)
    (hnd : l.Nodup) (hin : a ∈ l) : l.count a = 1 := by
  induction l with
  | nil => simp at hin
  | cons b l ih =>
    obtain ⟨hb, hl⟩ := List.nodup_cons.mp hnd
    rw [List.count_cons]
    by_cases hab : b = a
    · subst hab
      simp [List.count_eq_zero_of_not_mem hb]
    · have hmem : a ∈ l := by
        rcases List.mem_cons.mp hin with h | h
        · exact absurd h.symm hab
        · exact h
      simp [ih hl hmem, hab]

/-- What `parseDocset` returns on a bundle that decodes. -/
theorem parseDocset_of_unmarshal (env : Env) (manifest : ManifestEntry) (data : Bytes)
    (indexData : DocsetData) (contentMap : List (Str × Str))
    (hu : env.unmarshal data = .ok contentMap) :
    parseDocset env manifest data indexData
      = .ok (parseDocset.convertAll env.htmltomd (ParseSlug manifest.Slug).1
          (ParseSlug manifest.Slug).2
          (parseDocset.buildMeta indexData.Entries (fun _ => none)) contentMap []) := by
  simp [parseDocset, hu]

/-- How the symbol of a built entry relates to the structural index. -/
theorem parseDocset.symbol_spec (es : List DocsetEntry) (path : Str) :
    (∃ e ∈ es, parseDocset.normalize e.Path = path ∧
      (match parseDocset.buildMeta es (fun _ => none) path with
        | some m => m.Name | none => path) = e.Name) ∨
    ((∀ e ∈ es, parseDocset.normalize e.Path ≠ path) ∧
      (match parseDocset.buildMeta es (fun _ => none) path with
        | some m => m.Name | none => path) = path) := by
  rcases parseDocset.buildMeta_spec es (fun _ => none) path with ⟨e, he, hk, hget⟩ | ⟨hno, hget⟩
  · exact Or.inl ⟨e, he, hk, by rw [hget]⟩
  · exact Or.inr ⟨hno, by rw [hget]⟩

/-- C7: in the result of `parseDocset`, every content path whose conversion succeeds has an
entry, and every entry has title equal to symbol, the symbol being the name of a
structural-index entry whose normalised path is the content path when there is one, and the
raw content path when there is none. -/
theorem C7_symbol_and_title (env : Env) (manifest : ManifestEntry) (data : Bytes)
    (indexData : DocsetData) (contentMap : List (Str × Str))
    (hu : env.unmarshal data = .ok contentMap) :
    ∃ entries, parseDocset env manifest data indexData = .ok entries ∧
      (∀ path html md, (path, html) ∈ contentMap → Convert env.htmltomd html = .ok md →
        ∃ x ∈ entries, x.Path = path ∧ x.Content = md) ∧
      (∀ x ∈ entries, x.Title = x.Symbol ∧
        ((∃ e ∈ indexData.Entries, parseDocset.normalize e.Path = x.Path ∧
            x.Symbol = e.Name) ∨
          ((∀ e ∈ indexData.Entries, parseDocset.normalize e.Path ≠ x.Path) ∧
            x.Symbol = x.Path))) := by
  refine ⟨_, parseDocset_of_unmarshal env manifest data indexData contentMap hu, ?_, ?_⟩
  · intro path html md hmem hconv
    exact ⟨_, (parseDocset.convertAll_mem _ _ _ _ _ _).2 ⟨path, html, md, hmem, hconv, rfl⟩,
      rfl, rfl⟩
  · intro x hx
    obtain ⟨path, html, md, _, _, rfl⟩ := (parseDocset.convertAll_mem _ _ _ _ _ _).1 hx
    exact ⟨rfl, parseDocset.symbol_spec indexData.Entries path⟩

/-- C7, witness: the bundle with the paths `/a` and `/b` and the index entry `A` at
`/a#frag`: the entry for `/a` gets the symbol `A`, the entry for `/b` the symbol `/b`. -/
theorem C7_symbol_and_title_witness :
    parseDocset
        (installEnv [(str "/a", str "x"), (str "/b", str "y")]
          [{ Name := str "A", Path := str "/a#frag" }] (fun s => .ok s))
        { Slug := str "go" } [] { Entries := [{ Name := str "A", Path := str "/a#frag" }] }
      = .ok [{ Docset := str "go", Version := [], Symbol := str "A", Title := str "A",
               Content := str "x", Path := str "/a" },
             { Docset := str "go", Version := [], Symbol := str "/b", Title := str "/b",
               Content := str "y", Path := str "/b" }] ∧
    ∃ entries,
      parseDocset
        (installEnv [(str "/a", str "x"), (str "/b", str "y")]
          [{ Name := str "A", Path := str "/a#frag" }] (fun s => .ok s))
        { Slug := str "go" } [] { Entries := [{ Name := str "A", Path := str "/a#frag" }] }
        = .ok entries ∧ ∀ x ∈ entries, x.Title = x.Symbol :=
  ⟨by rfl,
    (C7_symbol_and_title
      (installEnv [(str "/a", str "x"), (str "/b", str "y")]
        [{ Name := str "A", Path := str "/a#frag" }] (fun s => .ok s))
      { Slug := str "go" } [] { Entries := [{ Name := str "A", Path := str "/a#frag" }] }
      [(str "/a", str "x"), (str "/b", str "y")] rfl).imp
      (fun _ h => ⟨h.1, fun x hx => (h.2.2 x hx).1⟩)⟩

/-- C8: on every bundle that decodes, with each content path occurring once, `parseDocset`
returns no error; its result has exactly one entry for each content path whose conversion
succeeds, none for a path whose conversion fails and no entry under another path; and the
entry count of the docset built by `Download` is the number of successful conversions. -/
theorem C8_conversion_failures_skip (env : Env) (manifest : ManifestEntry) (data : Bytes)
    (indexData : DocsetData) (contentMap : List (Str × Str))
    (hu : env.unmarshal data = .ok contentMap)
    (hk : (contentMap.map Prod.fst).Nodup) :
    ∃ entries, parseDocset env manifest data indexData = .ok entries ∧
      (∀ path html md, (path, html) ∈ contentMap → Convert env.htmltomd html = .ok md →
        (entries.map (fun x => x.Path)).count path = 1) ∧
      (∀ path html err, (path, html) ∈ contentMap → Convert env.htmltomd html = .error err →
        ∀ x ∈ entries, x.Path ≠ path) ∧
      (∀ x ∈ entries, ∃ html, (x.Path, html) ∈ contentMap) ∧
      (Download.docset manifest entries).EntryCount
        = ((contentMap.filter (fun p => (Convert env.htmltomd p.2).isOk)).length : Int) := by
  refine ⟨_, parseDocset_of_unmarshal env manifest data indexData contentMap hu, ?_, ?_, ?_, ?_⟩
  · intro path html md hmem hconv
    rw [parseDocset.convertAll_paths]
    have hnd : ((contentMap.filter (fun p => (Convert env.htmltomd p.2).isOk)).map
        Prod.fst).Nodup := hk.sublist ((List.filter_sublist _).map Prod.fst)
    have hin : path ∈ (contentMap.filter (fun p => (Convert env.htmltomd p.2).isOk)).map
        Prod.fst :=
      List.mem_map.mpr ⟨(path, html),
        List.mem_filter.mpr ⟨hmem, by simp [hconv, Except.isOk, Except.toBool]⟩, rfl⟩
    exact count_eq_one_of_nodup _ path hnd hin
  · intro path html err hmem hconv x hx hpath
    obtain ⟨path', html', md, hmem', hconv', rfl⟩ :=
      (parseDocset.convertAll_mem _ _ _ _ _ _).1 hx
    simp only at hpath
    subst hpath
    have hsame : html' = html :=
      congrArg Prod.snd (List.inj_on_of_nodup_map hk hmem' hmem rfl)
    rw [hsame, hconv] at hconv'
    cases hconv'
  · intro x hx
    obtain ⟨path, html, md, hmem, _, rfl⟩ := (parseDocset.convertAll_mem _ _ _ _ _ _).1 hx
    exact ⟨html, hmem⟩
  · have := congrArg List.length
      (parseDocset.convertAll_paths env.htmltomd (ParseSlug manifest.Slug).1
        (ParseSlug manifest.Slug).2 (parseDocset.buildMeta indexData.Entries (fun _ => none))
        contentMap)
    simp only [List.length_map] at this
    simp [Download.docset, this]

end Lazydocs

namespace Lazydocs

/-- C8, witness: of the two pages `/a` and `/b` the conversion of the second fails; the
result is the one entry for `/a` and the docset's entry count is 1. -/
theorem C8_conversion_failures_skip_witness :
    parseDocset
        (installEnv [(str "/a", str "x"), (str "/b", str "y")] []
          (fun s => if s = str "y" then .error "conversion failed" else .ok s))
        { Slug := str "go" } [] { Entries := [] }
      = .ok [{ Docset := str "go", Version := [], Symbol := str "/a", Title := str "/a",
               Content := str "x", Path := str "/a" }] ∧
    ∃ entries,
      parseDocset
        (installEnv [(str "/a", str "x"), (str "/b", str "y")] []
          (fun s => if s = str "y" then .error "conversion failed" else .ok s))
        { Slug := str "go" } [] { Entries := [] } = .ok entries ∧
      (Download.docset { Slug := str "go" } entries).EntryCount = 1 :=
  ⟨by rfl,
    (C8_conversion_failures_skip
      (installEnv [(str "/a", str "x"), (str "/b", str "y")] []
        (fun s => if s = str "y" then .error "conversion failed" else .ok s))
      { Slug := str "go" } [] { Entries := [] }
      [(str "/a", str "x"), (str "/b", str "y")] rfl (by decide)).imp
      (fun _ h => ⟨h.1, h.2.2.2.2.trans (by rfl)⟩)⟩

/-- C6, counterexample: the scenario of the claim, with a converter that turns the page into
`# Guide` and then with any converter. The bundle path `/guide#top` is looked up as it
stands, finds no index entry, and is stored with its fragment: the one entry has symbol and
path `/guide#top`, and no entry has symbol `Guide` or path `/guide`. -/
theorem C6_counterexample :
    (Download
      (installEnv [(str "/guide#top", str "<h1>Guide</h1>")]
        [{ Name := str "Guide", Path := str "/guide", Type_ := str "guide" }]
        (fun _ => .ok (str "# Guide")))
      emptyWorld { Name := str "Ruby on Rails", Slug := str "rails~7.1" }).2.conn.committed.docs
      = [{ Docset := str "rails", Version := str "7.1", Symbol := str "/guide#top",
           Title := str "/guide#top", Content := str "# Guide", Path := str "/guide#top" }] ∧
    ∀ htmltomd : Str → Except String Str,
      ∀ x ∈ (Download
        (installEnv [(str "/guide#top", str "<h1>Guide</h1>")]
          [{ Name := str "Guide", Path := str "/guide", Type_ := str "guide" }] htmltomd)
        emptyWorld
        { Name := str "Ruby on Rails", Slug := str "rails~7.1" }).2.conn.committed.docs,
        x.Symbol ≠ str "Guide" ∧ x.Path ≠ str "/guide" := by
  refine ⟨by rfl, ?_⟩
  intro htmltomd x hx
  have hparse : ParseSlug (str "rails~7.1") = (str "rails", str "7.1") := by decide
  have htrim : TrimSpace (str "<h1>Guide</h1>") ≠ [] := by decide
  have hmeta : parseDocset.buildMeta
      [{ Name := str "Guide", Path := str "/guide", Type_ := str "guide" }]
      (fun _ => none) (str "/guide#top") = none := by rfl
  cases hconv : htmltomd (str "<h1>Guide</h1>") with
  | error e =>
    simp [Download, installEnv, emptyWorld, parseDocset, parseDocset.convertAll, Convert,
      htrim, hconv, IndexDocset, IndexDocset.body, IndexDocset.insertAll, Conn.Begin,
      Conn.txExec, Conn.Commit, Conn.Rollback, sqlDeleteDocs, sqlUpsertDocset] at hx
  | ok md =>
    simp [Download, installEnv, emptyWorld, parseDocset, parseDocset.convertAll, Convert,
      htrim, hconv, hparse, hmeta, IndexDocset, IndexDocset.body, IndexDocset.insertAll,
      Conn.Begin, Conn.txExec, Conn.Commit, Conn.Rollback, sqlDeleteDocs, sqlInsertDoc,
      sqlUpsertDocset] at hx
    subst hx
    exact ⟨show str "/guide#top" ≠ str "Guide" by decide,
      show str "/guide#top" ≠ str "/guide" by decide⟩

end Lazydocs

namespace Lazydocs

/-- C6, amended: the fragment is stripped from the paths of the structural index, not from
the bundle. Every entry `parseDocset` builds is stored under a content path of the bundle as
it stands, and its symbol is the name of an index entry whose path up to the first `#` is
that content path, or the content path itself when there is none. Installing `rails~7.1`
with the bundle `/guide` and the index entry `Guide` at `/guide#top` gives exactly one entry,
with symbol `Guide` and path `/guide`, and a docset row with entry count 1, name `rails`,
version `7.1`; with the bundle `/guide#top` and the index entry at `/guide` the one entry has
symbol and path `/guide#top`. -/
theorem C6_fragment_normalisation (htmltomd : Str → Except String Str) (md : Str)
    (hconv : htmltomd (str "<h1>Guide</h1>") = .ok md) :
    (∀ (env : Env) (manifest : ManifestEntry) (data : Bytes) (indexData : DocsetData)
        (contentMap : List (Str × Str)), env.unmarshal data = .ok contentMap →
      ∃ entries, parseDocset env manifest data indexData = .ok entries ∧
        ∀ x ∈ entries, (∃ html, (x.Path, html) ∈ contentMap) ∧
          ((∃ e ∈ indexData.Entries, e.Path.takeWhile (fun c => c != '#') = x.Path ∧
              x.Symbol = e.Name) ∨
            ((∀ e ∈ indexData.Entries, e.Path.takeWhile (fun c => c != '#') ≠ x.Path) ∧
              x.Symbol = x.Path))) ∧
    (Download
      (installEnv [(str "/guide", str "<h1>Guide</h1>")]
        [{ Name := str "Guide", Path := str "/guide#top", Type_ := str "guide" }] htmltomd)
      emptyWorld { Name := str "Ruby on Rails", Slug := str "rails~7.1" }).1 = none ∧
    (Download
      (installEnv [(str "/guide", str "<h1>Guide</h1>")]
        [{ Name := str "Guide", Path := str "/guide#top", Type_ := str "guide" }] htmltomd)
      emptyWorld { Name := str "Ruby on Rails", Slug := str "rails~7.1" }).2.conn
      = { committed :=
            { docs := [{ Docset := str "rails", Version := str "7.1", Symbol := str "Guide",
                         Title := str "Guide", Content := cleanMarkdown md,
                         Path := str "/guide" }],
              docsets := [{ id := 1, slug := str "rails~7.1", name := str "rails",
                            version := str "7.1", display_name := str "Ruby on Rails",
                            entry_count := 1, mtime := 0, installed_at := 0 }] },
          pending := none } ∧
    (Download
      (installEnv [(str "/guide#top", str "<h1>Guide</h1>")]
        [{ Name := str "Guide", Path := str "/guide", Type_ := str "guide" }] htmltomd)
      emptyWorld { Name := str "Ruby on Rails", Slug := str "rails~7.1" }).2.conn
      = { committed :=
            { docs := [{ Docset := str "rails", Version := str "7.1",
                         Symbol := str "/guide#top", Title := str "/guide#top",
                         Content := cleanMarkdown md, Path := str "/guide#top" }],
              docsets := [{ id := 1, slug := str "rails~7.1", name := str "rails",
                            version := str "7.1", display_name := str "Ruby on Rails",
                            entry_count := 1, mtime := 0, installed_at := 0 }] },
          pending := none } := by
  have hparse : ParseSlug (str "rails~7.1") = (str "rails", str "7.1") := by decide
  have htrim : TrimSpace (str "<h1>Guide</h1>") ≠ [] := by decide
  have hmeta1 : parseDocset.buildMeta
      [{ Name := str "Guide", Path := str "/guide#top", Type_ := str "guide" }]
      (fun _ => none) (str "/guide")
        = some { Name := str "Guide", Path := str "/guide#top", Type_ := str "guide" } := by
    rfl
  have hmeta2 : parseDocset.buildMeta
      [{ Name := str "Guide", Path := str "/guide", Type_ := str "guide" }]
      (fun _ => none) (str "/guide#top") = none := by rfl
  have hid : nextRowId [] = 1 := by decide
  refine ⟨?_, ?_, ?_, ?_⟩
  · intro env manifest data indexData contentMap hu
    refine ⟨_, parseDocset_of_unmarshal env manifest data indexData contentMap hu, ?_⟩
    intro x hx
    obtain ⟨path, html, md', hmem, _, rfl⟩ := (parseDocset.convertAll_mem _ _ _ _ _ _).1 hx
    have hsym := parseDocset.symbol_spec indexData.Entries path
    simp only [parseDocset.normalize_eq_takeWhile] at hsym
    exact ⟨⟨html, hmem⟩, hsym⟩
  · simp [Download, installEnv, emptyWorld, parseDocset, parseDocset.convertAll, Convert,
      htrim, hconv, IndexDocset, IndexDocset.body, IndexDocset.insertAll]
  · simp [Download, installEnv, emptyWorld, parseDocset, parseDocset.convertAll, Convert,
      htrim, hconv, hparse, hmeta1, hid, IndexDocset, IndexDocset.body,
      IndexDocset.insertAll, Download.docset,
      Conn.Begin, Conn.txExec, Conn.Commit, Conn.Rollback, sqlDeleteDocs, sqlInsertDoc,
      sqlUpsertDocset]
  · simp [Download, installEnv, emptyWorld, parseDocset, parseDocset.convertAll, Convert,
      htrim, hconv, hparse, hmeta2, hid, IndexDocset, IndexDocset.body,
      IndexDocset.insertAll, Download.docset,
      Conn.Begin, Conn.txExec, Conn.Commit, Conn.Rollback, sqlDeleteDocs, sqlInsertDoc,
      sqlUpsertDocset]

/-- C6, witness: a converter that turns the page into `# Guide`. -/
theorem C6_fragment_normalisation_witness :
    (Download
      (installEnv [(str "/guide", str "<h1>Guide</h1>")]
        [{ Name := str "Guide", Path := str "/guide#top", Type_ := str "guide" }]
        (fun _ => .ok (str "# Guide")))
      emptyWorld { Name := str "Ruby on Rails", Slug := str "rails~7.1" }).2.conn
      = { committed :=
            { docs := [{ Docset := str "rails", Version := str "7.1", Symbol := str "Guide",
                         Title := str "Guide", Content := cleanMarkdown (str "# Guide"),
                         Path := str "/guide" }],
              docsets := [{ id := 1, slug := str "rails~7.1", name := str "rails",
                            version := str "7.1", display_name := str "Ruby on Rails",
                            entry_count := 1, mtime := 0, installed_at := 0 }] },
          pending := none } :=
  (C6_fragment_normalisation (fun _ => .ok (str "# Guide")) (str "# Guide") rfl).2.2.1

end Lazydocs

/-! ## Indexing -/

namespace Lazydocs

theorem IndexDocset.insertAll_committed (f : Faults) (es : List Entry) :
    ∀ (i : Nat) (c : Conn), (IndexDocset.insertAll f i es c).2.committed = c.committed := by
  induction es with
  | nil => intro i c; rfl
  | cons e es ih =>
    intro i c
    simp only [IndexDocset.insertAll]
    by_cases hf : f.insertFails i = true
    · simp [hf]
    · simp only [hf, Bool.false_eq_true, if_false]
      rw [ih]
      rfl

theorem IndexDocset.insertAll_error_iff (f : Faults) (es : List Entry) :
    ∀ (i : Nat) (c : Conn), (IndexDocset.insertAll f i es c).1 ≠ none ↔
      ∃ j, j < es.length ∧ f.insertFails (i + j) = true := by
  induction es with
  | nil => intro i c; simp [IndexDocset.insertAll]
  | cons e es ih =>
    intro i c
    simp only [IndexDocset.insertAll]
    by_cases hf : f.insertFails i = true
    · simp only [hf, if_true]
      constructor
      · intro _
        exact ⟨0, by simp, by simpa using hf⟩
      · intro _
        simp
    · simp only [hf, Bool.false_eq_true, if_false]
      rw [ih]
      constructor
      · rintro ⟨j, hj, hfj⟩
        exact ⟨j + 1, by simp [hj], by rw [← hfj]; congr 1; omega⟩
      · rintro ⟨j, hj, hfj⟩
        cases j with
        | zero => exact absurd hfj hf
        | succ j =>
          exact ⟨j, by simpa using hj, by rw [← hfj]; congr 1; omega⟩

theorem IndexDocset.insertAll_ok (f : Faults) (es : List Entry) :
    ∀ (i : Nat) (a w : Index),
      (IndexDocset.insertAll f i es { committed := a, pending := some w }).1 = none →
      (IndexDocset.insertAll f i es { committed := a, pending := some w }).2
        = { committed := a, pending := some { w with docs := w.docs ++ es } } := by
  induction es with
  | nil => intro i a w _; simp [IndexDocset.insertAll]
  | cons e es ih =>
    intro i a w hok
    simp only [IndexDocset.insertAll] at hok ⊢
    by_cases hf : f.insertFails i = true
    · simp [hf] at hok
    · simp only [hf, Bool.false_eq_true, if_false] at hok ⊢
      have := ih (i + 1) a (sqlInsertDoc e w) hok
      simp only [Conn.txExec, Option.map_some'] at hok this ⊢
      rw [this]
      simp [sqlInsertDoc]

end Lazydocs

namespace Lazydocs

/-- An `IndexDocset` that returns an error leaves the connection as it found it. -/
theorem IndexDocset_error_unchanged (f : Faults) (now : Int) (c : Conn) (docset : Docset)
    (entries : List Entry) (hc : c.pending = none)
    (herr : (IndexDocset f now c docset entries).1 ≠ none) :
    (IndexDocset f now c docset entries).2 = c := by
  obtain ⟨a, p⟩ := c
  simp only at hc
  subst hc
  unfold IndexDocset at herr ⊢
  by_cases hb : f.beginFails = true
  · simp [hb]
  · simp only [hb, Bool.false_eq_true, if_false] at herr ⊢
    unfold IndexDocset.body at herr ⊢
    by_cases hd : f.deleteFails = true
    · simp [hd, Conn.Begin, Conn.Rollback]
    · simp only [hd, Bool.false_eq_true, if_false] at herr ⊢
      by_cases hp : f.prepareFails = true
      · simp [hp, Conn.Begin, Conn.Rollback, Conn.txExec]
      · simp only [hp, Bool.false_eq_true, if_false] at herr ⊢
        have hcomm := IndexDocset.insertAll_committed f entries 0
          (Conn.txExec (sqlDeleteDocs docset.Name docset.Version)
            (Conn.Begin { committed := a, pending := none }))
        generalize IndexDocset.insertAll f 0 entries
          (Conn.txExec (sqlDeleteDocs docset.Name docset.Version)
            (Conn.Begin { committed := a, pending := none })) = r at herr hcomm ⊢
        obtain ⟨e, c'⟩ := r
        simp only [Conn.txExec, Conn.Begin] at hcomm
        cases e with
        | some err => simp [Conn.Rollback, hcomm]
        | none =>
          simp only at herr ⊢
          by_cases hm : f.metadataFails = true
          · simp [hm, Conn.Rollback, hcomm]
          · simp only [hm, Bool.false_eq_true, if_false] at herr ⊢
            by_cases hcm : f.commitFails = true
            · simp [hcm, Conn.Rollback, Conn.txExec, hcomm]
            · simp [hcm] at herr

/-- The connection after an `IndexDocset` that returns no error: the old rows of the docset's
`(Name, Version)` are deleted, the entries appended and the metadata row upserted. -/
theorem IndexDocset_ok_eq (f : Faults) (now : Int) (c : Conn) (docset : Docset)
    (entries : List Entry) (hc : c.pending = none)
    (hok : (IndexDocset f now c docset entries).1 = none) :
    (IndexDocset f now c docset entries).2
      = { committed :=
            sqlUpsertDocset docset.Slug docset.Name docset.Version docset.DisplayName
              (entries.length : Int) docset.Mtime now
              { docs := (sqlDeleteDocs docset.Name docset.Version c.committed).docs ++ entries,
                docsets := c.committed.docsets },
          pending := none } := by
  obtain ⟨a, p⟩ := c
  simp only at hc
  subst hc
  unfold IndexDocset at hok ⊢
  by_cases hb : f.beginFails = true
  · simp [hb] at hok
  · simp only [hb, Bool.false_eq_true, if_false] at hok ⊢
    unfold IndexDocset.body at hok ⊢
    by_cases hd : f.deleteFails = true
    · simp [hd] at hok
    · simp only [hd, Bool.false_eq_true, if_false] at hok ⊢
      by_cases hp : f.prepareFails = true
      · simp [hp] at hok
      · simp only [hp, Bool.false_eq_true, if_false, Conn.Begin, Conn.txExec,
          Option.map_some'] at hok ⊢
        have hins := IndexDocset.insertAll_ok f entries 0 a
          (sqlDeleteDocs docset.Name docset.Version a)
        generalize IndexDocset.insertAll f 0 entries
          { committed := a, pending := some (sqlDeleteDocs docset.Name docset.Version a) }
          = r at hok hins ⊢
        obtain ⟨e, c'⟩ := r
        cases e with
        | some err => simp at hok
        | none =>
          simp only [true_implies] at hins
          subst hins
          simp only at hok ⊢
          by_cases hm : f.metadataFails = true
          · simp [hm] at hok
          · simp only [hm, Bool.false_eq_true, if_false] at hok ⊢
            by_cases hcm : f.commitFails = true
            · simp [hcm] at hok
            · simp [hcm, Conn.Commit, Conn.Rollback, sqlDeleteDocs]

/-- Without a database fault `IndexDocset` returns no error. -/
theorem IndexDocset_ok_of_no_fault (f : Faults) (now : Int) (c : Conn) (docset : Docset)
    (entries : List Entry) (hb : f.beginFails = false) (hd : f.deleteFails = false)
    (hp : f.prepareFails = false) (hi : ∀ i, i < entries.length → f.insertFails i = false)
    (hm : f.metadataFails = false) (hcm : f.commitFails = false) :
    (IndexDocset f now c docset entries).1 = none := by
  have hins : (IndexDocset.insertAll f 0 entries
      (Conn.txExec (sqlDeleteDocs docset.Name docset.Version) c.Begin)).1 = none := by
    by_contra hne
    obtain ⟨j, hj, hfj⟩ := (IndexDocset.insertAll_error_iff f entries 0 _).1 hne
    rw [Nat.zero_add, hi j hj] at hfj
    cases hfj
  unfold IndexDocset IndexDocset.body
  simp only [hb, hd, hp, hm, hcm, Bool.false_eq_true, if_false]
  generalize IndexDocset.insertAll f 0 entries
    (Conn.txExec (sqlDeleteDocs docset.Name docset.Version) c.Begin) = r at hins ⊢
  obtain ⟨e, c'⟩ := r
  simp only at hins
  subst hins
  rfl

end Lazydocs

namespace Lazydocs

theorem sqlUpsertDocset_docs (slug name version displayName : Str)
    (entryCount mtime now : Int) (ix : Index) :
    (sqlUpsertDocset slug name version displayName entryCount mtime now ix).docs = ix.docs := by
  unfold sqlUpsertDocset
  split <;> rfl

theorem sqlUpsertDocset_row (slug name version displayName : Str)
    (entryCount mtime now : Int) (ix : Index) :
    (∃ r ∈ (sqlUpsertDocset slug name version displayName entryCount mtime now ix).docsets,
      r.slug = slug) ∧
    (∀ r ∈ (sqlUpsertDocset slug name version displayName entryCount mtime now ix).docsets,
      r.slug = slug → r.entry_count = entryCount) := by
  unfold sqlUpsertDocset
  by_cases hany : ix.docsets.any (fun r => r.slug == slug) = true
  · simp only [hany, if_true]
    obtain ⟨r, hr, hslug⟩ := List.any_eq_true.mp hany
    have hslug' : r.slug = slug := by simpa using hslug
    constructor
    · refine ⟨_, List.mem_map.mpr ⟨r, hr, rfl⟩, ?_⟩
      simp [hslug']
    · intro r' hr' hs'
      obtain ⟨r0, _, rfl⟩ := List.mem_map.mp hr'
      by_cases h0 : r0.slug = slug
      · simp [h0]
      · simp [h0] at hs'
  · simp only [hany, Bool.false_eq_true, if_false]
    have hnone : ∀ r ∈ ix.docsets, r.slug ≠ slug := by
      intro r hr hs
      apply hany
      exact List.any_eq_true.mpr ⟨r, hr, by simp [hs]⟩
    constructor
    · exact ⟨_, List.mem_append_right _ (List.mem_singleton.mpr rfl), rfl⟩
    · intro r hr hs
      rcases List.mem_append.mp hr with h | h
      · exact absurd hs (hnone r h)
      · rw [List.mem_singleton.mp h]

/-- C9: `IndexDocset` is all-or-nothing. On a connection with no open transaction, a failing
delete, a failing insert at any position of the entry list or a failing metadata upsert
makes `IndexDocset` return an error, and whenever it returns an error the connection, with
all entry rows and all metadata rows, is exactly as before the call. -/
theorem C9_index_docset_atomic (f : Faults) (now : Int) (c : Conn) (docset : Docset)
    (entries : List Entry) (hc : c.pending = none) :
    ((f.deleteFails = true ∨ (∃ i, i < entries.length ∧ f.insertFails i = true) ∨
        f.metadataFails = true) →
      (IndexDocset f now c docset entries).1 ≠ none) ∧
    ((IndexDocset f now c docset entries).1 ≠ none →
      (IndexDocset f now c docset entries).2 = c) := by
  refine ⟨?_, IndexDocset_error_unchanged f now c docset entries hc⟩
  intro hfault
  unfold IndexDocset
  by_cases hb : f.beginFails = true
  · simp [hb]
  · simp only [hb, Bool.false_eq_true, if_false]
    unfold IndexDocset.body
    by_cases hd : f.deleteFails = true
    · simp [hd]
    · simp only [hd, Bool.false_eq_true, if_false]
      by_cases hp : f.prepareFails = true
      · simp [hp]
      · simp only [hp, Bool.false_eq_true, if_false]
        have hiff := IndexDocset.insertAll_error_iff f entries 0
          (Conn.txExec (sqlDeleteDocs docset.Name docset.Version) c.Begin)
        generalize IndexDocset.insertAll f 0 entries
          (Conn.txExec (sqlDeleteDocs docset.Name docset.Version) c.Begin) = r at hiff ⊢
        obtain ⟨e, c'⟩ := r
        cases e with
        | some err => simp
        | none =>
          simp only [ne_eq, not_true_eq_false, Nat.zero_add, false_iff, not_exists,
            not_and] at hiff
          rcases hfault with h | ⟨i, hi, hfi⟩ | h
          · exact absurd h hd
          · exact absurd hfi (hiff i hi)
          · simp [h]

/-- C9, witness: the index holds one `go` entry and its metadata row; re-indexing `go` with
two entries, the insert of the second one fails: an error is returned and the index is the
same as before. -/
theorem C9_index_docset_atomic_witness :
    (IndexDocset { insertFails := fun i => i == 1 } 7
      { committed :=
          { docs := [{ Docset := str "go", Version := [], Symbol := str "fmt",
                       Title := str "fmt", Content := str "old", Path := str "fmt/index" }],
            docsets := [{ id := 1, slug := str "go", name := str "go", version := [],
                          display_name := str "Go", entry_count := 1, mtime := 3,
                          installed_at := 5 }] },
        pending := none }
      { Slug := str "go", Name := str "go", DisplayName := str "Go", EntryCount := 2 }
      [{ Docset := str "go", Version := [], Symbol := str "fmt", Title := str "fmt",
         Content := str "new", Path := str "fmt/index" },
       { Docset := str "go", Version := [], Symbol := str "os", Title := str "os",
         Content := str "new", Path := str "os/index" }]).2
      = { committed :=
            { docs := [{ Docset := str "go", Version := [], Symbol := str "fmt",
                         Title := str "fmt", Content := str "old", Path := str "fmt/index" }],
              docsets := [{ id := 1, slug := str "go", name := str "go", version := [],
                            display_name := str "Go", entry_count := 1, mtime := 3,
                            installed_at := 5 }] },
          pending := none } :=
  (C9_index_docset_atomic { insertFails := fun i => i == 1 } 7 _ _ _ rfl).2
    ((C9_index_docset_atomic { insertFails := fun i => i == 1 } 7 _ _ _ rfl).1
      (Or.inr (Or.inl ⟨1, by decide, rfl⟩)))

end Lazydocs

namespace Lazydocs

/-- C10, counterexample: indexing the docset `a` with one entry that carries the docset name
`b` succeeds and records the entry count 1, while no row of the index has the docset `a`. -/
theorem C10_counterexample :
    (IndexDocset {} 0 emptyWorld.conn { Slug := str "a", Name := str "a" }
      [{ Docset := str "b", Version := [], Symbol := str "s", Title := str "s",
         Content := str "text", Path := str "/p" }]).1 = none ∧
    ((IndexDocset {} 0 emptyWorld.conn { Slug := str "a", Name := str "a" }
      [{ Docset := str "b", Version := [], Symbol := str "s", Title := str "s",
         Content := str "text", Path := str "/p" }]).2.committed.docsets.map
        (fun r => (r.slug, r.entry_count))) = [(str "a", 1)] ∧
    ((IndexDocset {} 0 emptyWorld.conn { Slug := str "a", Name := str "a" }
      [{ Docset := str "b", Version := [], Symbol := str "s", Title := str "s",
         Content := str "text", Path := str "/p" }]).2.committed.docs.filter
        (fun e => e.Docset = str "a" ∧ e.Version = [])).length = 0 := by
  decide

/-- C10, amended: for every docset and every entry list whose entries all carry the docset's
`(Name, Version)`, after `IndexDocset` succeeds the index has a metadata row for the docset's
slug, every such row stores `len(entries)` as its entry count, and that is the number of
index rows whose `(docset, version)` are the docset's `(Name, Version)`. -/
theorem C10_entry_count (f : Faults) (now : Int) (c : Conn) (docset : Docset)
    (entries : List Entry) (hc : c.pending = none)
    (hok : (IndexDocset f now c docset entries).1 = none)
    (hent : ∀ e ∈ entries, e.Docset = docset.Name ∧ e.Version = docset.Version) :
    (∃ r ∈ (IndexDocset f now c docset entries).2.committed.docsets,
      r.slug = docset.Slug) ∧
    (∀ r ∈ (IndexDocset f now c docset entries).2.committed.docsets,
      r.slug = docset.Slug → r.entry_count = (entries.length : Int)) ∧
    (((IndexDocset f now c docset entries).2.committed.docs.filter
        (fun e => e.Docset = docset.Name ∧ e.Version = docset.Version)).length : Int)
      = (entries.length : Int) := by
  rw [IndexDocset_ok_eq f now c docset entries hc hok]
  simp only
  have hrow := sqlUpsertDocset_row docset.Slug docset.Name docset.Version docset.DisplayName
    (entries.length : Int) docset.Mtime now
    { docs := (sqlDeleteDocs docset.Name docset.Version c.committed).docs ++ entries,
      docsets := c.committed.docsets }
  refine ⟨hrow.1, hrow.2, ?_⟩
  rw [sqlUpsertDocset_docs]
  simp only [sqlDeleteDocs, List.filter_append, List.length_append]
  have hold : (List.filter (fun e => decide (e.Docset = docset.Name ∧ e.Version = docset.Version))
      (List.filter (fun e => !(e.Docset == docset.Name && e.Version == docset.Version))
        c.committed.docs)) = [] := by
    rw [List.filter_eq_nil_iff]
    intro e he
    have := (List.mem_filter.mp he).2
    simp only [Bool.not_eq_true', Bool.and_eq_false_iff, beq_eq_false_iff_ne, ne_eq] at this
    simp only [decide_eq_true_eq, not_and]
    intro h1 h2
    rcases this with h | h
    · exact h h1
    · exact h h2
  have hnew : List.filter (fun e => decide (e.Docset = docset.Name ∧ e.Version = docset.Version))
      entries = entries := by
    rw [List.filter_eq_self]
    intro e he
    simpa using hent e he
  rw [hold, hnew]
  simp

/-- C10, witness: re-indexing `go` with two entries over an index that held one. -/
theorem C10_entry_count_witness :
    ((IndexDocset {} 7
      { committed :=
          { docs := [{ Docset := str "go", Version := [], Symbol := str "fmt",
                       Title := str "fmt", Content := str "old", Path := str "fmt/index" }],
            docsets := [{ id := 1, slug := str "go", name := str "go", version := [],
                          display_name := str "Go", entry_count := 1, mtime := 3,
                          installed_at := 5 }] },
        pending := none }
      { Slug := str "go", Name := str "go", DisplayName := str "Go", EntryCount := 2 }
      [{ Docset := str "go", Version := [], Symbol := str "fmt", Title := str "fmt",
         Content := str "new", Path := str "fmt/index" },
       { Docset := str "go", Version := [], Symbol := str "os", Title := str "os",
         Content := str "new", Path := str "os/index" }]).2.committed.docsets.map
        (fun r => (r.slug, r.entry_count))) = [(str "go", 2)] ∧
    ∀ r ∈ (IndexDocset {} 7
      { committed :=
          { docs := [{ Docset := str "go", Version := [], Symbol := str "fmt",
                       Title := str "fmt", Content := str "old", Path := str "fmt/index" }],
            docsets := [{ id := 1, slug := str "go", name := str "go", version := [],
                          display_name := str "Go", entry_count := 1, mtime := 3,
                          installed_at := 5 }] },
        pending := none }
      { Slug := str "go", Name := str "go", DisplayName := str "Go", EntryCount := 2 }
      [{ Docset := str "go", Version := [], Symbol := str "fmt", Title := str "fmt",
         Content := str "new", Path := str "fmt/index" },
       { Docset := str "go", Version := [], Symbol := str "os", Title := str "os",
         Content := str "new", Path := str "os/index" }]).2.committed.docsets,
      r.slug = str "go" → r.entry_count = 2 :=
  ⟨by decide, (C10_entry_count {} 7 _ _ _ rfl (by decide) (by decide)).2.1⟩

end Lazydocs

/-! ## Re-indexing and removal -/

namespace Lazydocs

theorem sqlUpsertDocset_row_fields (slug name version displayName : Str)
    (entryCount mtime now : Int) (ix : Index) :
    ∀ r ∈ (sqlUpsertDocset slug name version displayName entryCount mtime now ix).docsets,
      r.slug = slug →
        r.display_name = displayName ∧ r.entry_count = entryCount ∧ r.mtime = mtime ∧
          r.installed_at = now := by
  unfold sqlUpsertDocset
  by_cases hany : ix.docsets.any (fun r => r.slug == slug) = true
  · simp only [hany, if_true]
    intro r' hr' hs'
    obtain ⟨r0, _, rfl⟩ := List.mem_map.mp hr'
    by_cases h0 : r0.slug = slug
    · simp [h0]
    · simp [h0] at hs'
  · simp only [hany, Bool.false_eq_true, if_false]
    have hnone : ∀ r ∈ ix.docsets, r.slug ≠ slug := by
      intro r hr hs
      apply hany
      exact List.any_eq_true.mpr ⟨r, hr, by simp [hs]⟩
    intro r hr hs
    rcases List.mem_append.mp hr with h | h
    · exact absurd hs (hnone r h)
    · rw [List.mem_singleton.mp h]
      exact ⟨rfl, rfl, rfl, rfl⟩

/-- A second upsert of the same metadata changes nothing but `installed_at`. -/
theorem sqlUpsertDocset_twice (slug name version displayName : Str)
    (entryCount mtime now1 now2 : Int) (ix : Index) (docs : List Entry) :
    (sqlUpsertDocset slug name version displayName entryCount mtime now2
      { docs := docs,
        docsets := (sqlUpsertDocset slug name version displayName entryCount mtime now1
          ix).docsets }).docsets.map (fun r => { r with installed_at := 0 })
      = (sqlUpsertDocset slug name version displayName entryCount mtime now1
          ix).docsets.map (fun r => { r with installed_at := 0 }) := by
  have hrow := sqlUpsertDocset_row slug name version displayName entryCount mtime now1 ix
  have hfields :=
    sqlUpsertDocset_row_fields slug name version displayName entryCount mtime now1 ix
  generalize (sqlUpsertDocset slug name version displayName entryCount mtime now1
    ix).docsets = D at hrow hfields
  obtain ⟨r, hr, hs⟩ := hrow.1
  have hany : D.any (fun r => r.slug == slug) = true :=
    List.any_eq_true.mpr ⟨r, hr, by simp [hs]⟩
  unfold sqlUpsertDocset
  simp only [hany, if_true, List.map_map]
  apply List.map_congr_left
  intro x hx
  by_cases hxs : x.slug = slug
  · obtain ⟨h1, h2, h3, _⟩ := hfields x hx hxs
    simp [hxs, ← h1, ← h2, ← h3]
  · simp [hxs]

end Lazydocs

namespace Lazydocs

theorem sqlDeleteDocs_append_own (name version : Str) (old entries : List Entry)
    (hent : ∀ e ∈ entries, e.Docset = name ∧ e.Version = version) :
    (sqlDeleteDocs name version
      { docs := (old.filter (fun e => !(e.Docset == name && e.Version == version))) ++ entries,
        docsets := [] }).docs
      = old.filter (fun e => !(e.Docset == name && e.Version == version)) := by
  simp only [sqlDeleteDocs, List.filter_append, List.filter_filter, Bool.and_self]
  have hnew : entries.filter (fun e => !(e.Docset == name && e.Version == version)) = [] := by
    rw [List.filter_eq_nil_iff]
    intro e he
    obtain ⟨h1, h2⟩ := hent e he
    simp [h1, h2]
  rw [hnew, List.append_nil]

/-- C11, counterexample: the docset `a` indexed with one entry that carries the docset name
`b`. The delete of the second run spares that row, so after two runs the index holds the
entry twice, where one run leaves it once. -/
theorem C11_counterexample :
    (IndexDocset {} 0 emptyWorld.conn { Slug := str "a", Name := str "a" }
      [{ Docset := str "b", Version := [], Symbol := str "s", Title := str "s",
         Content := str "text", Path := str "/p" }]).2.committed.docs
      = [{ Docset := str "b", Version := [], Symbol := str "s", Title := str "s",
           Content := str "text", Path := str "/p" }] ∧
    (IndexDocset {} 0
      (IndexDocset {} 0 emptyWorld.conn { Slug := str "a", Name := str "a" }
        [{ Docset := str "b", Version := [], Symbol := str "s", Title := str "s",
           Content := str "text", Path := str "/p" }]).2
      { Slug := str "a", Name := str "a" }
      [{ Docset := str "b", Version := [], Symbol := str "s", Title := str "s",
         Content := str "text", Path := str "/p" }]).2.committed.docs
      = [{ Docset := str "b", Version := [], Symbol := str "s", Title := str "s",
           Content := str "text", Path := str "/p" },
         { Docset := str "b", Version := [], Symbol := str "s", Title := str "s",
           Content := str "text", Path := str "/p" }] := by
  decide

/-- C11, amended: for every docset and every entry list whose entries all carry the docset's
`(Name, Version)`, a second successful `IndexDocset(docset, entries)` right after a first one
leaves the same entry rows, in the same order and none twice, and the same metadata rows up
to `installed_at`, the entry count included. -/
theorem C11_index_twice (f1 f2 : Faults) (now1 now2 : Int) (c : Conn) (docset : Docset)
    (entries : List Entry) (hc : c.pending = none)
    (hent : ∀ e ∈ entries, e.Docset = docset.Name ∧ e.Version = docset.Version)
    (h1 : (IndexDocset f1 now1 c docset entries).1 = none)
    (h2 : (IndexDocset f2 now2 (IndexDocset f1 now1 c docset entries).2 docset entries).1
      = none) :
    (IndexDocset f2 now2 (IndexDocset f1 now1 c docset entries).2 docset
        entries).2.committed.docs
      = (IndexDocset f1 now1 c docset entries).2.committed.docs ∧
    (IndexDocset f2 now2 (IndexDocset f1 now1 c docset entries).2 docset
        entries).2.committed.docsets.map (fun r => { r with installed_at := 0 })
      = (IndexDocset f1 now1 c docset entries).2.committed.docsets.map
          (fun r => { r with installed_at := 0 }) := by
  have e1 := IndexDocset_ok_eq f1 now1 c docset entries hc h1
  rw [e1] at h2 ⊢
  have e2 := IndexDocset_ok_eq f2 now2 _ docset entries rfl h2
  rw [e2]
  simp only [sqlUpsertDocset_docs]
  constructor
  · have := sqlDeleteDocs_append_own docset.Name docset.Version c.committed.docs entries hent
    simp only [sqlDeleteDocs, sqlUpsertDocset_docs] at this ⊢
    rw [this]
  · exact sqlUpsertDocset_twice _ _ _ _ _ _ now1 now2 _ _

/-- C11, witness: `go` indexed twice with the same two entries, at times 7 and 9. -/
theorem C11_index_twice_witness :
    (IndexDocset {} 9
      (IndexDocset {} 7 emptyWorld.conn { Slug := str "go", Name := str "go" }
        [{ Docset := str "go", Version := [], Symbol := str "fmt", Title := str "fmt",
           Content := str "text", Path := str "fmt/index" },
         { Docset := str "go", Version := [], Symbol := str "os", Title := str "os",
           Content := str "text", Path := str "os/index" }]).2
      { Slug := str "go", Name := str "go" }
      [{ Docset := str "go", Version := [], Symbol := str "fmt", Title := str "fmt",
         Content := str "text", Path := str "fmt/index" },
       { Docset := str "go", Version := [], Symbol := str "os", Title := str "os",
         Content := str "text", Path := str "os/index" }]).2.committed.docs
      = (IndexDocset {} 7 emptyWorld.conn { Slug := str "go", Name := str "go" }
        [{ Docset := str "go", Version := [], Symbol := str "fmt", Title := str "fmt",
           Content := str "text", Path := str "fmt/index" },
         { Docset := str "go", Version := [], Symbol := str "os", Title := str "os",
           Content := str "text", Path := str "os/index" }]).2.committed.docs :=
  (C11_index_twice {} {} 7 9 emptyWorld.conn { Slug := str "go", Name := str "go" }
    [{ Docset := str "go", Version := [], Symbol := str "fmt", Title := str "fmt",
       Content := str "text", Path := str "fmt/index" },
     { Docset := str "go", Version := [], Symbol := str "os", Title := str "os",
       Content := str "text", Path := str "os/index" }]
    rfl (by decide) (by decide) (by decide)).1

end Lazydocs

namespace Lazydocs

/-- What a `Download` that returns no error has done. -/
theorem Download_ok (env : Env) (w : World) (entry : ManifestEntry)
    (hok : (Download env w entry).1 = none) :
    ∃ data indexData contentMap,
      env.fetchDocset entry.Slug = .ok data ∧ env.saveDocset entry.Slug data = none ∧
      env.fetchIndex entry.Slug = .ok indexData ∧ env.unmarshal data = .ok contentMap ∧
      (IndexDocset env.faults env.now w.conn
        (Download.docset entry
          (parseDocset.convertAll env.htmltomd (ParseSlug entry.Slug).1 (ParseSlug entry.Slug).2
            (parseDocset.buildMeta indexData.Entries (fun _ => none)) contentMap []))
        (parseDocset.convertAll env.htmltomd (ParseSlug entry.Slug).1 (ParseSlug entry.Slug).2
          (parseDocset.buildMeta indexData.Entries (fun _ => none)) contentMap [])).1 = none ∧
      (Download env w entry).2
        = { conn := (IndexDocset env.faults env.now w.conn
              (Download.docset entry
                (parseDocset.convertAll env.htmltomd (ParseSlug entry.Slug).1
                  (ParseSlug entry.Slug).2
                  (parseDocset.buildMeta indexData.Entries (fun _ => none)) contentMap []))
              (parseDocset.convertAll env.htmltomd (ParseSlug entry.Slug).1
                (ParseSlug entry.Slug).2
                (parseDocset.buildMeta indexData.Entries (fun _ => none)) contentMap [])).2,
            saved := w.saved ++ [(entry.Slug, data)] } := by
  unfold Download at hok ⊢
  cases hfd : env.fetchDocset entry.Slug with
  | error e => simp [hfd] at hok
  | ok data =>
    simp only [hfd] at hok ⊢
    cases hsd : env.saveDocset entry.Slug data with
    | some e => simp [hsd] at hok
    | none =>
      simp only [hsd] at hok ⊢
      cases hfi : env.fetchIndex entry.Slug with
      | error e => simp [hfi] at hok
      | ok indexData =>
        simp only [hfi] at hok ⊢
        cases hu : env.unmarshal data with
        | error e => simp [parseDocset, hu] at hok
        | ok contentMap =>
          rw [parseDocset_of_unmarshal env entry data indexData contentMap hu] at hok ⊢
          simp only at hok ⊢
          refine ⟨data, indexData, contentMap, rfl, hsd, rfl, hu, ?_⟩
          generalize (IndexDocset env.faults env.now w.conn
            (Download.docset entry
              (parseDocset.convertAll env.htmltomd (ParseSlug entry.Slug).1
                (ParseSlug entry.Slug).2
                (parseDocset.buildMeta indexData.Entries (fun _ => none)) contentMap []))
            (parseDocset.convertAll env.htmltomd (ParseSlug entry.Slug).1
              (ParseSlug entry.Slug).2
              (parseDocset.buildMeta indexData.Entries (fun _ => none)) contentMap [])) = r
            at hok ⊢
          obtain ⟨e, c'⟩ := r
          cases e with
          | some err => simp at hok
          | none => simp

/-- C12: after a successful `Download` of a manifest entry, on a connection with no open
transaction and with a bundle decoder that yields each key once, the rows of the index that
carry the docset's `(name, version)` have pairwise different `(docset, version, path)`
triples, whatever rows the index held before. -/
theorem C12_unique_after_download (env : Env) (w : World) (entry : ManifestEntry)
    (hmap : ∀ data contentMap, env.unmarshal data = .ok contentMap →
      (contentMap.map Prod.fst).Nodup)
    (hc : w.conn.pending = none) (hok : (Download env w entry).1 = none) :
    (((Download env w entry).2.conn.committed.docs.filter
        (fun e => e.Docset = (ParseSlug entry.Slug).1 ∧ e.Version = (ParseSlug entry.Slug).2)).map
      (fun e => (e.Docset, e.Version, e.Path))).Nodup := by
  obtain ⟨data, indexData, contentMap, _, _, _, hu, hix, hw⟩ := Download_ok env w entry hok
  rw [hw]
  simp only
  rw [IndexDocset_ok_eq env.faults env.now w.conn _ _ hc hix]
  simp only [sqlUpsertDocset_docs, Download.docset, sqlDeleteDocs, List.filter_append]
  have hold : (List.filter
      (fun e => decide (e.Docset = (ParseSlug entry.Slug).1 ∧
        e.Version = (ParseSlug entry.Slug).2))
      (List.filter
        (fun e => !(e.Docset == (ParseSlug entry.Slug).1 &&
          e.Version == (ParseSlug entry.Slug).2)) w.conn.committed.docs)) = [] := by
    rw [List.filter_eq_nil_iff]
    intro e he
    have := (List.mem_filter.mp he).2
    simp only [Bool.not_eq_true', Bool.and_eq_false_iff, beq_eq_false_iff_ne, ne_eq] at this
    simp only [decide_eq_true_eq, not_and]
    intro h1 h2
    rcases this with h | h
    · exact h h1
    · exact h h2
  rw [hold, List.nil_append]
  apply List.Nodup.of_map (fun t => t.2.2)
  rw [List.map_map]
  have hsub : (List.map ((fun t : Str × Str × Str => t.2.2) ∘
      fun e : Entry => (e.Docset, e.Version, e.Path))
      (List.filter
        (fun e => decide (e.Docset = (ParseSlug entry.Slug).1 ∧
          e.Version = (ParseSlug entry.Slug).2))
        (parseDocset.convertAll env.htmltomd (ParseSlug entry.Slug).1 (ParseSlug entry.Slug).2
          (parseDocset.buildMeta indexData.Entries (fun _ => none)) contentMap []))).Sublist
      ((parseDocset.convertAll env.htmltomd (ParseSlug entry.Slug).1 (ParseSlug entry.Slug).2
          (parseDocset.buildMeta indexData.Entries (fun _ => none)) contentMap []).map
        (fun x => x.Path)) :=
    (List.filter_sublist _).map _
  apply List.Nodup.sublist hsub
  rw [parseDocset.convertAll_paths]
  exact (hmap data contentMap hu).sublist ((List.filter_sublist _).map Prod.fst)

end Lazydocs

namespace Lazydocs

/-- C12, witness: the index holds the page `/a` of `go` twice; after the download of `go`
with the pages `/a` and `/b` its rows are the two new ones. -/
theorem C12_unique_after_download_witness :
    (((Download (installEnv [(str "/a", str "x"), (str "/b", str "y")] [] (fun s => .ok s))
        { conn :=
            { committed :=
                { docs := [{ Docset := str "go", Version := [], Symbol := str "/a",
                             Title := str "/a", Content := str "old", Path := str "/a" },
                           { Docset := str "go", Version := [], Symbol := str "/a",
                             Title := str "/a", Content := str "old", Path := str "/a" }],
                  docsets := [] },
              pending := none },
          saved := [] }
        { Slug := str "go" }).2.conn.committed.docs.filter
        (fun e => e.Docset = (ParseSlug (str "go")).1 ∧ e.Version = (ParseSlug (str "go")).2)).map
      (fun e => (e.Docset, e.Version, e.Path))).Nodup :=
  C12_unique_after_download
    (installEnv [(str "/a", str "x"), (str "/b", str "y")] [] (fun s => .ok s)) _
    { Slug := str "go" }
    (fun _ contentMap h => by
      have hcm : contentMap = [(str "/a", str "x"), (str "/b", str "y")] := by
        simp only [installEnv, Except.ok.injEq] at h
        exact h.symm
      rw [hcm]
      decide)
    rfl (by decide)

/-- The connection after a `RemoveDocset` that returns no error. -/
theorem RemoveDocset_ok_eq (f : Faults) (c : Conn) (slug : Str) (hc : c.pending = none)
    (hok : (RemoveDocset f c slug).1 = none) :
    (RemoveDocset f c slug).2
      = { committed := sqlDeleteDocset slug
            (sqlDeleteDocs (ParseSlug slug).1 (ParseSlug slug).2 c.committed),
          pending := none } := by
  obtain ⟨a, p⟩ := c
  simp only at hc
  subst hc
  unfold RemoveDocset RemoveDocset.body at hok ⊢
  by_cases hb : f.beginFails = true
  · simp [hb] at hok
  · by_cases hd : f.deleteFails = true
    · simp [hb, hd] at hok
    · by_cases hm : f.metadataFails = true
      · simp [hb, hd, hm] at hok
      · by_cases hcm : f.commitFails = true
        · simp [hb, hd, hm, hcm] at hok
        · simp [hb, hd, hm, hcm, Conn.Begin, Conn.txExec, Conn.Commit, Conn.Rollback]

/-- A `RemoveDocset` that returns an error leaves the connection as it found it. -/
theorem RemoveDocset_error_unchanged (f : Faults) (c : Conn) (slug : Str)
    (hc : c.pending = none) (herr : (RemoveDocset f c slug).1 ≠ none) :
    (RemoveDocset f c slug).2 = c := by
  obtain ⟨a, p⟩ := c
  simp only at hc
  subst hc
  unfold RemoveDocset RemoveDocset.body at herr ⊢
  by_cases hb : f.beginFails = true
  · simp [hb]
  · by_cases hd : f.deleteFails = true
    · simp [hb, hd, Conn.Begin, Conn.Rollback]
    · by_cases hm : f.metadataFails = true
      · simp [hb, hd, hm, Conn.Begin, Conn.txExec, Conn.Rollback]
      · by_cases hcm : f.commitFails = true
        · simp [hb, hd, hm, hcm, Conn.Begin, Conn.txExec, Conn.Rollback]
        · simp [hb, hd, hm, hcm] at herr

/-- Without a database fault `RemoveDocset` returns no error. -/
theorem RemoveDocset_ok_of_no_fault (f : Faults) (c : Conn) (slug : Str)
    (hb : f.beginFails = false) (hd : f.deleteFails = false)
    (hm : f.metadataFails = false) (hcm : f.commitFails = false) :
    (RemoveDocset f c slug).1 = none := by
  simp [RemoveDocset, RemoveDocset.body, hb, hd, hm, hcm]

/-- C13, counterexample: the index holds an entry row of `go` and no metadata row at all;
`RemoveDocset("go")` succeeds and deletes the entry row. -/
theorem C13_counterexample :
    (RemoveDocset {}
      { committed :=
          { docs := [{ Docset := str "go", Version := [], Symbol := str "fmt",
                       Title := str "fmt", Content := str "text", Path := str "fmt/index" }],
            docsets := [] },
        pending := none }
      (str "go"))
      = (none, { committed := { docs := [], docsets := [] }, pending := none }) := by
  decide

/-- C13, amended: on a connection with no open transaction, for every index and every slug
that has in it neither a metadata row nor an entry row with the `(name, version)` of
`ParseSlug slug`, `RemoveDocset slug` leaves every entry row and every metadata row
unchanged, and it succeeds when no database call fails. -/
theorem C13_remove_not_installed (f : Faults) (c : Conn) (slug : Str)
    (hc : c.pending = none)
    (hmeta : ∀ r ∈ c.committed.docsets, r.slug ≠ slug)
    (hrows : ∀ e ∈ c.committed.docs,
      ¬ (e.Docset = (ParseSlug slug).1 ∧ e.Version = (ParseSlug slug).2)) :
    (RemoveDocset f c slug).2 = c ∧
    (f.beginFails = false → f.deleteFails = false → f.metadataFails = false →
      f.commitFails = false → (RemoveDocset f c slug).1 = none) := by
  refine ⟨?_, RemoveDocset_ok_of_no_fault f c slug⟩
  by_cases hok : (RemoveDocset f c slug).1 = none
  · rw [RemoveDocset_ok_eq f c slug hc hok]
    obtain ⟨⟨docs, docsets⟩, p⟩ := c
    simp only at hc hmeta hrows
    subst hc
    have h1 : docs.filter (fun e => !(e.Docset == (ParseSlug slug).1 &&
        e.Version == (ParseSlug slug).2)) = docs := by
      rw [List.filter_eq_self]
      intro e he
      have := hrows e he
      simp only [Bool.not_eq_true', Bool.and_eq_false_iff, beq_eq_false_iff_ne, ne_eq]
      by_cases hd : e.Docset = (ParseSlug slug).1
      · exact Or.inr (fun hv => this ⟨hd, hv⟩)
      · exact Or.inl hd
    have h2 : docsets.filter (fun r => !(r.slug == slug)) = docsets := by
      rw [List.filter_eq_self]
      intro r hr
      simpa using hmeta r hr
    simp only [sqlDeleteDocset, sqlDeleteDocs, h1, h2]
  · exact RemoveDocset_error_unchanged f c slug hc hok

/-- C13, witness: removing `rust` from an index that holds only `go`. -/
theorem C13_remove_not_installed_witness :
    RemoveDocset {}
      { committed :=
          { docs := [{ Docset := str "go", Version := [], Symbol := str "fmt",
                       Title := str "fmt", Content := str "text", Path := str "fmt/index" }],
            docsets := [{ id := 1, slug := str "go", name := str "go", version := [],
                          display_name := str "Go", entry_count := 1, mtime := 3,
                          installed_at := 5 }] },
        pending := none }
      (str "rust")
    = (none,
       { committed :=
          { docs := [{ Docset := str "go", Version := [], Symbol := str "fmt",
                       Title := str "fmt", Content := str "text", Path := str "fmt/index" }],
            docsets := [{ id := 1, slug := str "go", name := str "go", version := [],
                          display_name := str "Go", entry_count := 1, mtime := 3,
                          installed_at := 5 }] },
         pending := none }) :=
  Prod.ext
    ((C13_remove_not_installed {} _ (str "rust") rfl (by decide) (by decide)).2
      rfl rfl rfl rfl)
    (C13_remove_not_installed {} _ (str "rust") rfl (by decide) (by decide)).1

end Lazydocs

namespace Lazydocs

/-- C14: a failed install has no effect on the index. When the bundle download, the raw
bundle save, the structural-index fetch or the bundle parse fails, `Download` returns the
error of that step, which comes before the call of `IndexDocset`, and the connection is the
one it started with; the raw bundle is on disk exactly when the save had succeeded. -/
theorem C14_failed_install (env : Env) (w : World) (entry : ManifestEntry) :
    (∀ e, env.fetchDocset entry.Slug = .error e →
      Download env w entry = (some "failed to download docset", w)) ∧
    (∀ data e, env.fetchDocset entry.Slug = .ok data →
      env.saveDocset entry.Slug data = some e →
      Download env w entry = (some "failed to save docset", w)) ∧
    (∀ data e, env.fetchDocset entry.Slug = .ok data →
      env.saveDocset entry.Slug data = none → env.fetchIndex entry.Slug = .error e →
      Download env w entry
        = (some "failed to fetch index",
           { conn := w.conn, saved := w.saved ++ [(entry.Slug, data)] })) ∧
    (∀ data indexData e, env.fetchDocset entry.Slug = .ok data →
      env.saveDocset entry.Slug data = none → env.fetchIndex entry.Slug = .ok indexData →
      parseDocset env entry data indexData = .error e →
      Download env w entry
        = (some "failed to parse docset",
           { conn := w.conn, saved := w.saved ++ [(entry.Slug, data)] })) := by
  refine ⟨?_, ?_, ?_, ?_⟩
  · intro e h
    simp [Download, h]
  · intro data e h1 h2
    simp [Download, h1, h2]
  · intro data e h1 h2 h3
    simp [Download, h1, h2, h3]
  · intro data indexData e h1 h2 h3 h4
    simp [Download, h1, h2, h3, h4]

/-- C14, witness: the bundle of `go` arrives and is saved, then the fetch of its structural
index fails: the index keeps its one row and the bundle stays on disk. -/
theorem C14_failed_install_witness :
    (Download
      { fetchDocset := fun _ => .ok [1, 2, 3]
        saveDocset := fun _ _ => none
        fetchIndex := fun _ => .error "index request failed with status 404"
        unmarshal := fun _ => .ok []
        htmltomd := fun s => .ok s
        now := 0
        faults := {} }
      { conn :=
          { committed :=
              { docs := [{ Docset := str "go", Version := [], Symbol := str "fmt",
                           Title := str "fmt", Content := str "old", Path := str "fmt" }],
                docsets := [] },
            pending := none },
        saved := [] }
      { Slug := str "go" })
    = (some "failed to fetch index",
       { conn :=
          { committed :=
              { docs := [{ Docset := str "go", Version := [], Symbol := str "fmt",
                           Title := str "fmt", Content := str "old", Path := str "fmt" }],
                docsets := [] },
            pending := none },
         saved := [] ++ [(str "go", [1, 2, 3])] }) :=
  (C14_failed_install _ _ { Slug := str "go" }).2.2.1 [1, 2, 3]
    "index request failed with status 404" rfl rfl rfl

end Lazydocs

/-! ## The manifest cache -/

namespace Lazydocs

/-- The age test of `Get`, with the saturation of `Time.Sub` removed. -/
theorem timeSub_lt_day (now fetchedAt : Int) :
    timeSub now fetchedAt < 24 * Hour ↔ now < fetchedAt + 24 * Hour := by
  unfold timeSub Hour Second
  split_ifs <;> omega

/-- C15, counterexample: the cache file was written at time 0 and the request comes at
exactly 24 hours, a time `t <= T + 24h`: `Get(false)` calls the network and returns the
fetched manifest, not the cached one. -/
theorem C15_counterexample :
    (0 : Int) + 24 * Hour ≤ 0 + 24 * Hour ∧
    ManifestCache.Get NewManifestCache
      { disk := some { Manifest := some [{ Slug := str "go" }], FetchedAt := 0 },
        now := 0 + 24 * Hour, fetch := .ok (some [{ Slug := str "rust" }]),
        saveNow := 0 + 24 * Hour, saveFailure := none } false
    = { manifest := some [{ Slug := str "rust" }], err := none,
        mc := { maxAge := 24 * Hour, manifest := some [{ Slug := str "rust" }] },
        disk := some { Manifest := some [{ Slug := str "rust" }], FetchedAt := 0 + 24 * Hour },
        fetched := true } := by
  decide

/-- C15, amended: with `forceRefresh` false, a `maxAge` of 24 hours and a cache file written
at time `T`, `Get` returns the cached manifest without calling the network for every request
time `t < T + 24h`, and calls the network for every `t >= T + 24h`, so also at
`T + 24h + 1s`. -/
theorem C15_cache_freshness (mc : ManifestCache) (env : CacheEnv) (cached : CachedManifest)
    (hage : mc.maxAge = 24 * Hour) (hdisk : env.disk = some cached) :
    (env.now < cached.FetchedAt + 24 * Hour →
      (ManifestCache.Get mc env false).manifest = cached.Manifest ∧
      (ManifestCache.Get mc env false).err = none ∧
      (ManifestCache.Get mc env false).fetched = false) ∧
    (cached.FetchedAt + 24 * Hour ≤ env.now →
      (ManifestCache.Get mc env false).fetched = true) ∧
    (env.now = cached.FetchedAt + 24 * Hour + Second →
      (ManifestCache.Get mc env false).fetched = true) := by
  have hfetched : (ManifestCache.Get.refresh mc env).fetched = true := by
    unfold ManifestCache.Get.refresh
    cases env.fetch with
    | error e => by_cases hm : mc.manifest = none <;> simp [hm]
    | ok m => rfl
  have hstale : cached.FetchedAt + 24 * Hour ≤ env.now →
      (ManifestCache.Get mc env false).fetched = true := by
    intro h
    have hnot : ¬ timeSub env.now cached.FetchedAt < mc.maxAge := by
      rw [hage, timeSub_lt_day]
      omega
    simp [ManifestCache.Get, ManifestCache.loadFromDisk, hdisk, hnot, hfetched]
  refine ⟨?_, hstale, ?_⟩
  · intro h
    have hlt : timeSub env.now cached.FetchedAt < mc.maxAge := by
      rw [hage, timeSub_lt_day]
      exact h
    simp [ManifestCache.Get, ManifestCache.loadFromDisk, hdisk, hlt]
  · intro h
    apply hstale
    rw [h]
    unfold Second
    omega

/-- C15, witness: a cache file written at time 0, read one nanosecond before 24 hours. -/
theorem C15_cache_freshness_witness :
    (ManifestCache.Get NewManifestCache
      { disk := some { Manifest := some [{ Slug := str "go" }], FetchedAt := 0 },
        now := 24 * Hour - 1, fetch := .error "offline", saveNow := 0,
        saveFailure := none } false).manifest = some [{ Slug := str "go" }] ∧
    (ManifestCache.Get NewManifestCache
      { disk := some { Manifest := some [{ Slug := str "go" }], FetchedAt := 0 },
        now := 24 * Hour - 1, fetch := .error "offline", saveNow := 0,
        saveFailure := none } false).err = none ∧
    (ManifestCache.Get NewManifestCache
      { disk := some { Manifest := some [{ Slug := str "go" }], FetchedAt := 0 },
        now := 24 * Hour - 1, fetch := .error "offline", saveNow := 0,
        saveFailure := none } false).fetched = false :=
  (C15_cache_freshness NewManifestCache
    { disk := some { Manifest := some [{ Slug := str "go" }], FetchedAt := 0 },
      now := 24 * Hour - 1, fetch := .error "offline", saveNow := 0, saveFailure := none }
    { Manifest := some [{ Slug := str "go" }], FetchedAt := 0 } rfl rfl).1 (by decide)

end Lazydocs

namespace Lazydocs

/-- C16, counterexample: the manifest endpoint answers with the JSON value `null`, which
decodes without error to the nil manifest; `Get(true)` returns it with no error. A later
`Get(true)` whose fetch fails finds `mc.manifest == nil` and returns the network error. -/
theorem C16_counterexample :
    ManifestCache.Get NewManifestCache
      { disk := none, now := 0, fetch := .ok none, saveNow := 0, saveFailure := none } true
    = { manifest := none, err := none, mc := { maxAge := 24 * Hour, manifest := none },
        disk := some { Manifest := none, FetchedAt := 0 }, fetched := true } ∧
    (ManifestCache.Get
      (ManifestCache.Get NewManifestCache
        { disk := none, now := 0, fetch := .ok none, saveNow := 0,
          saveFailure := none } true).mc
      { disk := some { Manifest := none, FetchedAt := 0 }, now := Second,
        fetch := .error "offline", saveNow := Second, saveFailure := none } true).err
    = some "offline" := by
  decide

/-- C16, amended: for every `ManifestCache` on which a `Get` returned a non-nil manifest `M`
from a successful fetch, a `Get(forceRefresh=true)` that follows it and whose network fetch
fails returns `M` and no error. -/
theorem C16_stale_fallback (mc : ManifestCache) (env1 env2 : CacheEnv) (forceRefresh : Bool)
    (M : List ManifestEntry) (e : String)
    (hfetched : (ManifestCache.Get mc env1 forceRefresh).fetched = true)
    (hfetch : env1.fetch = .ok (some M)) (hfail : env2.fetch = .error e) :
    ((ManifestCache.Get mc env1 forceRefresh).manifest = some M ∧
      (ManifestCache.Get mc env1 forceRefresh).err = none) ∧
    (ManifestCache.Get (ManifestCache.Get mc env1 forceRefresh).mc env2 true).manifest
      = some M ∧
    (ManifestCache.Get (ManifestCache.Get mc env1 forceRefresh).mc env2 true).err = none := by
  have href : ManifestCache.Get.refresh mc env1
      = { manifest := some M, err := none, mc := { mc with manifest := some M },
          disk := (ManifestCache.saveToDisk env1 (some M)).2, fetched := true } := by
    simp [ManifestCache.Get.refresh, hfetch]
  have hget : ManifestCache.Get mc env1 forceRefresh = ManifestCache.Get.refresh mc env1 := by
    unfold ManifestCache.Get at hfetched ⊢
    cases forceRefresh with
    | true => rfl
    | false =>
      simp only [Bool.not_false, if_true] at hfetched ⊢
      cases hl : ManifestCache.loadFromDisk env1 with
      | error err => rfl
      | ok cached =>
        simp only [hl] at hfetched ⊢
        by_cases hlt : timeSub env1.now cached.FetchedAt < mc.maxAge
        · simp [hlt] at hfetched
        · simp [hlt]
  rw [hget, href]
  simp [ManifestCache.Get, ManifestCache.Get.refresh, hfail]

/-- C16, witness: the first `Get` fetches the manifest with the one docset `go`; the forced
`Get` an hour later is offline and returns that manifest. -/
theorem C16_stale_fallback_witness :
    (ManifestCache.Get
      (ManifestCache.Get NewManifestCache
        { disk := none, now := 0, fetch := .ok (some [{ Slug := str "go" }]), saveNow := 0,
          saveFailure := none } false).mc
      { disk := none, now := Hour, fetch := .error "offline", saveNow := Hour,
        saveFailure := none } true).manifest = some [{ Slug := str "go" }] ∧
    (ManifestCache.Get
      (ManifestCache.Get NewManifestCache
        { disk := none, now := 0, fetch := .ok (some [{ Slug := str "go" }]), saveNow := 0,
          saveFailure := none } false).mc
      { disk := none, now := Hour, fetch := .error "offline", saveNow := Hour,
        saveFailure := none } true).err = none :=
  (C16_stale_fallback NewManifestCache
    { disk := none, now := 0, fetch := .ok (some [{ Slug := str "go" }]), saveNow := 0,
      saveFailure := none }
    { disk := none, now := Hour, fetch := .error "offline", saveNow := Hour,
      saveFailure := none }
    false [{ Slug := str "go" }] "offline" (by decide) rfl rfl).2

/-- C17, the code at the failing input: on a cache object that holds no manifest in memory,
with a cache file that is 24 hours old or older and a failing network fetch, `Get(false)`
returns the network error and no manifest. The expired file is read and then dropped: only a
fresh file is copied into `mc.manifest`, the one place the fallback looks at. -/
theorem C17_expired_disk_cache_not_served (mc : ManifestCache) (env : CacheEnv)
    (cached : CachedManifest) (e : String)
    (hage : mc.maxAge = 24 * Hour) (hmem : mc.manifest = none)
    (hdisk : env.disk = some cached) (hold : cached.FetchedAt + 24 * Hour ≤ env.now)
    (hfail : env.fetch = .error e) :
    (ManifestCache.Get mc env false).manifest = none ∧
    (ManifestCache.Get mc env false).err = some e := by
  have hnot : ¬ timeSub env.now cached.FetchedAt < mc.maxAge := by
    rw [hage, timeSub_lt_day]
    omega
  simp [ManifestCache.Get, ManifestCache.loadFromDisk, ManifestCache.Get.refresh, hdisk, hnot,
    hfail, hmem]

/-- C17, witness: a new cache object, a cache file with the docset `go` written at time 0,
a request at 25 hours with the network down. -/
theorem C17_expired_disk_cache_not_served_witness :
    (ManifestCache.Get NewManifestCache
      { disk := some { Manifest := some [{ Slug := str "go" }], FetchedAt := 0 },
        now := 25 * Hour, fetch := .error "offline", saveNow := 25 * Hour,
        saveFailure := none } false).manifest = none ∧
    (ManifestCache.Get NewManifestCache
      { disk := some { Manifest := some [{ Slug := str "go" }], FetchedAt := 0 },
        now := 25 * Hour, fetch := .error "offline", saveNow := 25 * Hour,
        saveFailure := none } false).err = some "offline" :=
  C17_expired_disk_cache_not_served NewManifestCache
    { disk := some { Manifest := some [{ Slug := str "go" }], FetchedAt := 0 },
      now := 25 * Hour, fetch := .error "offline", saveNow := 25 * Hour, saveFailure := none }
    { Manifest := some [{ Slug := str "go" }], FetchedAt := 0 } "offline" rfl rfl rfl
    (by decide) rfl

end Lazydocs

/-! ## Cleaning the converted Markdown -/

namespace Lazydocs

theorem dropWhile_append_of_all {α : Type} (p : α → Bool) (A B : List α)
    (h : ∀ c ∈ A, p c = true) : (A ++ B).dropWhile p = B.dropWhile p := by
  induction A with
  | nil => rfl
  | cons a A ih =>
    have ha : p a = true := h a (List.mem_cons_self _ _)
    simp only [List.cons_append, List.dropWhile_cons, ha, if_true]
    exact ih (fun c hc => h c (List.mem_cons_of_mem _ hc))

theorem dropWhile_append_of_exists {α : Type} (p : α → Bool) (A B : List α)
    (h : ∃ c ∈ A, p c = false) : (A ++ B).dropWhile p = A.dropWhile p ++ B := by
  induction A with
  | nil => simp at h
  | cons a A ih =>
    by_cases ha : p a = true
    · simp only [List.cons_append, List.dropWhile_cons, ha, if_true]
      apply ih
      obtain ⟨c, hc, hpc⟩ := h
      rcases List.mem_cons.mp hc with rfl | hc
      · rw [ha] at hpc; cases hpc
      · exact ⟨c, hc, hpc⟩
    · simp [List.dropWhile_cons, ha]

/-- A line is blank exactly when all its characters are white space. -/
theorem TrimSpace_eq_nil_iff (s : Str) : TrimSpace s = [] ↔ ∀ c ∈ s, isSpace c = true := by
  unfold TrimSpace
  rw [List.reverse_eq_nil_iff, List.dropWhile_eq_nil_iff]
  constructor
  · intro h c hc
    by_contra hsp
    have hex : ∃ x ∈ s, isSpace x = false := ⟨c, hc, by simpa using hsp⟩
    have hne : s.dropWhile isSpace ≠ [] := by
      intro hnil
      rw [List.dropWhile_eq_nil_iff] at hnil
      exact hsp (hnil c hc)
    obtain ⟨x, xs, hx⟩ := List.exists_cons_of_ne_nil hne
    have hhead := List.head?_dropWhile_not isSpace s
    rw [hx] at hhead h
    simp only [List.head?_cons] at hhead
    have := h x (by simp)
    rw [hhead] at this
    cases this
  · intro h x hx
    have hx' : x ∈ s.dropWhile isSpace := by simpa using hx
    exact h x ((List.dropWhile_sublist isSpace).subset hx')

theorem isSpace_newline : isSpace '\n' = true := by decide

theorem Join_cons_cons (w w2 : Str) (ws : List Str) (sep : Str) :
    Join (w :: w2 :: ws) sep = w ++ sep ++ Join (w2 :: ws) sep := by
  simp [Join]

theorem Split_append_sep (w rest : Str) (sep : Char) (h : sep ∉ w) :
    Split (w ++ sep :: rest) sep = w :: Split rest sep := by
  induction w with
  | nil => simp [Split]
  | cons c w ih =>
    have hc : c ≠ sep := fun hc => h (hc ▸ List.mem_cons_self _ _)
    have hw : sep ∉ w := fun hw => h (List.mem_cons_of_mem _ hw)
    simp [Split, hc, ih hw]

theorem Split_of_not_mem (w : Str) (sep : Char) (h : sep ∉ w) : Split w sep = [w] := by
  induction w with
  | nil => simp [Split]
  | cons c w ih =>
    have hc : c ≠ sep := fun hc => h (hc ▸ List.mem_cons_self _ _)
    have hw : sep ∉ w := fun hw => h (List.mem_cons_of_mem _ hw)
    simp [Split, hc, ih hw]

theorem Split_mem_not_sep (s : Str) (sep : Char) : ∀ l ∈ Split s sep, sep ∉ l := by
  induction s with
  | nil => simp [Split]
  | cons c cs ih =>
    intro l hl
    by_cases hc : c = sep
    · simp only [Split, hc, if_true, List.mem_cons] at hl
      rcases hl with rfl | hl
      · simp
      · exact ih l hl
    · simp only [Split, hc, if_false] at hl
      cases hs : Split cs sep with
      | nil =>
        simp only [hs, List.mem_singleton] at hl
        subst hl
        simpa using fun h => hc h.symm
      | cons x xs =>
        simp only [hs, List.mem_cons] at hl
        rcases hl with rfl | hl
        · have hx := ih x (by simp [hs])
          intro hmem
          rcases List.mem_cons.mp hmem with h | h
          · exact hc h.symm
          · exact hx h
        · exact ih l (by simp [hs, hl])

/-- Splitting at newlines undoes joining with newlines. -/
theorem Split_Join (R : List Str) (sep : Char) (hne : R ≠ []) (h : ∀ l ∈ R, sep ∉ l) :
    Split (Join R [sep]) sep = R := by
  induction R with
  | nil => exact absurd rfl hne
  | cons w ws ih =>
    cases ws with
    | nil => simpa [Join] using Split_of_not_mem w sep (h w (by simp))
    | cons w2 ws2 =>
      rw [Join_cons_cons]
      have : w ++ [sep] ++ Join (w2 :: ws2) [sep] = w ++ sep :: Join (w2 :: ws2) [sep] := by
        simp
      rw [this, Split_append_sep w _ sep (h w (by simp))]
      rw [ih (by simp) (fun l hl => h l (List.mem_cons_of_mem _ hl))]

end Lazydocs

namespace Lazydocs

theorem Join_reverse (R : List Str) (sep : Char) :
    (Join R [sep]).reverse = Join (R.reverse.map List.reverse) [sep] := by
  induction R with
  | nil => simp [Join]
  | cons w ws ih =>
    cases ws with
    | nil => simp [Join]
    | cons w2 ws2 =>
      rw [Join_cons_cons]
      simp only [List.reverse_append, List.reverse_cons w, List.map_append,
        List.map_cons, List.map_nil, ih]
      rw [Join_concat]
      obtain ⟨init, last, hil⟩ : ∃ init last,
          List.map List.reverse (w2 :: ws2).reverse = init ++ [last] := by
        rcases List.eq_nil_or_concat (List.map List.reverse (w2 :: ws2).reverse) with h | h
        · simp at h
        · obtain ⟨init, last, h⟩ := h
          exact ⟨init, last, by rw [h, List.concat_eq_append]⟩
      rw [hil, Join_concat]
      simp

theorem noTripleBlank_tail (l : Str) (rest : List Str) (h : noTripleBlank (l :: rest)) :
    noTripleBlank rest := by
  intro pre a b c post heq
  exact h (l :: pre) a b c post (by rw [heq]; rfl)

theorem noTripleBlank_head (l l2 : Str) (rest : List Str) (h : noTripleBlank (l :: rest))
    (hl : TrimSpace l2 ≠ []) : noTripleBlank (l2 :: rest) := by
  intro pre a b c post heq
  cases pre with
  | nil =>
    simp only [List.nil_append, List.cons.injEq] at heq
    intro hall
    exact hl (heq.1 ▸ hall.1)
  | cons x pre2 =>
    simp only [List.cons_append, List.cons.injEq] at heq
    exact h (l :: pre2) a b c post (by rw [heq.2]; rfl)

theorem TrimSpace_reverse_eq_nil_iff (a : Str) : TrimSpace a.reverse = [] ↔ TrimSpace a = [] := by
  rw [TrimSpace_eq_nil_iff, TrimSpace_eq_nil_iff]
  simp

theorem noTripleBlank_reverse (R : List Str) (h : noTripleBlank R) :
    noTripleBlank (R.reverse.map List.reverse) := by
  intro pre a b c post heq
  have hR : R = (post.map List.reverse).reverse ++ c.reverse :: b.reverse :: a.reverse ::
      (pre.map List.reverse).reverse := by
    have h2 := congrArg (fun l => (l.map List.reverse).reverse) heq
    simp only [List.map_map, List.map_reverse, List.reverse_reverse] at h2
    have hid : (List.reverse ∘ List.reverse : Str → Str) = id := by
      funext x
      simp
    rw [hid, List.map_id] at h2
    rw [h2]
    simp
  have := h _ _ _ _ _ hR
  rw [TrimSpace_reverse_eq_nil_iff, TrimSpace_reverse_eq_nil_iff,
    TrimSpace_reverse_eq_nil_iff] at this
  intro hall
  exact this ⟨hall.2.2, hall.2.1, hall.1⟩

/-- Dropping the leading white space of joined lines gives joined lines again. -/
theorem dropWhile_Join (R : List Str) :
    (∀ l ∈ R, '\n' ∉ l) → noTripleBlank R →
    ∃ R2, (∀ l ∈ R2, '\n' ∉ l) ∧ noTripleBlank R2 ∧
      (Join R ['\n']).dropWhile isSpace = Join R2 ['\n'] := by
  induction R with
  | nil =>
    intro h1 h2
    exact ⟨[], h1, h2, by simp [Join]⟩
  | cons l rest ih =>
    intro h1 h2
    have h1r : ∀ x ∈ rest, '\n' ∉ x := fun x hx => h1 x (List.mem_cons_of_mem _ hx)
    have h2r := noTripleBlank_tail l rest h2
    by_cases hb : TrimSpace l = []
    · have hall := (TrimSpace_eq_nil_iff l).1 hb
      cases rest with
      | nil =>
        refine ⟨[], by simp, fun pre a b c post heq => by simp at heq, ?_⟩
        simp only [Join]
        exact List.dropWhile_eq_nil_iff.mpr hall
      | cons l2 rest2 =>
        obtain ⟨R2, g1, g2, g3⟩ := ih h1r h2r
        refine ⟨R2, g1, g2, ?_⟩
        rw [Join_cons_cons, ← g3]
        apply dropWhile_append_of_all
        intro c hc
        rcases List.mem_append.mp hc with hc | hc
        · exact hall c hc
        · rw [List.mem_singleton.mp hc]
          exact isSpace_newline
    · have hex : ∃ c ∈ l, isSpace c = false := by
        by_contra hno
        apply hb
        rw [TrimSpace_eq_nil_iff]
        intro c hc
        by_contra hsp
        exact hno ⟨c, hc, by simpa using hsp⟩
      have hne : TrimSpace (l.dropWhile isSpace) ≠ [] := by
        rw [Ne, TrimSpace_eq_nil_iff]
        intro hall
        have hnil : l.dropWhile isSpace ≠ [] := by
          intro hnil
          rw [List.dropWhile_eq_nil_iff] at hnil
          obtain ⟨c, hc, hsp⟩ := hex
          rw [hnil c hc] at hsp
          cases hsp
        obtain ⟨x, xs, hx⟩ := List.exists_cons_of_ne_nil hnil
        have hhead := List.head?_dropWhile_not isSpace l
        rw [hx] at hhead hall
        simp only [List.head?_cons] at hhead
        rw [hall x (by simp)] at hhead
        cases hhead
      refine ⟨l.dropWhile isSpace :: rest, ?_, noTripleBlank_head l _ rest h2 hne, ?_⟩
      · intro x hx
        rcases List.mem_cons.mp hx with rfl | hx
        · exact fun hmem => h1 l (by simp) ((List.dropWhile_sublist isSpace).subset hmem)
        · exact h1r x hx
      · cases rest with
        | nil => simp [Join]
        | cons l2 rest2 =>
          rw [Join_cons_cons, Join_cons_cons, List.append_assoc, List.append_assoc]
          exact dropWhile_append_of_exists isSpace l _ hex

end Lazydocs

namespace Lazydocs

/-- Trimming joined lines gives joined lines again, still without three blank lines in a
row. -/
theorem TrimSpace_Join (R : List Str) (h1 : ∀ l ∈ R, '\n' ∉ l) (h2 : noTripleBlank R) :
    ∃ R3, (∀ l ∈ R3, '\n' ∉ l) ∧ noTripleBlank R3 ∧
      TrimSpace (Join R ['\n']) = Join R3 ['\n'] := by
  obtain ⟨R1, a1, a2, a3⟩ := dropWhile_Join R h1 h2
  have b1 : ∀ l ∈ R1.reverse.map List.reverse, '\n' ∉ l := by
    intro l hl
    obtain ⟨x, hx, rfl⟩ := List.mem_map.mp hl
    have := a1 x (List.mem_reverse.mp hx)
    simpa using this
  obtain ⟨R2, c1, c2, c3⟩ := dropWhile_Join _ b1 (noTripleBlank_reverse R1 a2)
  refine ⟨R2.reverse.map List.reverse, ?_, noTripleBlank_reverse R2 c2, ?_⟩
  · intro l hl
    obtain ⟨x, hx, rfl⟩ := List.mem_map.mp hl
    have := c1 x (List.mem_reverse.mp hx)
    simpa using this
  · unfold TrimSpace
    rw [a3, Join_reverse, c3, Join_reverse]

theorem cleanMarkdown.loop_acc (lines : List Str) :
    ∀ (blankCount : Nat) (result : List Str),
      cleanMarkdown.loop lines blankCount result
        = result ++ cleanMarkdown.loop lines blankCount [] := by
  induction lines with
  | nil => intro k acc; simp [cleanMarkdown.loop]
  | cons line rest ih =>
    intro k acc
    simp only [cleanMarkdown.loop]
    by_cases hb : TrimSpace line = []
    · by_cases hk : k + 1 ≤ 2
      · simp only [hb, hk, if_true]
        rw [ih (k + 1) (acc ++ [line]), ih (k + 1) ([] ++ [line])]
        simp
      · simp only [hb, hk, if_true, if_false]
        exact ih (k + 1) acc
    · simp only [hb, if_false]
      rw [ih 0 (acc ++ [line]), ih 0 ([] ++ [line])]
      simp

theorem cleanMarkdown.loop_cons (line : Str) (rest : List Str) (k : Nat) :
    cleanMarkdown.loop (line :: rest) k []
      = if TrimSpace line = [] then
          (if k + 1 ≤ 2 then line :: cleanMarkdown.loop rest (k + 1) []
           else cleanMarkdown.loop rest (k + 1) [])
        else line :: cleanMarkdown.loop rest 0 [] := by
  simp only [cleanMarkdown.loop]
  by_cases hb : TrimSpace line = []
  · by_cases hk : k + 1 ≤ 2
    · simp only [hb, hk, if_true]
      rw [cleanMarkdown.loop_acc]
      simp
    · simp only [hb, hk, if_true, if_false]
  · simp only [hb, if_false]
    rw [cleanMarkdown.loop_acc]
    simp

theorem cleanMarkdown.loop_mem (lines : List Str) :
    ∀ (k : Nat), ∀ l ∈ cleanMarkdown.loop lines k [], l ∈ lines := by
  induction lines with
  | nil => intro k l hl; simp [cleanMarkdown.loop] at hl
  | cons line rest ih =>
    intro k l hl
    rw [cleanMarkdown.loop_cons] at hl
    split_ifs at hl
    · rcases List.mem_cons.mp hl with rfl | hl
      · simp
      · exact List.mem_cons_of_mem _ (ih _ l hl)
    · exact List.mem_cons_of_mem _ (ih _ l hl)
    · rcases List.mem_cons.mp hl with rfl | hl
      · simp
      · exact List.mem_cons_of_mem _ (ih _ l hl)

/-- The loop keeps at most two blank lines of a run, counting the `blankCount` blank lines
already seen. -/
theorem cleanMarkdown.loop_runs (lines : List Str) :
    ∀ k : Nat,
      (2 ≤ k → ∀ a t, cleanMarkdown.loop lines k [] = a :: t → TrimSpace a ≠ []) ∧
      (1 ≤ k → ∀ a b t, cleanMarkdown.loop lines k [] = a :: b :: t →
        ¬ (TrimSpace a = [] ∧ TrimSpace b = [])) ∧
      noTripleBlank (cleanMarkdown.loop lines k []) := by
  induction lines with
  | nil =>
    intro k
    refine ⟨?_, ?_, ?_⟩
    · intro _ a t h; simp [cleanMarkdown.loop] at h
    · intro _ a b t h; simp [cleanMarkdown.loop] at h
    · intro pre a b c post h; simp [cleanMarkdown.loop] at h
  | cons line rest ih =>
    intro k
    rw [cleanMarkdown.loop_cons]
    by_cases hb : TrimSpace line = []
    · by_cases hk : k + 1 ≤ 2
      · simp only [hb, hk, if_true]
        obtain ⟨i1, i2, i3⟩ := ih (k + 1)
        refine ⟨fun h2 => by omega, ?_, ?_⟩
        · intro h1 a b t heq
          simp only [List.cons.injEq] at heq
          have hk1 : 2 ≤ k + 1 := by omega
          intro hall
          exact i1 hk1 b t heq.2 hall.2
        · intro pre a b c post heq
          cases pre with
          | nil =>
            simp only [List.nil_append, List.cons.injEq] at heq
            intro hall
            exact i2 (by omega) b c post heq.2 ⟨hall.2.1, hall.2.2⟩
          | cons x pre2 =>
            simp only [List.cons_append, List.cons.injEq] at heq
            exact i3 pre2 a b c post heq.2
      · simp only [hb, hk, if_true, if_false]
        obtain ⟨i1, i2, i3⟩ := ih (k + 1)
        exact ⟨fun _ => i1 (by omega), fun _ => i2 (by omega), i3⟩
    · simp only [hb, if_false]
      obtain ⟨_, _, i3⟩ := ih 0
      refine ⟨?_, ?_, ?_⟩
      · intro _ a t heq
        simp only [List.cons.injEq] at heq
        exact heq.1 ▸ hb
      · intro _ a b t heq
        simp only [List.cons.injEq] at heq
        exact fun hall => hb (heq.1 ▸ hall.1)
      · intro pre a b c post heq
        cases pre with
        | nil =>
          simp only [List.nil_append, List.cons.injEq] at heq
          exact fun hall => hb (heq.1 ▸ hall.1)
        | cons x pre2 =>
          simp only [List.cons_append, List.cons.injEq] at heq
          exact i3 pre2 a b c post heq.2

end Lazydocs

namespace Lazydocs

theorem head?_dropWhile_isSpace (s : Str) (c : Char)
    (h : (s.dropWhile isSpace).head? = some c) : isSpace c = false := by
  have := List.head?_dropWhile_not isSpace s
  rw [h] at this
  exact this

/-- The result of `strings.TrimSpace` neither starts nor ends with white space. -/
theorem TrimSpace_ends (s : Str) :
    (∀ c, (TrimSpace s).head? = some c → isSpace c = false) ∧
    (∀ c, (TrimSpace s).getLast? = some c → isSpace c = false) := by
  unfold TrimSpace
  constructor
  · intro c hc
    rw [List.head?_reverse] at hc
    have hsplit := List.takeWhile_append_dropWhile isSpace (s.dropWhile isSpace).reverse
    have hne : ((s.dropWhile isSpace).reverse.dropWhile isSpace) ≠ [] := by
      intro hnil
      rw [hnil] at hc
      cases hc
    have hlast : ((s.dropWhile isSpace).reverse).getLast? = some c := by
      rw [← hsplit, List.getLast?_append_of_ne_nil _ hne]
      exact hc
    rw [List.getLast?_reverse] at hlast
    exact head?_dropWhile_isSpace s c hlast
  · intro c hc
    rw [List.getLast?_reverse] at hc
    exact head?_dropWhile_isSpace _ c hc

theorem dropWhile_of_head {α : Type} (p : α → Bool) (s : List α) (c : α)
    (h : s.head? = some c) (hc : p c = false) : s.dropWhile p = s := by
  cases s with
  | nil => rfl
  | cons x xs =>
    simp only [List.head?_cons, Option.some.injEq] at h
    subst h
    simp [List.dropWhile_cons, hc]

/-- A text that neither starts nor ends with white space is left alone by
`strings.TrimSpace`. -/
theorem TrimSpace_id (s : Str) (c d : Char) (h1 : s.head? = some c) (hc : isSpace c = false)
    (h2 : s.getLast? = some d) (hd : isSpace d = false) : TrimSpace s = s := by
  unfold TrimSpace
  rw [dropWhile_of_head isSpace s c h1 hc,
    dropWhile_of_head isSpace s.reverse d (by rw [List.head?_reverse]; exact h2) hd,
    List.reverse_reverse]

theorem cleanMarkdown.loop_blank_run (blanks : List Str)
    (hb : ∀ l ∈ blanks, TrimSpace l = []) (rest : List Str) :
    ∀ k : Nat, cleanMarkdown.loop (blanks ++ rest) k []
      = blanks.take (2 - k) ++ cleanMarkdown.loop rest (k + blanks.length) [] := by
  induction blanks with
  | nil => intro k; simp
  | cons l bl ih =>
    intro k
    have hl : TrimSpace l = [] := hb l (by simp)
    have ih2 := ih (fun x hx => hb x (List.mem_cons_of_mem _ hx)) (k + 1)
    rw [List.cons_append, cleanMarkdown.loop_cons, if_pos hl, ih2]
    have hlen : k + 1 + bl.length = k + (l :: bl).length := by
      simp only [List.length_cons]
      omega
    rw [hlen]
    by_cases hk : k + 1 ≤ 2
    · rw [if_pos hk]
      have : 2 - k = (2 - (k + 1)) + 1 := by omega
      rw [this, List.take_succ_cons]
      rfl
    · rw [if_neg hk]
      have h0 : 2 - k = 0 := by omega
      have h1 : 2 - (k + 1) = 0 := by omega
      rw [h0, h1]
      simp

theorem cleanMarkdown.loop_after_line (pre : List Str) (a : Str) (ha : TrimSpace a ≠ [])
    (rest : List Str) :
    ∀ k : Nat, cleanMarkdown.loop (pre ++ a :: rest) k []
      = cleanMarkdown.loop (pre ++ [a]) k [] ++ cleanMarkdown.loop rest 0 [] := by
  induction pre with
  | nil =>
    intro k
    simp only [List.nil_append]
    rw [cleanMarkdown.loop_cons, if_neg ha, cleanMarkdown.loop_cons, if_neg ha]
    simp [cleanMarkdown.loop]
  | cons l pre ih =>
    intro k
    simp only [List.cons_append]
    rw [cleanMarkdown.loop_cons, cleanMarkdown.loop_cons l (pre ++ [a])]
    rw [ih (k + 1), ih 0]
    split_ifs <;> simp

/-- The run of blank lines between two non-blank lines contributes its first two lines. -/
theorem cleanMarkdown.loop_run_between (pre post blanks : List Str) (a b : Str)
    (ha : TrimSpace a ≠ []) (hb : TrimSpace b ≠ [])
    (hbl : ∀ l ∈ blanks, TrimSpace l = []) :
    cleanMarkdown.loop (pre ++ a :: (blanks ++ b :: post)) 0 []
      = cleanMarkdown.loop (pre ++ [a]) 0 [] ++ (blanks.take 2 ++ b ::
          cleanMarkdown.loop post 0 []) := by
  rw [cleanMarkdown.loop_after_line pre a ha, cleanMarkdown.loop_blank_run blanks hbl,
    cleanMarkdown.loop_cons, if_neg hb]

end Lazydocs

namespace Lazydocs

/-- The lines `cleanMarkdown` joins: lines of the input, with no three blank ones in a row. -/
theorem cleanMarkdown.lines_spec (md : Str) :
    (∀ l ∈ cleanMarkdown.loop (Split md '\n') 0 [], '\n' ∉ l) ∧
    noTripleBlank (cleanMarkdown.loop (Split md '\n') 0 []) :=
  ⟨fun l hl => Split_mem_not_sep md '\n' l (cleanMarkdown.loop_mem _ 0 l hl),
    (cleanMarkdown.loop_runs (Split md '\n') 0).2.2⟩

theorem cleanMarkdown_no_triple (md : Str) :
    noTripleBlank (Split (cleanMarkdown md) '\n') := by
  obtain ⟨R3, r1, r2, r3⟩ := TrimSpace_Join _ (cleanMarkdown.lines_spec md).1
    (cleanMarkdown.lines_spec md).2
  have hcm : cleanMarkdown md = Join R3 ['\n'] := r3
  rw [hcm]
  by_cases hne : R3 = []
  · subst hne
    intro pre a b c post heq
    have := congrArg List.length heq
    simp [Join, Split] at this
    omega
  · rw [Split_Join R3 '\n' hne r1]
    exact r2

theorem cleanMarkdown_run_between (pre post blanks : List Str) (a b : Str)
    (hnl : ∀ l ∈ pre ++ a :: (blanks ++ b :: post), '\n' ∉ l)
    (ha : TrimSpace a ≠ []) (hb : TrimSpace b ≠ [])
    (hbl : ∀ l ∈ blanks, TrimSpace l = []) :
    cleanMarkdown (Join (pre ++ a :: (blanks ++ b :: post)) (str "\n"))
      = TrimSpace (Join (cleanMarkdown.loop (pre ++ [a]) 0 [] ++ (blanks.take 2 ++ b ::
          cleanMarkdown.loop post 0 [])) (str "\n")) := by
  have hs : str "\n" = ['\n'] := rfl
  unfold cleanMarkdown
  rw [hs, Split_Join _ '\n' (by simp) hnl, cleanMarkdown.loop_run_between pre post blanks a b
    ha hb hbl]

theorem TrimSpace_ne_nil_of_mem (s : Str) (c : Char) (hc : c ∈ s) (hsp : isSpace c = false) :
    TrimSpace s ≠ [] := by
  intro h
  rw [TrimSpace_eq_nil_iff] at h
  rw [h c hc] at hsp
  cases hsp

theorem cleanMarkdown_single_run (c d : Char) (a b : Str) (blanks : List Str)
    (hc : isSpace c = false) (hd : isSpace d = false)
    (ha : '\n' ∉ c :: a) (hb : '\n' ∉ b ++ [d])
    (hbl : ∀ l ∈ blanks, TrimSpace l = [] ∧ '\n' ∉ l) :
    cleanMarkdown (Join ((c :: a) :: (blanks ++ [b ++ [d]])) (str "\n"))
      = Join ((c :: a) :: (blanks.take 2 ++ [b ++ [d]])) (str "\n") := by
  have hnl : ∀ l ∈ [] ++ (c :: a) :: (blanks ++ (b ++ [d]) :: []), '\n' ∉ l := by
    intro l hl
    simp only [List.nil_append, List.mem_cons, List.mem_append, List.mem_singleton,
      List.not_mem_nil, or_false] at hl
    rcases hl with rfl | hl | rfl
    · exact ha
    · exact (hbl l hl).2
    · exact hb
  have h := cleanMarkdown_run_between [] [] blanks (c :: a) (b ++ [d]) hnl
    (TrimSpace_ne_nil_of_mem _ c (by simp) hc) (TrimSpace_ne_nil_of_mem _ d (by simp) hd)
    (fun l hl => (hbl l hl).1)
  simp only [List.nil_append] at h
  rw [h]
  have hloop1 : cleanMarkdown.loop [c :: a] 0 [] = [c :: a] := by
    rw [cleanMarkdown.loop_cons, if_neg (TrimSpace_ne_nil_of_mem _ c (by simp) hc)]
    simp [cleanMarkdown.loop]
  have hloop2 : cleanMarkdown.loop [] 0 [] = [] := rfl
  rw [hloop1, hloop2]
  simp only [List.singleton_append]
  apply TrimSpace_id _ c d _ hc _ hd
  · cases hX : blanks.take 2 ++ [b ++ [d]] with
    | nil => simp at hX
    | cons x xs => simp [Join]
  · have : (c :: a) :: (blanks.take 2 ++ [b ++ [d]])
        = ((c :: a) :: blanks.take 2) ++ [b ++ [d]] := by simp
    rw [this, Join_concat, ← List.append_assoc, List.getLast?_concat]

/-- C18: for every text the output of `cleanMarkdown`, split at newlines, has no three
consecutive blank lines, and it neither starts nor ends with white space. A run of blank
lines between two non-blank lines is cut to its first two lines, whatever the lines before
and after: a run of five becomes two, a run of at most two stays; in particular the text of
a line, a run of blank lines and a line, with no white space at its ends, comes out with the
first two blank lines of the run. -/
theorem C18_blank_line_collapse :
    (∀ md pre a b c post, Split (cleanMarkdown md) '\n' = pre ++ a :: b :: c :: post →
      ¬ (TrimSpace a = [] ∧ TrimSpace b = [] ∧ TrimSpace c = [])) ∧
    (∀ md c, (cleanMarkdown md).head? = some c → isSpace c = false) ∧
    (∀ md c, (cleanMarkdown md).getLast? = some c → isSpace c = false) ∧
    (∀ (pre post blanks : List Str) (a b : Str),
      (∀ l ∈ pre ++ a :: (blanks ++ b :: post), '\n' ∉ l) →
      TrimSpace a ≠ [] → TrimSpace b ≠ [] → (∀ l ∈ blanks, TrimSpace l = []) →
      cleanMarkdown (Join (pre ++ a :: (blanks ++ b :: post)) (str "\n"))
        = TrimSpace (Join (cleanMarkdown.loop (pre ++ [a]) 0 [] ++ (blanks.take 2 ++ b ::
            cleanMarkdown.loop post 0 [])) (str "\n"))) ∧
    (∀ (c d : Char) (a b : Str) (blanks : List Str),
      isSpace c = false → isSpace d = false → '\n' ∉ c :: a → '\n' ∉ b ++ [d] →
      (∀ l ∈ blanks, TrimSpace l = [] ∧ '\n' ∉ l) →
      cleanMarkdown (Join ((c :: a) :: (blanks ++ [b ++ [d]])) (str "\n"))
        = Join ((c :: a) :: (blanks.take 2 ++ [b ++ [d]])) (str "\n")) :=
  ⟨fun md => cleanMarkdown_no_triple md,
    fun _ => (TrimSpace_ends _).1, fun _ => (TrimSpace_ends _).2,
    cleanMarkdown_run_between, cleanMarkdown_single_run⟩

/-- C18, witness: five blank lines between `a` and `b` become two, two blank lines stay. -/
theorem C18_blank_line_collapse_witness :
    cleanMarkdown (str "a\n\n\n\n\n\nb") = str "a\n\n\nb" ∧
    cleanMarkdown (str "a\n\n\nb") = str "a\n\n\nb" :=
  ⟨C18_blank_line_collapse.2.2.2.2 'a' 'b' [] [] [[], [], [], [], []]
      (by decide) (by decide) (by decide) (by decide) (by decide),
    C18_blank_line_collapse.2.2.2.2 'a' 'b' [] [] [[], []]
      (by decide) (by decide) (by decide) (by decide) (by decide)⟩

end Lazydocs

/-! ## Searching and listing -/

namespace Lazydocs

/-- The hits of a `Search` that returns no error, for a non-empty query. -/
theorem Search_ok (fts : Fts) (ix : Index) (query docset version : Str) (limit : Int)
    (hq : query ≠ []) (results : List SearchResult)
    (h : Search fts ix query docset version limit = .ok results) :
    ∃ m, fts.matchExpr (escapeFTS5Query query) = some m ∧
      results = (((ix.docs.filter (fun e => m e && Search.scope docset version e)).map
        (fun e => ({ Entry := e, Rank := fts.bm25 (escapeFTS5Query query) ix.docs e,
                     Snippet := fts.snippet (escapeFTS5Query query) e } : SearchResult))).insertionSort
          (fun a b => a.Rank ≤ b.Rank)).take (if limit ≤ 0 then 50 else limit).toNat := by
  unfold Search at h
  rw [if_neg hq] at h
  cases hm : fts.matchExpr (escapeFTS5Query query) with
  | none => simp [hm] at h
  | some m =>
    simp only [hm, Except.ok.injEq] at h
    exact ⟨m, rfl, h.symm⟩

theorem Search_mem (fts : Fts) (ix : Index) (query docset version : Str) (limit : Int)
    (hq : query ≠ []) (results : List SearchResult)
    (h : Search fts ix query docset version limit = .ok results) :
    ∀ r ∈ results, r.Entry ∈ ix.docs ∧ Search.scope docset version r.Entry = true := by
  obtain ⟨m, _, hres⟩ := Search_ok fts ix query docset version limit hq results h
  intro r hr
  rw [hres] at hr
  have h1 := List.mem_of_mem_take hr
  have h2 := (List.perm_insertionSort _ _).subset h1
  obtain ⟨e, he, rfl⟩ := List.mem_map.mp h2
  obtain ⟨hmem, hcond⟩ := List.mem_filter.mp he
  simp only [Bool.and_eq_true] at hcond
  exact ⟨hmem, hcond.2⟩

/-- C19: for every index and non-empty query, when `docset` is non-empty every result has
that docset; when `version` is non-empty too every result has that version; when `docset`
is empty the `version` argument has no effect and the search is global: every matching row,
of whatever docset, is among the results as long as the matching rows fit in the limit. -/
theorem C19_search_scope (fts : Fts) (ix : Index) (query docset version : Str) (limit : Int)
    (hq : query ≠ []) :
    (∀ results, Search fts ix query docset version limit = .ok results →
      (docset ≠ [] → ∀ r ∈ results, r.Entry.Docset = docset) ∧
      (docset ≠ [] → version ≠ [] → ∀ r ∈ results, r.Entry.Version = version)) ∧
    Search fts ix query [] version limit = Search fts ix query [] [] limit ∧
    (∀ m results, fts.matchExpr (escapeFTS5Query query) = some m →
      Search fts ix query [] version limit = .ok results →
      ((ix.docs.filter m).length : Int) ≤ (if limit ≤ 0 then 50 else limit) →
      ∀ e ∈ ix.docs, m e = true → ∃ r ∈ results, r.Entry = e) := by
  refine ⟨?_, ?_, ?_⟩
  · intro results h
    have hmem := Search_mem fts ix query docset version limit hq results h
    constructor
    · intro hd r hr
      have := (hmem r hr).2
      by_cases hv : version = []
      · simpa [Search.scope, hd, hv] using this
      · have h2 : r.Entry.Docset = docset ∧ r.Entry.Version = version := by
          simpa [Search.scope, hd, hv] using this
        exact h2.1
    · intro hd hv r hr
      have := (hmem r hr).2
      have h2 : r.Entry.Docset = docset ∧ r.Entry.Version = version := by
        simpa [Search.scope, hd, hv] using this
      exact h2.2
  · simp [Search, Search.scope]
  · intro m results hm h hfit e he hme
    obtain ⟨m2, hm2, hres⟩ := Search_ok fts ix query [] version limit hq results h
    rw [hm] at hm2
    cases hm2
    have hscope : ∀ x, Search.scope [] version x = true := by
      intro x
      simp [Search.scope]
    have hfilter : ix.docs.filter (fun x => m x && Search.scope [] version x)
        = ix.docs.filter m := by
      congr 1
      funext x
      simp [hscope x]
    rw [hfilter] at hres
    have hlen : (List.insertionSort (fun a b : SearchResult => a.Rank ≤ b.Rank)
        ((ix.docs.filter m).map
          (fun e => ({ Entry := e, Rank := fts.bm25 (escapeFTS5Query query) ix.docs e,
                       Snippet := fts.snippet (escapeFTS5Query query) e } : SearchResult)))).length
        ≤ (if limit ≤ 0 then 50 else limit).toNat := by
      rw [List.length_insertionSort, List.length_map]
      omega
    rw [List.take_of_length_le hlen] at hres
    refine ⟨{ Entry := e, Rank := fts.bm25 (escapeFTS5Query query) ix.docs e,
              Snippet := fts.snippet (escapeFTS5Query query) e }, ?_, rfl⟩
    rw [hres]
    apply (List.perm_insertionSort _ _).symm.subset
    exact List.mem_map.mpr ⟨e, List.mem_filter.mpr ⟨he, hme⟩, rfl⟩

end Lazydocs

namespace Lazydocs

/-- C19, witness: `map` is indexed under `go` and under `javascript`. The global search
returns both rows, the search in `go` only the row of `go`. -/
theorem C19_search_scope_witness :
    Search exampleFts exampleIndex (str "map") [] [] 50
    = .ok [{ Entry := { Docset := str "go", Version := [], Symbol := str "map",
                        Title := str "map", Content := str "Go maps", Path := str "ref/map" },
             Rank := 0, Snippet := str "Go maps" },
           { Entry := { Docset := str "javascript", Version := [], Symbol := str "map",
                        Title := str "map", Content := str "Array map",
                        Path := str "array/map" },
             Rank := 0, Snippet := str "Array map" }] ∧
    ∃ results,
      Search exampleFts exampleIndex (str "map") (str "go") [] 50 = .ok results ∧
      results.length = 1 ∧ ∀ r ∈ results, r.Entry.Docset = str "go" :=
  ⟨by rfl,
    [{ Entry := { Docset := str "go", Version := [], Symbol := str "map",
                  Title := str "map", Content := str "Go maps", Path := str "ref/map" },
       Rank := 0, Snippet := str "Go maps" }],
    by rfl, by rfl,
    ((C19_search_scope exampleFts exampleIndex (str "map") (str "go") [] 50 (by decide)).1 _
      (by rfl)).1 (by decide)⟩

theorem strLe_refl (a : Str) : strLe a a = true := by
  induction a with
  | nil => rfl
  | cons x xs ih => simp [strLe, ih]

theorem strLe_total (a : Str) : ∀ b : Str, strLe a b = true ∨ strLe b a = true := by
  induction a with
  | nil => intro b; left; simp [strLe]
  | cons x xs ih =>
    intro b
    cases b with
    | nil => right; simp [strLe]
    | cons y ys =>
      simp only [strLe, Bool.or_eq_true, decide_eq_true_eq, Bool.and_eq_true, beq_iff_eq]
      rcases Nat.lt_trichotomy x.toNat y.toNat with h | h | h
      · exact Or.inl (Or.inl h)
      · rcases ih ys with h2 | h2
        · exact Or.inl (Or.inr ⟨h, h2⟩)
        · exact Or.inr (Or.inr ⟨h.symm, h2⟩)
      · exact Or.inr (Or.inl h)

theorem strLe_trans (a : Str) :
    ∀ b c : Str, strLe a b = true → strLe b c = true → strLe a c = true := by
  induction a with
  | nil => intro b c _ _; simp [strLe]
  | cons x xs ih =>
    intro b c hab hbc
    cases b with
    | nil => simp [strLe] at hab
    | cons y ys =>
      cases c with
      | nil => simp [strLe] at hbc
      | cons z zs =>
        simp only [strLe, Bool.or_eq_true, decide_eq_true_eq, Bool.and_eq_true,
          beq_iff_eq] at hab hbc ⊢
        rcases hab with h1 | ⟨h1, h1'⟩
        · rcases hbc with h2 | ⟨h2, _⟩
          · exact Or.inl (by omega)
          · exact Or.inl (by omega)
        · rcases hbc with h2 | ⟨h2, h2'⟩
          · exact Or.inl (by omega)
          · exact Or.inr ⟨by omega, ih ys zs h1' h2'⟩

theorem ListDocsets.order_total (a b : DocsetRow) :
    ListDocsets.order a b = true ∨ ListDocsets.order b a = true := by
  simp only [ListDocsets.order, Bool.and_eq_true, Bool.or_eq_true, Bool.not_eq_true']
  by_cases h1 : strLe a.name b.name = true
  · by_cases h2 : strLe b.name a.name = true
    · rcases strLe_total b.version a.version with h3 | h3
      · exact Or.inl ⟨h1, Or.inr h3⟩
      · exact Or.inr ⟨h2, Or.inr h3⟩
    · exact Or.inl ⟨h1, Or.inl (by simpa using h2)⟩
  · have h2 : strLe b.name a.name = true := by
      rcases strLe_total a.name b.name with h | h
      · exact absurd h h1
      · exact h
    exact Or.inr ⟨h2, Or.inl (by simpa using h1)⟩

theorem ListDocsets.order_trans (a b c : DocsetRow) (hab : ListDocsets.order a b = true)
    (hbc : ListDocsets.order b c = true) : ListDocsets.order a c = true := by
  simp only [ListDocsets.order, Bool.and_eq_true, Bool.or_eq_true, Bool.not_eq_true']
    at hab hbc ⊢
  obtain ⟨n1, v1⟩ := hab
  obtain ⟨n2, v2⟩ := hbc
  refine ⟨strLe_trans _ _ _ n1 n2, ?_⟩
  by_cases hca : strLe c.name a.name = true
  · right
    have hcb : strLe c.name b.name = true := strLe_trans _ _ _ hca n1
    have hba : strLe b.name a.name = true := strLe_trans _ _ _ n2 hca
    have w1 : strLe b.version a.version = true := by
      rcases v1 with h | h
      · rw [hba] at h; cases h
      · exact h
    have w2 : strLe c.version b.version = true := by
      rcases v2 with h | h
      · rw [hcb] at h; cases h
      · exact h
    exact strLe_trans _ _ _ w2 w1
  · left
    simpa using hca

end Lazydocs

namespace Lazydocs

/-- C20, counterexample: `python` is installed in the versions 3.9 and 3.10, the newer one
later and with the later modification time. As text `3.10` sorts below `3.9`, so
`ListDocsets` lists 3.9 first and the newest version second. -/
theorem C20_counterexample :
    strLe (str "3.10") (str "3.9") = true ∧ strLe (str "3.9") (str "3.10") = false ∧
    ListDocsets false
      { docs := [],
        docsets := [{ id := 1, slug := str "python~3.9", name := str "python",
                      version := str "3.9", display_name := str "Python", entry_count := 0,
                      mtime := 100, installed_at := 1000 },
                    { id := 2, slug := str "python~3.10", name := str "python",
                      version := str "3.10", display_name := str "Python", entry_count := 0,
                      mtime := 200, installed_at := 2000 }] }
    = .ok [{ ID := 1, Slug := str "python~3.9", Name := str "python", Version := str "3.9",
             DisplayName := str "Python", EntryCount := 0, Mtime := 100 },
           { ID := 2, Slug := str "python~3.10", Name := str "python", Version := str "3.10",
             DisplayName := str "Python", EntryCount := 0, Mtime := 200 }] :=
  ⟨by decide, by decide, by rfl⟩

/-- C20, amended: `ListDocsets` lists all installed docsets, ordered by name ascending and,
within one name, by version descending, names and versions compared as text, character by
character. -/
theorem C20_list_docsets_order (ix : Index) :
    ∃ ds, ListDocsets false ix = .ok ds ∧
      ds.Perm (ix.docsets.map ListDocsets.scan) ∧
      ds.Pairwise (fun a b => strLe a.Name b.Name = true ∧
        (a.Name = b.Name → strLe b.Version a.Version = true)) := by
  haveI : IsTotal DocsetRow (fun a b => ListDocsets.order a b = true) :=
    ⟨ListDocsets.order_total⟩
  haveI : IsTrans DocsetRow (fun a b => ListDocsets.order a b = true) :=
    ⟨ListDocsets.order_trans⟩
  refine ⟨_, rfl, (List.perm_insertionSort _ _).map _, ?_⟩
  rw [List.pairwise_map]
  have hsorted := List.sorted_insertionSort (fun a b => ListDocsets.order a b = true)
    ix.docsets
  refine List.Pairwise.imp ?_ hsorted
  intro a b hab
  simp only [ListDocsets.order, Bool.and_eq_true, Bool.or_eq_true, Bool.not_eq_true'] at hab
  refine ⟨hab.1, ?_⟩
  intro hname
  simp only [ListDocsets.scan] at hname ⊢
  rcases hab.2 with h | h
  · rw [hname, strLe_refl] at h
    cases h
  · exact h

end Lazydocs

/-! ## The empty query, the limit and the empty match expression -/

namespace Lazydocs

/-- C23: for every engine, index state, docset, version and limit, `Search` with the empty
query returns the empty result set and no error; the result is the same whatever the index
holds and whatever the engine would answer, so the index is not read. -/
theorem C23_empty_query (fts : Fts) (ix : Index) (docset version : Str) (limit : Int) :
    Search fts ix [] docset version limit = .ok [] := by
  simp [Search]

/-- The limit `Search` passes to the query. -/
theorem Search_limit_default (fts : Fts) (ix : Index) (query docset version : Str)
    (limit : Int) (hl : limit ≤ 0) :
    Search fts ix query docset version limit = Search fts ix query docset version 50 := by
  simp [Search, hl]

/-- C24: for every non-empty query, `Search` with a limit `<= 0` is `Search` with the limit
50; a successful `Search` returns the first hits in rank order up to the limit in use (50
for a given limit `<= 0`, the given limit otherwise): as many results as there are matching
rows in scope when these are fewer, and never more than the limit. -/
theorem C24_search_limit (fts : Fts) (ix : Index) (query docset version : Str) (limit : Int)
    (hq : query ≠ []) :
    (limit ≤ 0 →
      Search fts ix query docset version limit = Search fts ix query docset version 50) ∧
    (∀ results, Search fts ix query docset version limit = .ok results →
      (results.length : Int) ≤ (if limit ≤ 0 then 50 else limit) ∧
      ∃ m, fts.matchExpr (escapeFTS5Query query) = some m ∧
        results.length
          = min (if limit ≤ 0 then 50 else limit).toNat
              (ix.docs.filter (fun e => m e && Search.scope docset version e)).length) := by
  refine ⟨Search_limit_default fts ix query docset version limit, ?_⟩
  intro results h
  obtain ⟨m, hm, hres⟩ := Search_ok fts ix query docset version limit hq results h
  have hlen : results.length
      = min (if limit ≤ 0 then 50 else limit).toNat
          (ix.docs.filter (fun e => m e && Search.scope docset version e)).length := by
    rw [hres, List.length_take, List.length_insertionSort, List.length_map]
  refine ⟨?_, m, hm, hlen⟩
  rw [hlen]
  split_ifs with hl
  · simp only [Int.reduceToNat]
    omega
  · have : (0 : Int) ≤ limit := by omega
    omega

/-- C24, witness: the index holds `map` twice; with the limit 1 the search returns one hit,
with the limit 0 it returns both, as with the limit 50. -/
theorem C24_search_limit_witness :
    (∃ results, Search exampleFts exampleIndex (str "map") [] [] 1 = .ok results ∧
      results.length = 1) ∧
    (∃ results, Search exampleFts exampleIndex (str "map") [] [] 0 = .ok results ∧
      results.length = 2) ∧
    Search exampleFts exampleIndex (str "map") [] [] 0
      = Search exampleFts exampleIndex (str "map") [] [] 50 :=
  ⟨⟨_, by rfl, by rfl⟩, ⟨_, by rfl, by rfl⟩,
    (C24_search_limit exampleFts exampleIndex (str "map") [] [] 0 (by decide)).1 (by decide)⟩

/-- C26, the code at the failing input: for a query that is not empty but has no term left
after sanitisation, `Search` hands the empty match expression to the engine. When the engine
rejects it, as FTS5 does with a syntax error, `Search` returns the error; when the engine
accepts it, `Search` returns the rows the engine matches. -/
theorem C26_empty_match_expression_is_run (fts : Fts) (ix : Index)
    (query docset version : Str) (limit : Int)
    (hq : query ≠ []) (he : escapeFTS5Query query = []) :
    (fts.matchExpr [] = none →
      Search fts ix query docset version limit = .error "search query failed") ∧
    (∀ m, fts.matchExpr [] = some m →
      Search fts ix query docset version limit
        = .ok ((((ix.docs.filter (fun e => m e && Search.scope docset version e)).map
            (fun e => ({ Entry := e, Rank := fts.bm25 [] ix.docs e,
                         Snippet := fts.snippet [] e } : SearchResult))).insertionSort
              (fun a b => a.Rank ≤ b.Rank)).take (if limit ≤ 0 then 50 else limit).toNat)) := by
  constructor
  · intro hm
    simp [Search, hq, he, hm]
  · intro m hm
    simp [Search, hq, he, hm]

/-- C26, witness: the query of one space, on an engine that rejects the empty match
expression and on one that accepts it and matches every row. -/
theorem C26_empty_match_expression_is_run_witness :
    str " " ≠ [] ∧ escapeFTS5Query (str " ") = [] ∧
    Search
      { matchExpr := fun q => if q = [] then none else some (fun e => e.Symbol ++ str "*" == q),
        bm25 := fun _ _ _ => 0, snippet := fun _ e => e.Content }
      exampleIndex (str " ") [] [] 50 = .error "search query failed" ∧
    (∃ results,
      Search
        { matchExpr := fun _ => some (fun _ => true),
          bm25 := fun _ _ _ => 0, snippet := fun _ e => e.Content }
        exampleIndex (str " ") [] [] 50 = .ok results ∧ results.length = 2) :=
  ⟨by decide, by decide,
    (C26_empty_match_expression_is_run
      { matchExpr := fun q => if q = [] then none else some (fun e => e.Symbol ++ str "*" == q),
        bm25 := fun _ _ _ => 0, snippet := fun _ e => e.Content }
      exampleIndex (str " ") [] [] 50 (by decide) (by decide)).1 rfl,
    ⟨_, by rfl, by rfl⟩⟩

end Lazydocs

/-! ## Install then remove, and the last index entry -/

namespace Lazydocs

theorem sqlDeleteDocs_none (name version : Str) (docs : List Entry)
    (hrows : ∀ e ∈ docs, ¬ (e.Docset = name ∧ e.Version = version)) :
    docs.filter (fun e => !(e.Docset == name && e.Version == version)) = docs := by
  rw [List.filter_eq_self]
  intro e he
  have := hrows e he
  simp only [Bool.not_eq_true', Bool.and_eq_false_iff, beq_eq_false_iff_ne, ne_eq]
  by_cases hd : e.Docset = name
  · exact Or.inr (fun hv => this ⟨hd, hv⟩)
  · exact Or.inl hd

theorem sqlDeleteDocset_none (slug : Str) (rows : List DocsetRow)
    (hmeta : ∀ r ∈ rows, r.slug ≠ slug) :
    rows.filter (fun r => !(r.slug == slug)) = rows := by
  rw [List.filter_eq_self]
  intro r hr
  simpa using hmeta r hr

/-- The metadata rows after the upsert of a slug that had no row, then its delete. -/
theorem sqlDeleteDocset_upsert (slug name version displayName : Str)
    (entryCount mtime now : Int) (ix : Index) (hmeta : ∀ r ∈ ix.docsets, r.slug ≠ slug) :
    (sqlUpsertDocset slug name version displayName entryCount mtime now ix).docsets.filter
      (fun r => !(r.slug == slug)) = ix.docsets := by
  have hany : ix.docsets.any (fun r => r.slug == slug) = false := by
    rw [Bool.eq_false_iff]
    intro h
    obtain ⟨r, hr, hs⟩ := List.any_eq_true.mp h
    exact hmeta r hr (by simpa using hs)
  unfold sqlUpsertDocset
  simp only [hany, Bool.false_eq_true, if_false, List.filter_append]
  rw [sqlDeleteDocset_none slug ix.docsets hmeta]
  simp

/-- C27: on a connection with no open transaction, for every index state, every slug with no
metadata row and no entry row of `ParseSlug slug` in it, every docset built from the slug
and every entry list whose entries carry that `(name, version)`: `IndexDocset` followed by a
successful `RemoveDocset(slug)` leaves the entry rows and the metadata rows exactly as they
were before. -/
theorem C27_install_then_remove (f1 f2 : Faults) (now : Int) (c : Conn) (slug : Str)
    (docset : Docset) (entries : List Entry)
    (hc : c.pending = none)
    (hmeta : ∀ r ∈ c.committed.docsets, r.slug ≠ slug)
    (hrows : ∀ e ∈ c.committed.docs,
      ¬ (e.Docset = (ParseSlug slug).1 ∧ e.Version = (ParseSlug slug).2))
    (hslug : docset.Slug = slug) (hname : docset.Name = (ParseSlug slug).1)
    (hver : docset.Version = (ParseSlug slug).2)
    (hent : ∀ e ∈ entries, e.Docset = (ParseSlug slug).1 ∧ e.Version = (ParseSlug slug).2)
    (hrem : (RemoveDocset f2 (IndexDocset f1 now c docset entries).2 slug).1 = none) :
    (RemoveDocset f2 (IndexDocset f1 now c docset entries).2 slug).2 = c := by
  obtain ⟨⟨docs, docsets⟩, p⟩ := c
  simp only at hc hmeta hrows
  subst hc
  by_cases hix : (IndexDocset f1 now ⟨⟨docs, docsets⟩, none⟩ docset entries).1 = none
  · have e1 := IndexDocset_ok_eq f1 now ⟨⟨docs, docsets⟩, none⟩ docset entries rfl hix
    rw [e1] at hrem ⊢
    rw [RemoveDocset_ok_eq f2 _ slug rfl hrem]
    simp only [sqlDeleteDocset, sqlDeleteDocs, sqlUpsertDocset_docs, hname, hver]
    have hdocs := sqlDeleteDocs_append_own (ParseSlug slug).1 (ParseSlug slug).2 docs entries
      hent
    simp only [sqlDeleteDocs] at hdocs
    rw [hdocs, sqlDeleteDocs_none _ _ docs hrows, hslug]
    have hrowsets := sqlDeleteDocset_upsert slug (ParseSlug slug).1 (ParseSlug slug).2
      docset.DisplayName (entries.length : Int) docset.Mtime now
      { docs := docs ++ entries, docsets := docsets } hmeta
    simp only at hrowsets
    rw [hrowsets]
  · have e1 := IndexDocset_error_unchanged f1 now ⟨⟨docs, docsets⟩, none⟩ docset entries rfl hix
    rw [e1] at hrem ⊢
    rw [RemoveDocset_ok_eq f2 _ slug rfl hrem]
    simp only [sqlDeleteDocset, sqlDeleteDocs]
    rw [sqlDeleteDocs_none _ _ docs hrows, sqlDeleteDocset_none slug docsets hmeta]

/-- C27, witness: `rails~7.1` is installed into an index that holds `go` and removed
again. -/
theorem C27_install_then_remove_witness :
    (RemoveDocset {}
      (IndexDocset {} 7
        { committed :=
            { docs := [{ Docset := str "go", Version := [], Symbol := str "fmt",
                         Title := str "fmt", Content := str "text", Path := str "fmt" }],
              docsets := [{ id := 1, slug := str "go", name := str "go", version := [],
                            display_name := str "Go", entry_count := 1, mtime := 3,
                            installed_at := 5 }] },
          pending := none }
        (Download.docset { Slug := str "rails~7.1" } [])
        [{ Docset := str "rails", Version := str "7.1", Symbol := str "Guide",
           Title := str "Guide", Content := str "text", Path := str "/guide" }]).2
      (str "rails~7.1")).2
    = { committed :=
          { docs := [{ Docset := str "go", Version := [], Symbol := str "fmt",
                       Title := str "fmt", Content := str "text", Path := str "fmt" }],
            docsets := [{ id := 1, slug := str "go", name := str "go", version := [],
                          display_name := str "Go", entry_count := 1, mtime := 3,
                          installed_at := 5 }] },
        pending := none } :=
  C27_install_then_remove {} {} 7
    { committed :=
        { docs := [{ Docset := str "go", Version := [], Symbol := str "fmt",
                     Title := str "fmt", Content := str "text", Path := str "fmt" }],
          docsets := [{ id := 1, slug := str "go", name := str "go", version := [],
                        display_name := str "Go", entry_count := 1, mtime := 3,
                        installed_at := 5 }] },
      pending := none }
    (str "rails~7.1") (Download.docset { Slug := str "rails~7.1" } [])
    [{ Docset := str "rails", Version := str "7.1", Symbol := str "Guide",
       Title := str "Guide", Content := str "text", Path := str "/guide" }]
    rfl (by decide) (by decide) rfl rfl rfl (by decide) (by decide)

end Lazydocs

namespace Lazydocs

theorem parseDocset.buildMeta_append (xs ys : List DocsetEntry) :
    ∀ entryMeta : Str → Option DocsetEntry,
      ∃ entryMeta2, parseDocset.buildMeta (xs ++ ys) entryMeta
        = parseDocset.buildMeta ys entryMeta2 := by
  induction xs with
  | nil => intro m; exact ⟨m, rfl⟩
  | cons x xs ih =>
    intro m
    simp only [List.cons_append, parseDocset.buildMeta]
    exact ih _

/-- The map `entryMeta` holds, under a key, the last index entry with that key. -/
theorem parseDocset.buildMeta_last (pre post : List DocsetEntry) (e : DocsetEntry)
    (entryMeta : Str → Option DocsetEntry) (k : Str)
    (hk : parseDocset.normalize e.Path = k)
    (hpost : ∀ x ∈ post, parseDocset.normalize x.Path ≠ k) :
    parseDocset.buildMeta (pre ++ e :: post) entryMeta k = some e := by
  obtain ⟨m2, hm2⟩ := parseDocset.buildMeta_append pre (e :: post) entryMeta
  rw [hm2]
  simp only [parseDocset.buildMeta]
  rcases parseDocset.buildMeta_spec post
      (fun k2 => if k2 = parseDocset.normalize e.Path then some e else m2 k2) k
    with ⟨x, hx, hxk, _⟩ | ⟨_, hget⟩
  · exact absurd hxk (hpost x hx)
  · rw [hget]
    simp [hk]

/-- C28: `parseDocset` keys each structural-index entry by the text of its path before the
first `#`. When the index is `pre ++ e :: post`, the key of `e` is the content path and no
entry of `post` has that key, so that `e` is the last entry with the key, then the entry
built for the content path has the name of `e` as symbol and title, and so has every entry
of the result under that path. -/
theorem C28_last_index_entry_wins (env : Env) (manifest : ManifestEntry) (data : Bytes)
    (pre post : List DocsetEntry) (e : DocsetEntry) (contentMap : List (Str × Str))
    (path html md : Str)
    (hu : env.unmarshal data = .ok contentMap)
    (hmem : (path, html) ∈ contentMap) (hconv : Convert env.htmltomd html = .ok md)
    (hkey : e.Path.takeWhile (fun c => c != '#') = path)
    (hlast : ∀ x ∈ post, x.Path.takeWhile (fun c => c != '#') ≠ path) :
    ∃ entries,
      parseDocset env manifest data { Entries := pre ++ e :: post } = .ok entries ∧
      { Docset := (ParseSlug manifest.Slug).1, Version := (ParseSlug manifest.Slug).2,
        Symbol := e.Name, Title := e.Name, Content := md, Path := path } ∈ entries ∧
      ∀ x ∈ entries, x.Path = path → x.Symbol = e.Name ∧ x.Title = e.Name := by
  have hget : parseDocset.buildMeta (pre ++ e :: post) (fun _ => none) path = some e := by
    apply parseDocset.buildMeta_last
    · rw [parseDocset.normalize_eq_takeWhile]
      exact hkey
    · intro x hx
      rw [parseDocset.normalize_eq_takeWhile]
      exact hlast x hx
  refine ⟨_, parseDocset_of_unmarshal env manifest data _ contentMap hu, ?_, ?_⟩
  · apply (parseDocset.convertAll_mem _ _ _ _ _ _).2
    refine ⟨path, html, md, hmem, hconv, ?_⟩
    simp only [hget]
  · intro x hx hpath
    obtain ⟨p2, h2, md2, _, _, rfl⟩ := (parseDocset.convertAll_mem _ _ _ _ _ _).1 hx
    simp only at hpath
    subst hpath
    simp [hget]

/-- C28, witness: the index lists `Array#map` and then `Array#filter`, both on the page
`array`; the entry for the page gets the symbol and title `Array#filter`. -/
theorem C28_last_index_entry_wins_witness :
    parseDocset (installEnv [(str "array", str "<h1>Array</h1>")] [] (fun s => .ok s))
      { Slug := str "javascript" } []
      { Entries := [] ++ { Name := str "Array#map", Path := str "array#map" } ::
          [{ Name := str "Array#filter", Path := str "array#filter" }] }
      = .ok [{ Docset := str "javascript", Version := [], Symbol := str "Array#filter",
               Title := str "Array#filter", Content := str "<h1>Array</h1>",
               Path := str "array" }] ∧
    ∃ entries,
      parseDocset (installEnv [(str "array", str "<h1>Array</h1>")] [] (fun s => .ok s))
        { Slug := str "javascript" } []
        { Entries := [{ Name := str "Array#map", Path := str "array#map" }] ++
            { Name := str "Array#filter", Path := str "array#filter" } :: [] }
        = .ok entries ∧
      ∀ x ∈ entries, x.Path = str "array" →
        x.Symbol = str "Array#filter" ∧ x.Title = str "Array#filter" :=
  ⟨by rfl,
    (C28_last_index_entry_wins
      (installEnv [(str "array", str "<h1>Array</h1>")] [] (fun s => .ok s))
      { Slug := str "javascript" } []
      [{ Name := str "Array#map", Path := str "array#map" }] []
      { Name := str "Array#filter", Path := str "array#filter" }
      [(str "array", str "<h1>Array</h1>")] (str "array") (str "<h1>Array</h1>")
      (str "<h1>Array</h1>") rfl (by decide) (by rfl) (by decide) (by simp)).imp
      (fun _ h => ⟨h.1, h.2.2⟩)⟩

end Lazydocs

/-! ## Idempotence of the query sanitisation -/

namespace Lazydocs

theorem Fields.scan_word (w : Str) (hw : ∀ c ∈ w, isSpace c = false) (hne : w ≠ []) :
    ∀ (cur : Option Str) (rest : Str),
      Fields.scan (w ++ rest) cur = Fields.scan rest (some (cur.getD [] ++ w)) := by
  induction w with
  | nil => exact absurd rfl hne
  | cons c w ih =>
    intro cur rest
    have hc : isSpace c = false := hw c (List.mem_cons_self _ _)
    cases w with
    | nil => simp [Fields.scan, hc]
    | cons c2 w2 =>
      have := ih (fun x hx => hw x (List.mem_cons_of_mem _ hx)) (by simp)
        (some (cur.getD [] ++ [c])) rest
      simp only [List.cons_append, Fields.scan, hc, Bool.false_eq_true, if_false] at this ⊢
      rw [this]
      simp

/-- Splitting words that were joined by single spaces gives the words back. -/
theorem Fields_joined (init : List Str) (last : Str)
    (hw : ∀ w ∈ init ++ [last], w ≠ [] ∧ ∀ c ∈ w, isSpace c = false) :
    Fields ((init.map (fun w => w ++ str " ")).flatten ++ last) = init ++ [last] := by
  unfold Fields
  induction init with
  | nil =>
    have h := hw last (by simp)
    have := Fields.scan_word last h.2 h.1 none []
    simp only [List.append_nil] at this
    simp [this, Fields.scan]
  | cons w ws ih =>
    have h := hw w (by simp)
    have ih2 := ih (fun x hx => hw x (by
      rcases List.mem_append.mp hx with hx | hx
      · exact List.mem_append_left _ (List.mem_cons_of_mem _ hx)
      · exact List.mem_append_right _ hx))
    simp only [List.map_cons, List.flatten_cons, List.append_assoc, List.cons_append]
    rw [Fields.scan_word w h.2 h.1 none]
    have hsp : isSpace ' ' = true := by decide
    simp only [str, String.toList, List.cons_append, List.nil_append, Fields.scan, hsp,
      if_true, Option.getD_none]
    simp only [str, String.toList, List.append_assoc] at ih2
    show w :: Fields.scan ((List.map (fun w => w ++ [' ']) ws).flatten ++ last) none
      = w :: (ws ++ [last])
    rw [ih2]

/-- The sanitised query is a fixed point of the sanitisation, term by term. -/
theorem escapeFTS5Query_fields_again (query : Str) (init : List Str) (last : Str)
    (h : Fields (query.filter (fun c => !(specialChars.contains c))) = init ++ [last]) :
    Fields ((escapeFTS5Query query).filter (fun c => !(specialChars.contains c)))
      = init ++ [last] := by
  rw [escapeFTS5Query_of_fields query init last h]
  have hterm := term_spec query
  rw [h] at hterm
  have hkeep : ((init.map (fun w => w ++ str " ")).flatten ++ last).filter
      (fun c => !(specialChars.contains c))
      = (init.map (fun w => w ++ str " ")).flatten ++ last := by
    rw [List.filter_eq_self]
    intro c hc
    have hns : c ∉ specialChars := by
      rcases List.mem_append.mp hc with hc | hc
      · obtain ⟨l, hl, hcl⟩ := List.mem_flatten.mp hc
        obtain ⟨w, hw, rfl⟩ := List.mem_map.mp hl
        rcases List.mem_append.mp hcl with hcw | hsp
        · exact ((hterm w (by simp [hw])).2 c hcw).2
        · have : c = ' ' := by simpa [str] using hsp
          subst this
          decide
      · exact ((hterm last (by simp)).2 c hc).2
    simpa using hns
  have hstar : (str "*").filter (fun c => !(specialChars.contains c)) = [] := by decide
  rw [List.filter_append, hkeep, hstar, List.append_nil]
  exact Fields_joined init last (fun w hw => ⟨(hterm w hw).1, fun c hc => ((hterm w hw).2 c hc).1⟩)

theorem escapeFTS5Query_idem (query : Str) :
    escapeFTS5Query (escapeFTS5Query query) = escapeFTS5Query query := by
  rcases List.eq_nil_or_concat
    (Fields (query.filter (fun c => !(specialChars.contains c)))) with h | ⟨init, last, h⟩
  · rw [escapeFTS5Query_of_no_fields query h]
    decide
  · rw [List.concat_eq_append] at h
    rw [escapeFTS5Query_of_fields (escapeFTS5Query query) init last
      (escapeFTS5Query_fields_again query init last h)]
    exact (escapeFTS5Query_of_fields query init last h).symm

end Lazydocs

namespace Lazydocs

theorem chain_word (w t : Str) (hw : ∀ c ∈ w, isSpace c = false)
    (ht : List.Chain' (fun a b => ¬ (isSpace a = true ∧ isSpace b = true)) t) :
    List.Chain' (fun a b => ¬ (isSpace a = true ∧ isSpace b = true)) (w ++ t) := by
  induction w with
  | nil => exact ht
  | cons c w ih =>
    have hc : isSpace c = false := hw c (List.mem_cons_self _ _)
    rw [List.cons_append, List.chain'_cons']
    refine ⟨?_, ih (fun x hx => hw x (List.mem_cons_of_mem _ hx))⟩
    intro y _ hboth
    rw [hc] at hboth
    exact absurd hboth.1 (by simp)

/-- Words joined by single spaces and followed by a text that does not start with white
space: no two white-space characters are adjacent and the first character is not white
space. -/
theorem joined_chain (init : List Str) (t : Str)
    (hw : ∀ w ∈ init, w ≠ [] ∧ ∀ c ∈ w, isSpace c = false)
    (ht : List.Chain' (fun a b => ¬ (isSpace a = true ∧ isSpace b = true)) t)
    (hhead : ∀ c, t.head? = some c → isSpace c = false) :
    List.Chain' (fun a b => ¬ (isSpace a = true ∧ isSpace b = true))
      ((init.map (fun w => w ++ str " ")).flatten ++ t) ∧
    ∀ c, ((init.map (fun w => w ++ str " ")).flatten ++ t).head? = some c →
      isSpace c = false := by
  induction init with
  | nil => exact ⟨by simpa using ht, by simpa using hhead⟩
  | cons w ws ih =>
    obtain ⟨ih1, ih2⟩ := ih (fun x hx => hw x (List.mem_cons_of_mem _ hx))
    obtain ⟨hne, hns⟩ := hw w (List.mem_cons_self _ _)
    have heq : ((w :: ws).map (fun w => w ++ str " ")).flatten ++ t
        = w ++ ' ' :: ((ws.map (fun w => w ++ str " ")).flatten ++ t) := by
      simp [str]
    rw [heq]
    constructor
    · apply chain_word w _ hns
      rw [List.chain'_cons']
      refine ⟨?_, ih1⟩
      intro y hy hboth
      have := ih2 y (by simpa using hy)
      rw [this] at hboth
      exact absurd hboth.2 (by simp)
    · intro c hc
      obtain ⟨x, xs, rfl⟩ := List.exists_cons_of_ne_nil hne
      simp only [List.cons_append, List.head?_cons, Option.some.injEq] at hc
      exact hc ▸ hns x (List.mem_cons_self _ _)

/-- C30: `escapeFTS5Query` is idempotent, and a non-empty result has exactly one `*`, as its
last character, starts and ends with a character that is not white space and has no two
white-space characters in a row. -/
theorem C30_escape_idempotent (query : Str) :
    escapeFTS5Query (escapeFTS5Query query) = escapeFTS5Query query ∧
    (escapeFTS5Query query ≠ [] →
      (∃ body, escapeFTS5Query query = body ++ ['*'] ∧ '*' ∉ body) ∧
      (∀ c, (escapeFTS5Query query).head? = some c → isSpace c = false) ∧
      (∀ c, (escapeFTS5Query query).getLast? = some c → isSpace c = false) ∧
      (∀ pre a b post, escapeFTS5Query query = pre ++ a :: b :: post →
        ¬ (isSpace a = true ∧ isSpace b = true))) := by
  refine ⟨escapeFTS5Query_idem query, ?_⟩
  intro hne
  rcases List.eq_nil_or_concat
    (Fields (query.filter (fun c => !(specialChars.contains c)))) with h | ⟨init, last, h⟩
  · exact absurd (escapeFTS5Query_of_no_fields query h) hne
  · rw [List.concat_eq_append] at h
    have hq := escapeFTS5Query_of_fields query init last h
    have hterm := term_spec query
    rw [h] at hterm
    have hwords : ∀ w ∈ init, w ≠ [] ∧ ∀ c ∈ w, isSpace c = false :=
      fun w hw => ⟨(hterm w (by simp [hw])).1,
        fun c hc => ((hterm w (by simp [hw])).2 c hc).1⟩
    have hlast := hterm last (by simp)
    have hstar : isSpace '*' = false := by decide
    have hchain := joined_chain init (last ++ str "*") hwords
      (chain_word last _ (fun c hc => (hlast.2 c hc).1) (by simp [str]))
      (by
        intro c hc
        obtain ⟨x, xs, hx⟩ := List.exists_cons_of_ne_nil hlast.1
        rw [hx] at hc
        simp only [List.cons_append, List.head?_cons, Option.some.injEq] at hc
        exact hc ▸ (hlast.2 x (by rw [hx]; simp)).1)
    rw [← List.append_assoc] at hchain
    rw [hq]
    refine ⟨?_, hchain.2, ?_, ?_⟩
    · refine ⟨(init.map (fun w => w ++ str " ")).flatten ++ last, by simp [str], ?_⟩
      intro hmem
      have hns : ('*' : Char) ∉ specialChars := by
        rcases List.mem_append.mp hmem with hc | hc
        · obtain ⟨l, hl, hcl⟩ := List.mem_flatten.mp hc
          obtain ⟨w, hw, rfl⟩ := List.mem_map.mp hl
          rcases List.mem_append.mp hcl with hcw | hsp
          · exact ((hterm w (by simp [hw])).2 _ hcw).2
          · simp [str] at hsp
        · exact (hlast.2 _ hc).2
      exact hns (by simp [specialChars])
    · intro c hc
      have : ((init.map (fun w => w ++ str " ")).flatten ++ last ++ str "*").getLast?
          = some '*' := by
        simp [str]
      rw [this] at hc
      cases hc
      exact hstar
    · intro pre a b post heq
      rw [heq] at hchain
      have h1 := (List.chain'_append.mp hchain.1).2.1
      exact (List.chain'_cons.mp h1).1

/-- C30, witness: the query ` (foo)  bar: ` is sanitised to `foo bar*`, and `foo bar*` to
itself. -/
theorem C30_escape_idempotent_witness :
    escapeFTS5Query (str " (foo)  bar: ") = str "foo bar*" ∧
    escapeFTS5Query (str "foo bar*") = str "foo bar*" ∧
    ∃ body, escapeFTS5Query (str " (foo)  bar: ") = body ++ ['*'] ∧ '*' ∉ body :=
  ⟨by decide, by decide,
    ((C30_escape_idempotent (str " (foo)  bar: ")).2 (by decide)).1⟩

end Lazydocs

/-! ## Idempotence of the Markdown cleaning -/

namespace Lazydocs

/-- The loop changes nothing on lines that have no three blank ones in a row, when the
`blankCount` blank lines already seen leave room for the blank lines at the start. -/
theorem cleanMarkdown.loop_fixed (lines : List Str) :
    ∀ k : Nat, k ≤ 2 →
      (k = 2 → ∀ a t, lines = a :: t → TrimSpace a ≠ []) →
      (k = 1 → ∀ a b t, lines = a :: b :: t → ¬ (TrimSpace a = [] ∧ TrimSpace b = [])) →
      noTripleBlank lines → cleanMarkdown.loop lines k [] = lines := by
  induction lines with
  | nil => intro k _ _ _ _; rfl
  | cons l rest ih =>
    intro k hk h2 h1 h3
    rw [cleanMarkdown.loop_cons]
    by_cases hb : TrimSpace l = []
    · have hk2 : k ≠ 2 := fun hk2 => h2 hk2 l rest rfl hb
      have hk1 : k + 1 ≤ 2 := by omega
      rw [if_pos hb, if_pos hk1]
      congr 1
      apply ih (k + 1) hk1
      · intro hk' a t heq hba
        exact h1 (by omega) l a t (by rw [heq]) ⟨hb, hba⟩
      · intro hk' a b t heq hab
        exact h3 [] l a b t (by rw [heq]; rfl) ⟨hb, hab.1, hab.2⟩
      · exact noTripleBlank_tail l rest h3
    · rw [if_neg hb]
      congr 1
      apply ih 0 (by omega)
      · intro hk'
        omega
      · intro hk'
        omega
      · exact noTripleBlank_tail l rest h3

theorem TrimSpace_idem (s : Str) : TrimSpace (TrimSpace s) = TrimSpace s := by
  by_cases hnil : TrimSpace s = []
  · rw [hnil]
    rfl
  · obtain ⟨c, t, hc⟩ := List.exists_cons_of_ne_nil hnil
    have hhead : (TrimSpace s).head? = some c := by rw [hc]; rfl
    obtain ⟨d, hd⟩ : ∃ d, (TrimSpace s).getLast? = some d := by
      cases hl : (TrimSpace s).getLast? with
      | none => exact absurd (List.getLast?_eq_none_iff.mp hl) hnil
      | some d => exact ⟨d, rfl⟩
    exact TrimSpace_id _ c d hhead ((TrimSpace_ends s).1 c hhead) hd ((TrimSpace_ends s).2 d hd)

/-- C29: `cleanMarkdown` is idempotent. -/
theorem C29_clean_markdown_idempotent (md : Str) :
    cleanMarkdown (cleanMarkdown md) = cleanMarkdown md := by
  obtain ⟨R3, r1, r2, r3⟩ := TrimSpace_Join _ (cleanMarkdown.lines_spec md).1
    (cleanMarkdown.lines_spec md).2
  have hcm : cleanMarkdown md = Join R3 ['\n'] := r3
  have htrim : cleanMarkdown md = TrimSpace (cleanMarkdown md) := by
    conv_lhs => unfold cleanMarkdown
    conv_rhs => unfold cleanMarkdown
    exact (TrimSpace_idem _).symm
  by_cases hne : R3 = []
  · rw [hcm, hne]
    decide
  · have hs : str "\n" = ['\n'] := rfl
    have hstep : cleanMarkdown (Join R3 ['\n']) = TrimSpace (Join R3 ['\n']) := by
      conv_lhs => unfold cleanMarkdown
      rw [hs, Split_Join R3 '\n' hne r1,
        cleanMarkdown.loop_fixed R3 0 (by omega) (fun h => by omega) (fun h => by omega) r2]
    rw [hcm, hstep, ← hcm]
    exact htrim.symm

end Lazydocs

/-! ## Storage: the directory of a docset -/

namespace Lazydocs

theorem Split_ne_nil (s : Str) (sep : Char) : Split s sep ≠ [] := by
  induction s with
  | nil => simp [Split]
  | cons c cs ih =>
    by_cases hc : c = sep
    · simp [Split, hc]
    · cases hs : Split cs sep with
      | nil => exact absurd hs ih
      | cons x xs => simp [Split, hc, hs]

theorem Split_append (a b : Str) (sep : Char) :
    Split (a ++ sep :: b) sep = Split a sep ++ Split b sep := by
  induction a with
  | nil => simp [Split]
  | cons c cs ih =>
    by_cases hc : c = sep
    · simp [Split, hc, ih]
    · obtain ⟨x, xs, hx⟩ := List.exists_cons_of_ne_nil (Split_ne_nil cs sep)
      have h1 : Split (c :: (cs ++ sep :: b)) sep
          = (match Split (cs ++ sep :: b) sep with
            | [] => [[c]]
            | w :: ws => (c :: w) :: ws) := by simp [Split, hc]
      have h2 : Split (c :: cs) sep
          = (match Split cs sep with
            | [] => [[c]]
            | w :: ws => (c :: w) :: ws) := by simp [Split, hc]
      rw [List.cons_append, h1, h2, ih, hx]
      rfl

theorem filepath.rooted_append (a b : Str) (ha : a ≠ []) :
    filepath.rooted (a ++ b) = filepath.rooted a := by
  obtain ⟨x, xs, rfl⟩ := List.exists_cons_of_ne_nil ha
  simp [filepath.rooted]

theorem filepath.Clean.step_plain (rooted : Bool) (out : List Str) (elem : Str)
    (h : filepath.plainElem elem) : filepath.Clean.step rooted out elem = out ++ [elem] := by
  obtain ⟨h1, _, h3, h4⟩ := h
  simp [filepath.Clean.step, h1, h3, h4]

/-- The elements of a path followed by a separator and a plain element. -/
theorem filepath.Clean.elems_append_plain (base elem : Str) (hbase : base ≠ [])
    (h : filepath.plainElem elem) :
    filepath.Clean.elems (base ++ str "/" ++ elem) = filepath.Clean.elems base ++ [elem] := by
  have hs : base ++ str "/" ++ elem = base ++ '/' :: elem := by simp [str]
  unfold filepath.Clean.elems
  rw [hs, Split_append, Split_of_not_mem elem '/' h.2.1, List.foldl_append,
    ← hs, List.append_assoc, filepath.rooted_append base _ hbase]
  simp only [List.foldl_cons, List.foldl_nil]
  exact filepath.Clean.step_plain _ _ elem h

theorem filepath.Join_cons_of_ne (e : Str) (rest : List Str) (he : e ≠ []) :
    filepath.Join (e :: rest) = filepath.Clean (Lazydocs.Join (e :: rest) (str "/")) := by
  simp [filepath.Join, he]

theorem filepath.Clean_of_ne (path : Str) (h : path ≠ []) :
    filepath.Clean path
      = filepath.Clean.render (filepath.rooted path) (filepath.Clean.elems path) := by
  simp [filepath.Clean, h]

/-- The directory of a docset as a cleaned path, for a non-empty base directory. -/
theorem Storage.docsetDir_eq_Clean (s : Storage) (name version : Str)
    (hbase : s.baseDir ≠ []) :
    (version ≠ [] → s.docsetDir name version
      = filepath.Clean (s.baseDir ++ str "/" ++ name ++ str "/" ++ version)) ∧
    (version = [] → s.docsetDir name version
      = filepath.Clean (s.baseDir ++ str "/" ++ name)) := by
  constructor
  · intro hv
    simp [Storage.docsetDir, hv, filepath.Join, hbase, Join]
  · intro hv
    simp [Storage.docsetDir, hv, filepath.Join, hbase, Join]

/-- The directory of a docset with a plain name and an empty or plain version: the elements
of the base directory followed by the name and, if any, the version. -/
theorem Storage.docsetDir_plain (s : Storage) (name version : Str) (hbase : s.baseDir ≠ [])
    (hname : filepath.plainElem name) (hver : version = [] ∨ filepath.plainElem version) :
    s.docsetDir name version
      = filepath.Clean.render (filepath.rooted s.baseDir)
          (filepath.Clean.elems s.baseDir ++
            (if version = [] then [name] else [name, version])) := by
  by_cases hv : version = []
  · rw [(Storage.docsetDir_eq_Clean s name version hbase).2 hv,
      filepath.Clean_of_ne _ (by simp [hbase]),
      filepath.Clean.elems_append_plain s.baseDir name hbase hname,
      List.append_assoc, filepath.rooted_append s.baseDir _ hbase, if_pos hv]
  · have hpv : filepath.plainElem version := by
      rcases hver with h | h
      · exact absurd h hv
      · exact h
    rw [(Storage.docsetDir_eq_Clean s name version hbase).1 hv,
      filepath.Clean_of_ne _ (by simp [hbase]),
      filepath.Clean.elems_append_plain (s.baseDir ++ str "/" ++ name) version
        (by simp [hbase]) hpv,
      filepath.Clean.elems_append_plain s.baseDir name hbase hname, if_neg hv]
    have hr : filepath.rooted (s.baseDir ++ str "/" ++ name ++ str "/" ++ version)
        = filepath.rooted s.baseDir := by
      rw [List.append_assoc, List.append_assoc, List.append_assoc,
        filepath.rooted_append s.baseDir _ hbase]
    rw [hr]
    simp

end Lazydocs

/-! ## Storage: layout, scope and deletion -/

namespace Lazydocs

theorem filepath.Clean.render_ne_nil (rooted : Bool) (elems : List Str) :
    filepath.Clean.render rooted elems ≠ [] := by
  unfold filepath.Clean.render
  by_cases h : ((if rooted then str "/" else []) ++ Lazydocs.Join elems (str "/")) = []
  · rw [if_pos h]
    simp [str]
  · rw [if_neg h]
    exact h

theorem filepath.Clean_ne_nil (path : Str) : filepath.Clean path ≠ [] := by
  unfold filepath.Clean
  split_ifs with h1
  · simp [str]
  · exact filepath.Clean.render_ne_nil _ _

theorem filepath.Join_pair (dir file : Str) (hdir : dir ≠ []) :
    filepath.Join [dir, file] = filepath.Clean (dir ++ str "/" ++ file) := by
  simp [filepath.Join, hdir, Lazydocs.Join]

theorem Storage.docsetDir_ne_nil (s : Storage) (name version : Str) (hbase : s.baseDir ≠ []) :
    s.docsetDir name version ≠ [] := by
  by_cases hv : version = []
  · rw [(Storage.docsetDir_eq_Clean s name version hbase).2 hv]
    exact filepath.Clean_ne_nil _
  · rw [(Storage.docsetDir_eq_Clean s name version hbase).1 hv]
    exact filepath.Clean_ne_nil _

theorem os.MkdirAll_ok (d d1 : Disk) (path : Str) (h : os.MkdirAll d path = (none, d1)) :
    d1 = d := by
  unfold os.MkdirAll at h
  split_ifs at h
  · simp at h
  · simp at h
  · exact ((Prod.mk.inj h).2).symm

/-- A file that was written is the one read back and found by `os.Stat`. -/
theorem os.WriteFile_then_read (d d1 : Disk) (path : Str) (data : Bytes)
    (h : os.WriteFile d path data = (none, d1)) :
    os.ReadFile d1 path = .ok data ∧ os.Stat d1 path = true := by
  unfold os.WriteFile at h
  split_ifs at h with h1 h2
  · simp at h
  · simp at h
  · have hd := (Prod.mk.inj h).2
    subst hd
    simp [os.ReadFile, os.Stat, Disk.resolve, h1]

/-- A bundle that was saved is the one loaded back, and it exists. -/
theorem Storage.SaveDocset_then_load (s : Storage) (d d1 : Disk) (slug : Str) (data : Bytes)
    (h : s.SaveDocset d slug data = (none, d1)) :
    s.LoadDocset d1 slug = .ok data ∧ s.DocsetExists d1 slug = true := by
  unfold Storage.SaveDocset at h
  simp only at h
  cases hm : os.MkdirAll d (s.docsetDir (ParseSlug slug).1 (ParseSlug slug).2) with
  | mk e d0 =>
    rw [hm] at h
    cases e with
    | some err => simp at h
    | none =>
      simp only at h
      have hd := os.MkdirAll_ok d d0 _ hm
      subst hd
      exact os.WriteFile_then_read _ _ _ _ h

/-- Claim C21: for a base directory (a non-empty path), a name and a version, the directory
of the docset is the cleaned path `base/name/version` when the version is not empty and
`base/name` when it is; the bundle is the file `db.json` of that directory; and for a slug
that parses to this name and version, SaveDocset creates the directory and writes that
file, LoadDocset reads it, DocsetExists looks for it, DeleteDocset removes the directory,
and a bundle that was saved is loaded back and exists. -/
theorem C21_directory_layout (s : Storage) (name version : Str) (hbase : s.baseDir ≠ []) :
    (version ≠ [] → s.docsetDir name version
      = filepath.Clean (s.baseDir ++ str "/" ++ name ++ str "/" ++ version)) ∧
    (version = [] → s.docsetDir name version
      = filepath.Clean (s.baseDir ++ str "/" ++ name)) ∧
    filepath.Join [s.docsetDir name version, str "db.json"]
      = filepath.Clean (s.docsetDir name version ++ str "/" ++ str "db.json") ∧
    (∀ (d : Disk) (slug : Str), ParseSlug slug = (name, version) →
      (∀ data, s.SaveDocset d slug data
        = match os.MkdirAll d (s.docsetDir name version) with
          | (some err, d1) => (some err, d1)
          | (none, d1) =>
            os.WriteFile d1 (filepath.Join [s.docsetDir name version, str "db.json"]) data) ∧
      s.LoadDocset d slug
        = os.ReadFile d (filepath.Join [s.docsetDir name version, str "db.json"]) ∧
      s.DocsetExists d slug
        = os.Stat d (filepath.Join [s.docsetDir name version, str "db.json"]) ∧
      s.DeleteDocset d slug = os.RemoveAll d (s.docsetDir name version) ∧
      (∀ data d1, s.SaveDocset d slug data = (none, d1) →
        s.LoadDocset d1 slug = .ok data ∧ s.DocsetExists d1 slug = true)) := by
  refine ⟨(Storage.docsetDir_eq_Clean s name version hbase).1,
    (Storage.docsetDir_eq_Clean s name version hbase).2,
    filepath.Join_pair _ _ (Storage.docsetDir_ne_nil s name version hbase), ?_⟩
  intro d slug hslug
  refine ⟨?_, ?_, ?_, ?_, ?_⟩
  · intro data
    simp only [Storage.SaveDocset, hslug]
  · simp only [Storage.LoadDocset, hslug]
  · simp only [Storage.DocsetExists, hslug]
  · simp only [Storage.DeleteDocset, hslug]
  · intro data d1 h
    exact Storage.SaveDocset_then_load s d d1 slug data h

theorem C21_directory_layout_witness :
    (Storage.mk (str "/data/docs")).docsetDir (str "rails") (str "7.1")
      = str "/data/docs/rails/7.1" ∧
    filepath.Join [(Storage.mk (str "/data/docs")).docsetDir (str "rails") (str "7.1"),
        str "db.json"] = str "/data/docs/rails/7.1/db.json" ∧
    (Storage.mk (str "/data/docs")).LoadDocset
        ((Storage.mk (str "/data/docs")).SaveDocset (Disk.mk (str "/home") [])
          (str "rails~7.1") [1, 2]).2 (str "rails~7.1") = .ok [1, 2] := by
  have h := C21_directory_layout (Storage.mk (str "/data/docs")) (str "rails") (str "7.1")
    (by decide)
  refine ⟨(h.1 (by decide)).trans (by decide), h.2.2.1.trans (by decide), ?_⟩
  exact ((h.2.2.2 (Disk.mk (str "/home") []) (str "rails~7.1") (by decide)).2.2.2.2
    [1, 2] _ (by rfl)).1

end Lazydocs

namespace Lazydocs

/-- A path of a base followed by further elements is longer than the base alone renders:
no path strictly below `/data/docs` has ten characters or fewer. -/
theorem filepath.strictlyBelow_data_docs_length (dir : Str)
    (h : filepath.strictlyBelow (str "/data/docs") dir) : 10 < dir.length := by
  obtain ⟨ext, hne, _, hdir⟩ := h
  obtain ⟨e, rest, rfl⟩ := List.exists_cons_of_ne_nil hne
  have hr : filepath.rooted (str "/data/docs") = true := by decide
  have he : filepath.Clean.elems (str "/data/docs") = [str "data", str "docs"] := by decide
  rw [hr, he] at hdir
  have hj : Lazydocs.Join ([str "data", str "docs"] ++ e :: rest) (str "/")
      = str "data" ++ str "/" ++ (str "docs" ++ str "/" ++ Lazydocs.Join (e :: rest) (str "/")) := by
    rw [List.cons_append, List.cons_append, List.nil_append, Join_cons_cons, Join_cons_cons]
  have hx : filepath.Clean.render true ([str "data", str "docs"] ++ e :: rest)
      = str "/" ++ Lazydocs.Join ([str "data", str "docs"] ++ e :: rest) (str "/") := by
    unfold filepath.Clean.render
    simp [str]
  rw [hdir, hx, hj]
  simp [str]

/-- Claim C22, counterexample: with the base directory `/data/docs`, the empty slug gives
the base directory itself and the slug `..` gives `/data`, its parent; neither lies strictly
below the base, and DeleteDocset of `..` removes a file next to the base directory together
with every bundle. -/
theorem C22_directory_not_below_base :
    (Storage.mk (str "/data/docs")).docsetDir (ParseSlug []).1 (ParseSlug []).2
      = str "/data/docs" ∧
    ¬ filepath.strictlyBelow (str "/data/docs")
      ((Storage.mk (str "/data/docs")).docsetDir (ParseSlug []).1 (ParseSlug []).2) ∧
    (Storage.mk (str "/data/docs")).docsetDir (ParseSlug (str "..")).1 (ParseSlug (str "..")).2
      = str "/data" ∧
    ¬ filepath.strictlyBelow (str "/data/docs")
      ((Storage.mk (str "/data/docs")).docsetDir
        (ParseSlug (str "..")).1 (ParseSlug (str "..")).2) ∧
    (Storage.mk (str "/data/docs")).DeleteDocset
        (Disk.mk (str "/home")
          [([str "data", str "lazydocs.db"], [7]),
           ([str "data", str "docs", str "node", str "db.json"], [1])])
        (str "..")
      = (none, Disk.mk (str "/home") []) := by
  have h1 : (Storage.mk (str "/data/docs")).docsetDir (ParseSlug []).1 (ParseSlug []).2
      = str "/data/docs" := by decide
  have h2 : (Storage.mk (str "/data/docs")).docsetDir
      (ParseSlug (str "..")).1 (ParseSlug (str "..")).2 = str "/data" := by decide
  refine ⟨h1, ?_, h2, ?_, by decide⟩
  · intro h
    have hl := filepath.strictlyBelow_data_docs_length _ h
    rw [h1] at hl
    revert hl
    decide
  · intro h
    have hl := filepath.strictlyBelow_data_docs_length _ h
    rw [h2] at hl
    revert hl
    decide

/-- Claim C22, amended: for a base directory (a non-empty path) and a slug whose name is a
plain path element and whose version is empty or a plain path element, the directory the
storage operations work on lies strictly below the base directory: it is the cleaned base
followed by the name and, if any, the version, where the cleaned base itself is the
rendering of its own elements alone. -/
theorem C22_scoped_for_plain_slugs (s : Storage) (slug : Str) (hbase : s.baseDir ≠ [])
    (hname : filepath.plainElem (ParseSlug slug).1)
    (hver : (ParseSlug slug).2 = [] ∨ filepath.plainElem (ParseSlug slug).2) :
    filepath.strictlyBelow s.baseDir (s.docsetDir (ParseSlug slug).1 (ParseSlug slug).2) ∧
    s.docsetDir (ParseSlug slug).1 (ParseSlug slug).2
      = filepath.Clean.render (filepath.rooted s.baseDir)
          (filepath.Clean.elems s.baseDir ++
            (if (ParseSlug slug).2 = [] then [(ParseSlug slug).1]
             else [(ParseSlug slug).1, (ParseSlug slug).2])) ∧
    filepath.Clean s.baseDir
      = filepath.Clean.render (filepath.rooted s.baseDir) (filepath.Clean.elems s.baseDir) ∧
    (∀ d, s.DeleteDocset d slug
      = os.RemoveAll d (s.docsetDir (ParseSlug slug).1 (ParseSlug slug).2)) := by
  have hd := Storage.docsetDir_plain s _ _ hbase hname hver
  refine ⟨⟨_, ?_, ?_, hd⟩, hd, filepath.Clean_of_ne _ hbase, fun d => rfl⟩
  · split_ifs <;> simp
  · intro e he
    by_cases hv : (ParseSlug slug).2 = []
    · rw [if_pos hv] at he
      rw [List.mem_singleton] at he
      exact he ▸ hname
    · rw [if_neg hv] at he
      rcases hver with h | h
      · exact absurd h hv
      · simp only [List.mem_cons, List.mem_singleton, List.not_mem_nil, or_false] at he
        rcases he with he | he
        · exact he ▸ hname
        · exact he ▸ h

theorem C22_scoped_for_plain_slugs_witness :
    filepath.strictlyBelow (str "/data/docs")
      ((Storage.mk (str "/data/docs")).docsetDir
        (ParseSlug (str "rails~7.1")).1 (ParseSlug (str "rails~7.1")).2) ∧
    (Storage.mk (str "/data/docs")).docsetDir
        (ParseSlug (str "rails~7.1")).1 (ParseSlug (str "rails~7.1")).2
      = str "/data/docs/rails/7.1" :=
  ⟨(C22_scoped_for_plain_slugs (Storage.mk (str "/data/docs")) (str "rails~7.1")
      (by decide) (by decide) (Or.inr (by decide))).1,
   (C22_scoped_for_plain_slugs (Storage.mk (str "/data/docs")) (str "rails~7.1")
      (by decide) (by decide) (Or.inr (by decide))).2.1.trans (by decide)⟩

/-- Claim C25: with the bundles of `node` and of `node~18_lts` both saved under
`/data/docs`, the two slugs have different (name, version), and DeleteDocset of `node`
succeeds and takes the bundle of `node~18_lts` with it: LoadDocset of `node~18_lts` returns
the bundle before and an error after, and DocsetExists turns from true to false. -/
theorem C25_delete_takes_versioned_bundles :
    ParseSlug (str "node") ≠ ParseSlug (str "node~18_lts") ∧
    (Storage.mk (str "/data/docs")).SaveDocset (Disk.mk (str "/home") []) (str "node") [1]
      = (none, Disk.mk (str "/home")
          [([str "data", str "docs", str "node", str "db.json"], [1])]) ∧
    (Storage.mk (str "/data/docs")).SaveDocset
        (Disk.mk (str "/home") [([str "data", str "docs", str "node", str "db.json"], [1])])
        (str "node~18_lts") [2]
      = (none, Disk.mk (str "/home")
          [([str "data", str "docs", str "node", str "18_lts", str "db.json"], [2]),
           ([str "data", str "docs", str "node", str "db.json"], [1])]) ∧
    (Storage.mk (str "/data/docs")).LoadDocset
        (Disk.mk (str "/home")
          [([str "data", str "docs", str "node", str "18_lts", str "db.json"], [2]),
           ([str "data", str "docs", str "node", str "db.json"], [1])])
        (str "node~18_lts") = .ok [2] ∧
    (Storage.mk (str "/data/docs")).DocsetExists
        (Disk.mk (str "/home")
          [([str "data", str "docs", str "node", str "18_lts", str "db.json"], [2]),
           ([str "data", str "docs", str "node", str "db.json"], [1])])
        (str "node~18_lts") = true ∧
    (Storage.mk (str "/data/docs")).DeleteDocset
        (Disk.mk (str "/home")
          [([str "data", str "docs", str "node", str "18_lts", str "db.json"], [2]),
           ([str "data", str "docs", str "node", str "db.json"], [1])])
        (str "node")
      = (none, Disk.mk (str "/home") []) ∧
    (Storage.mk (str "/data/docs")).LoadDocset (Disk.mk (str "/home") [])
        (str "node~18_lts") = .error "open: no such file or directory" ∧
    (Storage.mk (str "/data/docs")).DocsetExists (Disk.mk (str "/home") [])
        (str "node~18_lts") = false := by
  refine ⟨by decide, by decide, by decide, by rfl, by decide, by decide, by rfl, by decide⟩

end Lazydocs
